import Mathlib

/-! Search engine core: the AVL posting index and the query processor.

A shallow embedding of `include/AVLTree.h`, `src/IndexHandler.cpp` and
`src/QueryProcessor.cpp`.

Modelling conventions.

* `std::shared_ptr<Node>` is the inductive type `AVLTree.Node`; `nullptr` is `Node.null`.
  The unused `value` field (always `ValueType()`) is left out.
* `std::unordered_map<std::string, double>` is an association list `List (D × S)`.
  The C++ container keeps its keys unique; the list model keeps them unique as an
  invariant (`DocScores.Nodup`).  The iteration order of the C++ container is unspecified;
  the model iterates in list order.
* The key type `K` is the template parameter `KeyType`, compared with `<`, `>` and `==`;
  it is a linearly ordered type here.  Document ids are a type `D` with decidable equality.
  Scores (`double`) are a type `S`; the tree never computes with them.
* Dereferencing a null pointer has no defined result in C++; operations that can do so
  return `Option`, with `none` standing for that case.
* `std::string` is a sequence of bytes, `Str := List Byte`.
-/

/-- One byte of a `std::string` or of a binary file. -/
abbrev Byte := Fin 256

/-- The type `std::string`: a sequence of bytes, ordered lexicographically. -/
abbrev Str := List Byte

/-- A string literal as a `std::string` (one byte per character, for ASCII text). -/
def str (s : String) : Str := s.toList.map (fun c => Fin.ofNat c.toNat)

/-! ## `std::unordered_map<std::string, double>` -/

namespace DocScores

variable {D S : Type} [DecidableEq D]

/-- The call `m.find(d)`: the score stored for `d`, if any. -/
def find? : List (D × S) → D → Option S
  | [], _ => none
  | (d', s) :: m, d => if d' = d then some s else find? m d

/-- The assignment `m[d] = s`: overwrite the entry of `d`, or add a new entry. -/
def set : List (D × S) → D → S → List (D × S)
  | [], d, s => [(d, s)]
  | (d', s') :: m, d, s => if d' = d then (d', s) :: m else (d', s') :: set m d s

/-- The call `m.erase(d)`. -/
def erase : List (D × S) → D → List (D × S)
  | [], _ => []
  | (d', s') :: m, d => if d' = d then erase m d else (d', s') :: erase m d

/-- The document ids of a map, in iteration order. -/
def keys (m : List (D × S)) : List D := m.map Prod.fst

/-- The container invariant of `std::unordered_map`: no key occurs twice. -/
def Nodup (m : List (D × S)) : Prop := (keys m).Nodup

end DocScores

/-! ## `AVLTree<KeyType, ValueType>` -/

namespace AVLTree

/-- The type `std::shared_ptr<Node>`: `null` is `nullptr`, `mk` a node with its key,
its `docScores`, its two children and its cached `height`. -/
inductive Node (K D S : Type) where
  | null : Node K D S
  | mk (key : K) (docScores : List (D × S)) (left right : Node K D S) (height : Int) :
      Node K D S
  deriving Repr, DecidableEq

variable {K D S : Type}

/-- The helper `height(node)`: the cached height, `0` for `nullptr`. -/
def height : Node K D S → Int
  | .null => 0
  | .mk _ _ _ _ h => h

/-- The helper `getBalanceFactor(node)`. -/
def getBalanceFactor : Node K D S → Int
  | .null => 0
  | .mk _ _ l r _ => height l - height r

/-- The test `p == nullptr`. -/
def isNull : Node K D S → Bool
  | .null => true
  | .mk _ _ _ _ _ => false

/-- The key `p->key` of a pointer; `none` when `p` is `nullptr`. -/
def keyOf : Node K D S → Option K
  | .null => none
  | .mk k _ _ _ _ => some k

/-- The function `rotateRight(y)`; `none` when `y` or `y->left` is `nullptr`. -/
def rotateRight : Node K D S → Option (Node K D S)
  | .mk yk yd (.mk xk xd xl T2 _) yr _ =>
      let y := Node.mk yk yd T2 yr (max (height T2) (height yr) + 1)
      some (.mk xk xd xl y (max (height xl) (height y) + 1))
  | _ => none

/-- The function `rotateLeft(x)`; `none` when `x` or `x->right` is `nullptr`. -/
def rotateLeft : Node K D S → Option (Node K D S)
  | .mk xk xd xl (.mk yk yd T2 yr _) _ =>
      let x := Node.mk xk xd xl T2 (max (height xl) (height T2) + 1)
      some (.mk yk yd x yr (max (height x) (height yr) + 1))
  | _ => none

/-- The short-circuit conjunction `a && b` where evaluating `b` may dereference a
null pointer: `b` is only evaluated when `a` holds. -/
def andThen (a : Bool) (b : Option Bool) : Option Bool :=
  if a then b else some false

variable [LinearOrder K] [DecidableEq D]

/-- Lines 103-129 of the private `insert`: after a child of `node` was replaced,
update the height of `node`, compute its balance factor and apply the four
rotation cases in the order of the source.  The argument carries the children as
already updated; its `height` field is the stale one and is overwritten. -/
def rebalance (key : K) : Node K D S → Option (Node K D S)
  | .null => none
  | .mk nk nd l r _ =>
    let node := Node.mk nk nd l r (1 + max (height l) (height r))
    let balance := getBalanceFactor node
    -- Left Left Case
    match andThen (decide (balance > 1)) ((keyOf l).map (fun lk => decide (key < lk))) with
    | none => none
    | some true => rotateRight node
    | some false =>
    -- Right Right Case
    match andThen (decide (balance < -1)) ((keyOf r).map (fun rk => decide (key > rk))) with
    | none => none
    | some true => rotateLeft node
    | some false =>
    -- Left Right Case
    match andThen (decide (balance > 1)) ((keyOf l).map (fun lk => decide (key > lk))) with
    | none => none
    | some true =>
      (rotateLeft l).bind (fun l' =>
        rotateRight (.mk nk nd l' r (1 + max (height l) (height r))))
    | some false =>
    -- Right Left Case
    match andThen (decide (balance < -1)) ((keyOf r).map (fun rk => decide (key < rk))) with
    | none => none
    | some true =>
      (rotateRight r).bind (fun r' =>
        rotateLeft (.mk nk nd l r' (1 + max (height l) (height r))))
    | some false => some node

/-- The private recursive `insert(node, key, docID, score)`.  A new node is created
with an empty `docScores`: line 91 does not store `docID` and `score`. -/
def insertNode : Node K D S → K → D → S → Option (Node K D S)
  | .null, key, _, _ => some (.mk key [] .null .null 1)
  | .mk nk nd l r h, key, docID, score =>
    if key < nk then
      (insertNode l key docID score).bind (fun l' => rebalance key (.mk nk nd l' r h))
    else if key > nk then
      (insertNode r key docID score).bind (fun r' => rebalance key (.mk nk nd l r' h))
    else
      -- Key exists, update document scores; no structural change
      some (.mk nk (DocScores.set nd docID score) l r h)

/-- The private recursive `search(node, key)`: the node holding `key`, or `nullptr`. -/
def searchNode : Node K D S → K → Node K D S
  | .null, _ => .null
  | .mk nk nd l r h, key =>
    if nk = key then .mk nk nd l r h
    else if key < nk then searchNode l key
    else searchNode r key

/-- The helper `traverseInOrder(node, func)`: the sequence of `(key, docScores)`
pairs that `func` is called on. -/
def traverseInOrder : Node K D S → List (K × List (D × S))
  | .null => []
  | .mk nk nd l r _ => traverseInOrder l ++ (nk, nd) :: traverseInOrder r

end AVLTree

/-- The class `AVLTree`: its only data member is `root`. -/
structure AVLTree (K D S : Type) where
  root : AVLTree.Node K D S
  deriving Repr, DecidableEq

namespace AVLTree

variable {K D S : Type} [LinearOrder K] [DecidableEq D]

/-- The constructor `AVLTree()`. -/
def empty : AVLTree K D S := ⟨.null⟩

/-- The public `insert(key, docID, score)`. -/
def insert (t : AVLTree K D S) (key : K) (docID : D) (score : S) : Option (AVLTree K D S) :=
  (insertNode t.root key docID score).map (fun r => ⟨r⟩)

/-- The public `search(key)`: the entries of the node found, in iteration order. -/
def search (t : AVLTree K D S) (key : K) : List (D × S) :=
  match searchNode t.root key with
  | .null => []
  | .mk _ nd _ _ _ => nd

/-- The public `isEmpty()`. -/
def isEmpty (t : AVLTree K D S) : Bool := isNull t.root

/-- A finite sequence of public `insert` calls, applied from left to right. -/
def insertAll (t : AVLTree K D S) : List (K × D × S) → Option (AVLTree K D S)
  | [] => some t
  | (k, d, s) :: ops => (t.insert k d s).bind (fun t' => insertAll t' ops)

end AVLTree

/-! ## Binary persistence: `serialize` and `deserialize`

The index files are written for `AVLTree<std::string, std::string>`: keys and
document ids are byte strings.  A `size_t` is written as its 8 bytes, least
significant first; a score is written as the 8 bytes of its object representation.
A read that reaches the end of the input leaves the C++ variable without a defined
value; the readers return `none` there. -/

/-- The low byte of a number. -/
def byteOf (n : Nat) : Byte := ⟨n % 256, Nat.mod_lt n (by decide)⟩

/-- The `w` low bytes of `n`, least significant first. -/
def writeLE : Nat → Nat → List Byte
  | 0, _ => []
  | w + 1, n => byteOf n :: writeLE w (n / 256)

/-- The number that a sequence of bytes spells, least significant first. -/
def readLE : List Byte → Nat
  | [] => 0
  | b :: bs => b.val + 256 * readLE bs

/-- The object representation of a score: `sizeof(double)` is 8 bytes, and writing
the bytes of a score and reading them back gives the same score. -/
class ScoreBytes (S : Type) where
  toBytes : S → List Byte
  ofBytes : List Byte → S
  length_toBytes : ∀ s, (toBytes s).length = 8
  ofBytes_toBytes : ∀ s, ofBytes (toBytes s) = s

/-- A score given by its 64 bits. -/
instance : ScoreBytes (Fin (2 ^ 64)) where
  toBytes x := writeLE 8 x.val
  ofBytes l := Fin.ofNat (readLE l)
  length_toBytes _ := rfl
  ofBytes_toBytes x := by
    apply Fin.ext
    have hx := x.isLt
    simp only [writeLE, readLE, byteOf, Fin.ofNat, Fin.val_mk]
    omega

/-- The call `out.write(&n, sizeof(size_t))`. -/
def writeSize (n : Nat) : List Byte := writeLE 8 (n % 2 ^ 64)

/-- Writing a string: its size, then its bytes. -/
def writeString (s : Str) : List Byte := writeSize s.length ++ s

/-- The call `out.write(&b, sizeof(bool))`. -/
def writeBool (b : Bool) : List Byte := [if b then 1 else 0]

/-- The call `in.read(buf, n)` on the rest of the input: `n` bytes and the
remaining input; `none` when fewer than `n` bytes are left. -/
def readBytes (n : Nat) (bs : List Byte) : Option (List Byte × List Byte) :=
  if bs.length < n then none else some (bs.take n, bs.drop n)

/-- Reading a `size_t`. -/
def readSize (bs : List Byte) : Option (Nat × List Byte) :=
  (readBytes 8 bs).map (fun x => (readLE x.1, x.2))

/-- Reading a string: its size, then that many bytes. -/
def readString (bs : List Byte) : Option (Str × List Byte) :=
  (readSize bs).bind (fun x => readBytes x.1 x.2)

/-- Reading a `bool`: one byte, `0` or `1`. -/
def readBool : List Byte → Option (Bool × List Byte)
  | [] => none
  | b :: bs => if b = 0 then some (false, bs) else if b = 1 then some (true, bs) else none

namespace AVLTree

variable {S : Type} [ScoreBytes S]

/-- The loop of `serializeHelper` over `node->docScores`. -/
def writeDocScores : List (Str × S) → List Byte
  | [] => []
  | (docID, score) :: m => writeString docID ++ ScoreBytes.toBytes score ++ writeDocScores m

/-- The function `serializeHelper(out, node)`: the bytes appended to `out`. -/
def serializeHelper : Node Str Str S → List Byte
  | .null => []
  | .mk key docScores left right _ =>
    writeString key ++ writeSize docScores.length ++ writeDocScores docScores ++
    writeBool (!isNull left) ++
    (if !isNull left then serializeHelper left else []) ++
    writeBool (!isNull right) ++
    (if !isNull right then serializeHelper right else [])

/-- The loop of `deserializeHelper` that reads `docCount` entries into
`node->docScores`. -/
def readDocScores : Nat → List (Str × S) → List Byte → Option (List (Str × S) × List Byte)
  | 0, acc, bs => some (acc, bs)
  | n + 1, acc, bs =>
    (readString bs).bind (fun x =>
      (readBytes 8 x.2).bind (fun y =>
        readDocScores n (DocScores.set acc x.1 (ScoreBytes.ofBytes y.1)) y.2))

/-- The function `deserializeHelper(in)`: the node read and the rest of the input.
The first argument bounds the recursion depth. -/
def deserializeHelper : Nat → List Byte → Option (Node Str Str S × List Byte)
  | 0, _ => none
  | fuel + 1, bs =>
    (readString bs).bind (fun k =>
      (readSize k.2).bind (fun c =>
        (readDocScores c.1 [] c.2).bind (fun m =>
          (readBool m.2).bind (fun hl =>
            (if hl.1 then deserializeHelper fuel hl.2 else some (.null, hl.2)).bind (fun l =>
              (readBool l.2).bind (fun hr =>
                (if hr.1 then deserializeHelper fuel hr.2 else some (.null, hr.2)).bind
                  (fun r =>
                    some (.mk k.1 m.1 l.1 r.1 (1 + max (height l.1) (height r.1)), r.2))))))))

/-- The public `serialize(filename)`: the content of the file written. -/
def serialize (t : AVLTree Str Str S) : List Byte := serializeHelper t.root

/-- The public `deserialize(filename)` on a file with content `bs`.  Every nested
call of `deserializeHelper` consumes input first, so `bs.length + 1` bounds the
recursion depth. -/
def deserialize (bs : List Byte) : Option (AVLTree Str Str S) :=
  (deserializeHelper (bs.length + 1) bs).map (fun x => ⟨x.1⟩)

/-- Every size written by `serialize` is a `size_t` value. -/
def SizesFit (t : Node Str Str S) : Prop :=
  ∀ p ∈ traverseInOrder t, p.1.length < 2 ^ 64 ∧ p.2.length < 2 ^ 64 ∧
    ∀ e ∈ p.2, e.1.length < 2 ^ 64

end AVLTree

/-! ## `deserialize` on a file of any content

`deserializeHelper` never tests the state of the stream.  A call `in.read(buf, n)`
that finds fewer than `n` bytes stores the bytes there are, puts the stream in the
failed state and leaves the rest of `buf` as it was; on a failed stream `read` stores
nothing.  The variables `keySize`, `docCount`, `idSize`, `score`, `hasLeft` and
`hasRight` are declared without an initializer, so what they hold where `read`
stored nothing is indeterminate: it is a parameter of the run, as are the largest
string that can be constructed and the depth of recursion that the stack allows.
The readers of the previous section give the result of a run in which every read
finds its bytes. -/

/-- What a run of `deserialize` depends on besides the content of the file: `junk v i`
is byte `i` of the indeterminate content of the `v`-th variable read into;
`std::string(n, ' ')` throws for `n > maxString`; a recursion deeper than
`stackDepth` overflows the stack. -/
structure Machine where
  junk : Nat → Nat → Byte
  maxString : Nat
  stackDepth : Nat

/-- The `std::ifstream` during a run: the bytes not yet extracted, the value of
`good()`, and the number of variables read into so far. -/
structure LoadState where
  rest : List Byte
  good : Bool
  vars : Nat
  deriving DecidableEq

/-- The ways in which a run ends without returning a tree: an exception thrown by
the constructor of `std::string`, the test of a `bool` whose byte is neither 0 nor 1,
and a stack overflow. -/
inductive Crash where
  | stringConstructor : Crash
  | invalidFlag : Crash
  | stackOverflow : Crash
  deriving DecidableEq

namespace LoadState

/-- The call `in.read(buf, n)` where `buf` holds the `n` bytes `old` before the call:
the content of `buf` after the call, and the stream. -/
def extract (old : List Byte) (st : LoadState) : List Byte × LoadState :=
  if st.good then
    if old.length ≤ st.rest.length then
      (st.rest.take old.length, { st with rest := st.rest.drop old.length })
    else (st.rest ++ old.drop st.rest.length, { st with rest := [], good := false })
  else (old, st)

/-- A variable of `w` bytes declared without an initializer, and `in.read` into it. -/
def readVar (m : Machine) (w : Nat) (st : LoadState) : List Byte × LoadState :=
  let r := extract ((List.range w).map (m.junk st.vars)) st
  (r.1, { r.2 with vars := st.vars + 1 })

/-- Reading a `size_t`. -/
def readSize (m : Machine) (st : LoadState) : Nat × LoadState :=
  let r := readVar m 8 st
  (readLE r.1, r.2)

/-- The lines `std::string key(keySize, ' '); in.read(&key[0], keySize);`. -/
def readText (m : Machine) (n : Nat) (st : LoadState) : Except Crash (Str × LoadState) :=
  if m.maxString < n then .error .stringConstructor
  else .ok (extract (List.replicate n 32) st)

/-- Reading a string: its size, then that many bytes. -/
def readString (m : Machine) (st : LoadState) : Except Crash (Str × LoadState) :=
  let n := readSize m st
  readText m n.1 n.2

/-- Reading a `bool` and testing it. -/
def readBool (m : Machine) (st : LoadState) : Except Crash (Bool × LoadState) :=
  let r := readVar m 1 st
  match r.1 with
  | [b] => if b = 0 then .ok (false, r.2) else if b = 1 then .ok (true, r.2)
      else .error .invalidFlag
  | _ => .error .invalidFlag

end LoadState

namespace AVLTree

namespace Stream

variable {S : Type} [ScoreBytes S]

/-- The loop of `deserializeHelper` that reads `docCount` entries into
`node->docScores`, on a stream in any state. -/
def readDocScores (m : Machine) :
    Nat → List (Str × S) → LoadState → Except Crash (List (Str × S) × LoadState)
  | 0, acc, st => .ok (acc, st)
  | n + 1, acc, st =>
    (LoadState.readString m st).bind (fun x =>
      let y := LoadState.readVar m 8 x.2
      readDocScores m n (DocScores.set acc x.1 (ScoreBytes.ofBytes y.1)) y.2)

/-- The function `deserializeHelper(in)` on a stream in any state.  The second
argument counts the recursion depth left. -/
def deserializeHelper (m : Machine) :
    Nat → LoadState → Except Crash (Node Str Str S × LoadState)
  | 0, _ => .error .stackOverflow
  | fuel + 1, st =>
    (LoadState.readString m st).bind (fun k =>
      let c := LoadState.readSize m k.2
      (readDocScores m c.1 [] c.2).bind (fun d =>
        (LoadState.readBool m d.2).bind (fun hl =>
          (if hl.1 then deserializeHelper m fuel hl.2 else .ok (.null, hl.2)).bind (fun l =>
            (LoadState.readBool m l.2).bind (fun hr =>
              (if hr.1 then deserializeHelper m fuel hr.2 else .ok (.null, hr.2)).bind
                (fun r =>
                  .ok (.mk k.1 d.1 l.1 r.1 (1 + max (height l.1) (height r.1)), r.2)))))))

/-- The public `deserialize(filename)` on a file with content `bs`: the stream is
good when the file has been opened. -/
def deserialize (m : Machine) (bs : List Byte) : Except Crash (AVLTree Str Str S) :=
  (deserializeHelper m m.stackDepth ⟨bs, true, 0⟩).map (fun x => ⟨x.1⟩)

end Stream

end AVLTree

/-! ## Third-party libraries

The Porter2 stemmer and RapidJSON are not part of the repository; the functions
the code calls are parameters of the model. -/

/-- The third-party functions used by the index handler and the query processor. -/
structure ThirdParty where
  /-- The call `Porter2Stemmer::stem(word)`, as the new content of `word`. -/
  stem : Str → Str
  /-- For a JSON text `meta` and a member name `f`: the string `doc[f].GetString()`
  when `doc.Parse(meta)` gives a document with `doc.HasMember(f) && doc[f].IsString()`. -/
  jsonString : Str → Str → Option Str
  /-- The text that `rapidjson::Writer` produces for the object with the members
  `title`, `date` and `source`. -/
  writeMeta : Str → Str → Str → Str

/-! ## `IndexHandler` -/

/-- The class `IndexHandler`: three indices, the set of document ids and the
metadata map (`std::unordered_map<std::string, std::string>`). -/
structure IndexHandler (S : Type) where
  wordIndex : AVLTree Str Str S
  organizationIndex : AVLTree Str Str S
  personIndex : AVLTree Str Str S
  documentIDs : List Str
  documentMetadata : List (Str × Str)

namespace IndexHandler

variable {S : Type}

/-- The default constructor. -/
def empty : IndexHandler S :=
  ⟨AVLTree.empty, AVLTree.empty, AVLTree.empty, [], []⟩

/-- The method `getTotalDocuments()`. -/
def getTotalDocuments (ih : IndexHandler S) : Nat := ih.documentIDs.length

/-- The method `searchWord(term)`. -/
def searchWord (ih : IndexHandler S) (term : Str) : List (Str × S) :=
  ih.wordIndex.search term

/-- The method `searchOrganization(org)`. -/
def searchOrganization (ih : IndexHandler S) (org : Str) : List (Str × S) :=
  ih.organizationIndex.search org

/-- The method `searchPerson(person)`. -/
def searchPerson (ih : IndexHandler S) (person : Str) : List (Str × S) :=
  ih.personIndex.search person

/-- The method `getDocumentFrequency(term)`. -/
def getDocumentFrequency (ih : IndexHandler S) (term : Str) : Nat :=
  (ih.wordIndex.search term).length

/-- The method `addTerm(term, docID, score)`. -/
def addTerm (ih : IndexHandler S) (term docID : Str) (score : S) : Option (IndexHandler S) :=
  (ih.wordIndex.insert term docID score).map (fun t => { ih with wordIndex := t })

/-- The method `addOrganization(org, docID)`: the score is the constant `1.0`. -/
def addOrganization [OfScientific S] (ih : IndexHandler S) (org docID : Str) :
    Option (IndexHandler S) :=
  (ih.organizationIndex.insert org docID (1.0 : S)).map
    (fun t => { ih with organizationIndex := t })

/-- The method `addPerson(person, docID)`: the score is the constant `1.0`. -/
def addPerson [OfScientific S] (ih : IndexHandler S) (person docID : Str) :
    Option (IndexHandler S) :=
  (ih.personIndex.insert person docID (1.0 : S)).map (fun t => { ih with personIndex := t })

/-- The method `registerDocument(docID)`: insertion into a `std::unordered_set`. -/
def registerDocument (ih : IndexHandler S) (docID : Str) : IndexHandler S :=
  { ih with documentIDs := if docID ∈ ih.documentIDs then ih.documentIDs
                           else ih.documentIDs ++ [docID] }

/-- The method `addDocumentMetadata(docID, title, date, source)`. -/
def addDocumentMetadata (lib : ThirdParty) (ih : IndexHandler S)
    (docID title date source : Str) : IndexHandler S :=
  { ih with documentMetadata :=
      DocScores.set ih.documentMetadata docID (lib.writeMeta title date source) }

/-- The method `getDocumentMetadata(docID)`: the stored text, or the empty JSON object. -/
def getDocumentMetadata (ih : IndexHandler S) (docID : Str) : Str :=
  match DocScores.find? ih.documentMetadata docID with
  | some m => m
  | none => str "\x7b\x7d"

/-- The container invariant of the three indices: in every `docScores` map the
document ids are unique, so no search result lists a document twice. -/
def PostingsUnique (ih : IndexHandler S) : Prop :=
  (∀ p ∈ AVLTree.traverseInOrder ih.wordIndex.root, (p.2.map Prod.fst).Nodup) ∧
  (∀ p ∈ AVLTree.traverseInOrder ih.organizationIndex.root, (p.2.map Prod.fst).Nodup) ∧
  (∀ p ∈ AVLTree.traverseInOrder ih.personIndex.root, (p.2.map Prod.fst).Nodup)

end IndexHandler

/-! ## `QueryProcessor` -/

/-- The struct `QueryResult`. -/
structure QueryResult (S : Type) where
  docID : Str
  score : S
  title : Str
  date : Str
  source : Str
  deriving Repr, DecidableEq

/-- A `double` as far as ranking goes: a number, or the value NaN, with which every
comparison is false. -/
inductive Double where
  | nan : Double
  | num (q : ℚ) : Double
  deriving DecidableEq

namespace Double

/-- The operator `<` on `double`. -/
def lt : Double → Double → Prop
  | num x, num y => x < y
  | num _, nan => False
  | nan, _ => False

/-- The operator `<=` on `double`. -/
def le : Double → Double → Prop
  | num x, num y => x ≤ y
  | num _, nan => False
  | nan, _ => False

/-- The operator `+` on `double`, with exact sums of numbers. -/
def add : Double → Double → Double
  | num x, num y => num (x + y)
  | num _, nan => nan
  | nan, _ => nan

/-- The operator `*` on `double`, with exact products of numbers. -/
def mul : Double → Double → Double
  | num x, num y => num (x * y)
  | num _, nan => nan
  | nan, _ => nan

instance : Add Double := ⟨add⟩

instance : Mul Double := ⟨mul⟩

instance : OfScientific Double := ⟨fun m s e => num (OfScientific.ofScientific m s e)⟩

instance : LT Double := ⟨lt⟩

instance : LE Double := ⟨le⟩

instance : DecidableRel (fun a b : Double => a < b) := fun a b =>
  match a, b with
  | num x, num y => inferInstanceAs (Decidable (x < y))
  | num _, nan => isFalse (fun h => h)
  | nan, _ => isFalse (fun h => h)

instance : DecidableRel (fun a b : Double => a ≤ b) := fun a b =>
  match a, b with
  | num x, num y => inferInstanceAs (Decidable (x ≤ y))
  | num _, nan => isFalse (fun h => h)
  | nan, _ => isFalse (fun h => h)

end Double

/-- The algorithm `std::sort(first, last, comp)`, as insertion of each element into
the sorted rest: `a` goes before the first element that `comp` does not put before
`a`.  The standard fixes the result only for a comparator that is a strict weak
ordering, and then only up to the order of equivalent elements; insertion is what
the library does on ranges of at most 16 elements.  General statements about
`rankResults` rest on two facts alone: the result is a permutation of the input, and
it is sorted when the scores compare as numbers do. -/
def sortInsert {α : Type} (comp : α → α → Bool) (a : α) : List α → List α
  | [] => [a]
  | b :: l => if comp b a then b :: sortInsert comp a l else a :: b :: l

/-- See `sortInsert`. -/
def stdSort {α : Type} (comp : α → α → Bool) : List α → List α
  | [] => []
  | a :: l => sortInsert comp a (stdSort comp l)

namespace QueryProcessor

/-- The test `std::isspace(c)` in the "C" locale: space, `\t`, `\n`, `\v`, `\f`, `\r`. -/
def isSpace (b : Byte) : Bool := b = 32 || (9 ≤ b && b ≤ 13)

/-- The loop `while (iss >> token)`: the maximal runs of non-space bytes, in order.
The second argument is the token being read. -/
def tokensFrom : Str → Str → List Str
  | [], cur => if cur.isEmpty then [] else [cur]
  | b :: bs, cur =>
    if isSpace b then
      if cur.isEmpty then tokensFrom bs [] else cur :: tokensFrom bs []
    else tokensFrom bs (cur ++ [b])

/-- The tokens of a query string. -/
def tokens (query : Str) : List Str := tokensFrom query []

/-- The call `std::tolower(c)` on an `unsigned char`, in the "C" locale. -/
def toLower (b : Byte) : Byte := if 65 ≤ b ∧ b ≤ 90 then b + 32 else b

/-- The `std::transform` call lowering every byte, followed by the stemmer. -/
def normalize (lib : ThirdParty) (w : Str) : Str := lib.stem (w.map toLower)

/-- The four clause lists built by `parseQuery`, in the order of the returned tuple:
terms, organizations, persons, exclusions. -/
abbrev Clauses := List Str × List Str × List Str × List Str

/-- The body of the loop of `parseQuery` for one token. -/
def classify (lib : ThirdParty) (c : Clauses) (token : Str) : Clauses :=
  match c with
  | (terms, orgs, persons, exclusions) =>
    if token.length ≥ 5 ∧ token.take 4 = str "ORG:" then
      (terms, orgs ++ [token.drop 4], persons, exclusions)
    else if token.length ≥ 8 ∧ token.take 7 = str "PERSON:" then
      (terms, orgs, persons ++ [token.drop 7], exclusions)
    else if ¬ token.isEmpty ∧ token.head? = some 45 ∧ token.length > 1 then
      (terms, orgs, persons, exclusions ++ [normalize lib (token.drop 1)])
    else
      (terms ++ [normalize lib token], orgs, persons, exclusions)

/-- The method `parseQuery(query)`. -/
def parseQuery (lib : ThirdParty) (query : Str) : Clauses :=
  (tokens query).foldl (classify lib) ([], [], [], [])

variable {S : Type}

/-- The loop `for (docID, score) in firstResults: scores[docID] = score`. -/
def seedScores (results : List (Str × S)) : List (Str × S) :=
  results.foldl (fun m e => DocScores.set m e.1 e.2) []

/-- The body of the AND loop for one further term: `tempScores` built from the
term's results and the running `scores`. -/
def intersectScores [Add S] (scores results : List (Str × S)) : List (Str × S) :=
  results.foldl (fun temp e =>
    match DocScores.find? scores e.1 with
    | some v => DocScores.set temp e.1 (v + e.2)
    | none => temp) []

/-- Lines 62-86 of `processQuery`: the score map after the term clauses. -/
def termScores [Add S] (ih : IndexHandler S) : List Str → List (Str × S)
  | [] => []
  | t :: rest =>
    rest.foldl (fun scores t' => intersectScores scores (ih.searchWord t'))
      (seedScores (ih.searchWord t))

/-- The loop over the results of one organization or person clause:
`scores[docID] = scores.count(docID) ? scores[docID] + score * 1.5 : score * 1.5`. -/
def addBoosted [Add S] [Mul S] [OfScientific S] (scores results : List (Str × S)) :
    List (Str × S) :=
  results.foldl (fun m e =>
    match DocScores.find? m e.1 with
    | some v => DocScores.set m e.1 (v + e.2 * 1.5)
    | none => DocScores.set m e.1 (e.2 * 1.5)) scores

/-- The method `applyExclusions(results, exclusions)`. -/
def applyExclusions (ih : IndexHandler S) (results : List (Str × S))
    (exclusions : List Str) : List (Str × S) :=
  exclusions.foldl (fun res term =>
    (ih.searchWord term).foldl (fun r e => DocScores.erase r e.1) res) results

/-- Lines 62-105 of `processQuery` on parsed clauses: the score map handed to
`rankResults`. -/
def clauseScores [Add S] [Mul S] [OfScientific S] (ih : IndexHandler S) (c : Clauses) :
    List (Str × S) :=
  match c with
  | (terms, orgs, persons, exclusions) =>
    let scores := termScores ih terms
    let scores := orgs.foldl (fun m org => addBoosted m (ih.searchOrganization org)) scores
    let scores := persons.foldl (fun m p => addBoosted m (ih.searchPerson p)) scores
    applyExclusions ih scores exclusions

/-- Lines 60-105 of `processQuery`: the score map handed to `rankResults`. -/
def queryScores [Add S] [Mul S] [OfScientific S] (lib : ThirdParty) (ih : IndexHandler S)
    (query : Str) : List (Str × S) :=
  clauseScores ih (parseQuery lib query)

/-- The loop of `rankResults` for one entry of the score map. -/
def makeResult (lib : ThirdParty) (ih : IndexHandler S) (e : Str × S) : QueryResult S :=
  let doc := ih.getDocumentMetadata e.1
  { docID := e.1
    score := e.2
    title := (lib.jsonString doc (str "title")).getD []
    date := (lib.jsonString doc (str "date")).getD []
    source := (lib.jsonString doc (str "source")).getD [] }

/-- The method `rankResults(rawScores, limit)`. -/
def rankResults [LT S] [DecidableRel (fun a b : S => a < b)] (lib : ThirdParty) (ih : IndexHandler S)
    (rawScores : List (Str × S)) (limit : Nat) : List (QueryResult S) :=
  let results := rawScores.map (makeResult lib ih)
  let results := stdSort (fun a b => decide (a.score > b.score)) results
  if results.length > limit then results.take limit else results

/-- The method `processQuery(query)`; `rankResults` is called with its default
limit 15. -/
def processQuery [LT S] [DecidableRel (fun a b : S => a < b)] [Add S] [Mul S] [OfScientific S] (lib : ThirdParty)
    (ih : IndexHandler S) (query : Str) : List (QueryResult S) :=
  rankResults lib ih (queryScores lib ih query) 15

/-- The score that the AND combination gives document `d` for the terms
`t :: rest`: the sum, from left to right, of the scores of `d` under each term;
`none` when some term does not list `d`. -/
def andScore [Add S] (ih : IndexHandler S) (d : Str) : List Str → Option S
  | [] => none
  | t :: rest =>
    rest.foldl (fun acc t' =>
      match acc, DocScores.find? (ih.searchWord t') d with
      | some a, some s => some (a + s)
      | _, _ => none) (DocScores.find? (ih.searchWord t) d)

/-- The contribution of one organization or person clause with postings `results`
to the running score `acc` of document `d`: 1.5 times the posting score, added to
the running score if there is one and used as a new entry otherwise. -/
def boostStep [Add S] [Mul S] [OfScientific S] (d : Str) (acc : Option S)
    (results : List (Str × S)) : Option S :=
  match DocScores.find? results d with
  | none => acc
  | some s =>
    match acc with
    | some a => some (a + s * 1.5)
    | none => some (s * 1.5)

/-- The entry of document `d` in the score map that lines 62-105 of `processQuery`
build from the clauses `c`: no entry if the postings of an exclusion clause list
`d`; otherwise the AND score of `d` under the terms, boosted by every organization
clause and then by every person clause. -/
def finalScore [Add S] [Mul S] [OfScientific S] (ih : IndexHandler S) (d : Str)
    (c : Clauses) : Option S :=
  match c with
  | (terms, orgs, persons, exclusions) =>
    if exclusions.any (fun x => decide (d ∈ DocScores.keys (ih.searchWord x))) then none
    else
      persons.foldl (fun acc p => boostStep d acc (ih.searchPerson p))
        (orgs.foldl (fun acc o => boostStep d acc (ih.searchOrganization o))
          (andScore ih d terms))

end QueryProcessor

/-! ## `DocumentParser::calculateTFIDF`

The functions `log10` and the conversion `static_cast<double>` of a `size_t` are
parameters. -/

namespace DocumentParser

variable {S : Type}

/-- The lambda `updateScores` defined inside `calculateTFIDF`: every entry of
`scores` gets its value multiplied by the inverse document frequency of `term`. -/
def updateScores [Add S] [Mul S] [Div S] [OfScientific S] (log10 : S → S) (toDouble : Nat → S)
    (ih : IndexHandler S) (totalDocs : Nat) (term : Str) (scores : List (Str × S)) :
    List (Str × S) :=
  let docFreq := ih.getDocumentFrequency term
  let idf := log10 (toDouble totalDocs / (1.0 + toDouble docFreq))
  scores.map (fun e => (e.1, e.2 * idf))

/-- The method `calculateTFIDF()`, as the state of the index handler when it
returns.  The body reads `getTotalDocuments()`, defines `updateScores` and prints a
message; `updateScores` is never called. -/
def calculateTFIDF [Add S] [Mul S] [Div S] [OfScientific S] (log10 : S → S)
    (toDouble : Nat → S) (ih : IndexHandler S) : IndexHandler S :=
  let totalDocs := ih.getTotalDocuments
  let _updateScores := updateScores log10 toDouble ih totalDocs
  ih

end DocumentParser

/-! ## `IndexHandler::saveIndices` and `IndexHandler::loadIndices`

The four files are their contents; failures to open a file are left out. -/

/-- The files `basePath.words`, `.orgs`, `.persons` and `.meta`. -/
structure IndexFiles where
  words : List Byte
  orgs : List Byte
  persons : List Byte
  metaFile : List Byte
  deriving DecidableEq

namespace IndexHandler

variable {S : Type}

/-- The loop of `saveIndices` over `documentIDs`: the id, then the stored metadata
text or the empty JSON object. -/
def writeMetaRecords (documentMetadata : List (Str × Str)) : List Str → List Byte
  | [] => []
  | docID :: rest =>
    writeString docID ++
    writeString (match DocScores.find? documentMetadata docID with
      | some m => m
      | none => str "\x7b\x7d") ++
    writeMetaRecords documentMetadata rest

/-- The method `saveIndices(basePath)`: the content of the four files written. -/
def saveIndices [ScoreBytes S] (ih : IndexHandler S) : IndexFiles :=
  { words := ih.wordIndex.serialize
    orgs := ih.organizationIndex.serialize
    persons := ih.personIndex.serialize
    metaFile := writeSize ih.documentIDs.length ++
      writeMetaRecords ih.documentMetadata ih.documentIDs }

/-- The loop of `loadIndices` that reads `docCount` records into `documentIDs` and
`documentMetadata`. -/
def readMetaRecords : Nat → List Str → List (Str × Str) → List Byte →
    Option ((List Str × List (Str × Str)) × List Byte)
  | 0, ids, md, bs => some ((ids, md), bs)
  | n + 1, ids, md, bs =>
    (readString bs).bind (fun x =>
      (readString x.2).bind (fun y =>
        readMetaRecords n (if x.1 ∈ ids then ids else ids ++ [x.1])
          (DocScores.set md x.1 y.1) y.2))

/-- The method `loadIndices(basePath)` on the four files: the three indices are
deserialized, then the metadata file is read into cleared containers.  The result is
`none` when a read comes up short. -/
def loadIndices [ScoreBytes S] (files : IndexFiles) : Option (IndexHandler S) :=
  (AVLTree.deserialize files.words).bind (fun w =>
    (AVLTree.deserialize files.orgs).bind (fun o =>
      (AVLTree.deserialize files.persons).bind (fun p =>
        (readSize files.metaFile).bind (fun c =>
          (readMetaRecords c.1 [] [] c.2).map (fun r =>
            { wordIndex := w
              organizationIndex := o
              personIndex := p
              documentIDs := r.1.1
              documentMetadata := r.1.2 })))))

end IndexHandler

/-! ## Specification vocabulary for the tree -/

namespace AVLTree

variable {K D S : Type}

/-- The true height of a subtree: `0` for a missing child. -/
def realHeight : Node K D S → Nat
  | .null => 0
  | .mk _ _ l r _ => 1 + max (realHeight l) (realHeight r)

/-- The number of nodes of a subtree. -/
def size : Node K D S → Nat
  | .null => 0
  | .mk _ _ l r _ => size l + size r + 1

/-- The AVL balance condition on true heights, at every node. -/
def Balanced : Node K D S → Prop
  | .null => True
  | .mk _ _ l r _ =>
    Balanced l ∧ Balanced r ∧ |(realHeight l : Int) - (realHeight r : Int)| ≤ 1

/-- Every cached height field equals `1 + max(height(left), height(right))`. -/
def HeightsOk : Node K D S → Prop
  | .null => True
  | .mk _ _ l r h => HeightsOk l ∧ HeightsOk r ∧ h = 1 + max (height l) (height r)

/-- The AVL invariant as the code sees it, on cached heights: every cache is
correct and every balance factor lies in `{-1, 0, 1}`. -/
def AVLInv : Node K D S → Prop
  | .null => True
  | .mk _ _ l r h =>
    AVLInv l ∧ AVLInv r ∧ h = 1 + max (height l) (height r) ∧
      height l - height r ≤ 1 ∧ height r - height l ≤ 1

/-- The keys of a subtree in in-order. -/
def keys (t : Node K D S) : List K := (traverseInOrder t).map Prod.fst

/-- Every `docScores` map of the subtree has unique document ids. -/
def PostingsOk [DecidableEq D] (t : Node K D S) : Prop :=
  ∀ p ∈ traverseInOrder t, DocScores.Nodup p.2

variable [LinearOrder K]

/-- The search-tree ordering at every node: keys of the left subtree are smaller
than the node key, keys of the right subtree are larger. -/
def IsBST : Node K D S → Prop
  | .null => True
  | .mk nk _ l r _ =>
    IsBST l ∧ IsBST r ∧ (∀ k ∈ keys l, k < nk) ∧ (∀ k ∈ keys r, nk < k)

/-- The invariant of every tree built by inserts: cached heights correct and
balanced, keys in strictly increasing in-order, document ids unique per node. -/
def WF [DecidableEq D] (t : Node K D S) : Prop :=
  AVLInv t ∧ (keys t).Pairwise (· < ·) ∧ PostingsOk t

/-- After an insertion of `key` made the subtree taller, the subtree leans to the
side `key` went to. -/
def Tilt (key : K) : Node K D S → Prop
  | .null => False
  | .mk k _ l r _ =>
    (key < k ∧ height l = height r + 1) ∨ (k < key ∧ height r = height l + 1)

/-- The effect of `insert` on the in-order sequence of a search tree: a present key
has its `docScores` updated, an absent key is added at its place with an empty map. -/
def insList [DecidableEq D] (key : K) (docID : D) (score : S) :
    List (K × List (D × S)) → List (K × List (D × S))
  | [] => [(key, [])]
  | (k, p) :: rest =>
    if key < k then (key, []) :: (k, p) :: rest
    else if k < key then (k, p) :: insList key docID score rest
    else (k, DocScores.set p docID score) :: rest

/-- The `docScores` stored under `key` in an in-order sequence, `[]` when absent. -/
def postingsOf (key : K) : List (K × List (D × S)) → List (D × S)
  | [] => []
  | (k, p) :: rest => if k = key then p else postingsOf key rest

end AVLTree

/-! ## Specification vocabulary, continued -/

namespace AVLTree

variable {K D S : Type}

/-- Every cached height field equals the true height of the subtree of its node. -/
def HeightsTrue : Node K D S → Prop
  | .null => True
  | .mk _ _ l r h => HeightsTrue l ∧ HeightsTrue r ∧ h = (1 + max (realHeight l) (realHeight r) : Nat)

/-- The structure of a tree without its postings: the shape, the key and the
height field of every node. -/
def shape : Node K D S → Node K Unit Unit
  | .null => .null
  | .mk k _ l r h => .mk k [] (shape l) (shape r) h

end AVLTree

namespace QueryProcessor

/-- A token that begins with `p` and goes on after it. -/
def hasPrefix (p token : Str) : Bool :=
  decide (token.length ≥ p.length + 1) && decide (token.take p.length = p)

/-- The condition of the exclusion branch of `parseQuery`: none of the two prefixed
forms, a leading minus sign and a length greater than 1. -/
def isExclusionToken (token : Str) : Bool :=
  !hasPrefix (str "ORG:") token && !hasPrefix (str "PERSON:") token &&
    (decide (token.head? = some 45) && decide (token.length > 1))

/-- The condition of the term branch of `parseQuery`: every other token. -/
def isTermToken (token : Str) : Bool :=
  !hasPrefix (str "ORG:") token && !hasPrefix (str "PERSON:") token &&
    !(decide (token.head? = some 45) && decide (token.length > 1))

/-- The scores compare as numbers do, none of them being NaN: `<=` is total and
transitive on them, and `<` is its strict part. -/
def NoNaN {S : Type} [LT S] [LE S] (scores : List S) : Prop :=
  (∀ a ∈ scores, ∀ b ∈ scores, a ≤ b ∨ b ≤ a) ∧
  (∀ a ∈ scores, ∀ b ∈ scores, ∀ c ∈ scores, a ≤ b → b ≤ c → a ≤ c) ∧
  (∀ a ∈ scores, ∀ b ∈ scores, (a < b ↔ ¬ b ≤ a))

/-- A query result with its score added to itself. -/
def doubled {S : Type} [Add S] (r : QueryResult S) : QueryResult S :=
  { r with score := r.score + r.score }

end QueryProcessor

namespace AVLTree

variable {K D S : Type}

/-- The tree with every height field set to 0. -/
def eraseHeights : Node K D S → Node K D S
  | .null => .null
  | .mk k p l r _ => .mk k p (eraseHeights l) (eraseHeights r) 0

/-- The conditions under which an index file holds the whole tree: the tree is not
empty, its cached heights are correct, the document ids of every node are unique and
every size is a `size_t` value. -/
def Storable [ScoreBytes S] (t : AVLTree Str Str S) : Prop :=
  isNull t.root = false ∧ HeightsOk t.root ∧ PostingsOk t.root ∧ SizesFit t.root

end AVLTree

namespace IndexHandler

/-- Every size written to the metadata file is a `size_t` value. -/
def MetaSizesFit {S : Type} (ih : IndexHandler S) : Prop :=
  ih.documentIDs.length < 2 ^ 64 ∧ (∀ d ∈ ih.documentIDs, d.length < 2 ^ 64) ∧
    ∀ e ∈ ih.documentMetadata, e.2.length < 2 ^ 64

end IndexHandler

/-! ## Example data -/

/-- A sequence of inserts with two keys that receive postings. -/
def exampleOps : List (Str × Str × Fin (2 ^ 64)) :=
  [(str "b", str "d1", 1), (str "a", str "d1", 2), (str "a", str "d2", 3),
   (str "c", str "d1", 4), (str "b", str "d1", 5), (str "a", str "d1", 6)]

/-- The index that `exampleOps` builds from the empty index. -/
def exampleIndex : AVLTree Str Str (Fin (2 ^ 64)) :=
  ⟨.mk (str "b") [(str "d1", 5)]
    (.mk (str "a") [(str "d2", 3), (str "d1", 6)] .null .null 1)
    (.mk (str "c") [] .null .null 1) 2⟩

/-- Third-party functions for the examples: a stemmer that changes nothing and a
JSON reader that finds no member. -/
def exampleLib : ThirdParty := ⟨id, fun _ _ => none, fun _ _ _ => []⟩

/-- A catalog whose word index lists term `a` in documents 1, 2, 3 and term `b`
in documents 2, 3, 4. -/
def andCatalog : IndexHandler ℚ :=
  { wordIndex := ⟨.mk (str "a") [(str "1", 1), (str "2", 2), (str "3", 3)] .null
      (.mk (str "b") [(str "2", 10), (str "3", 20), (str "4", 30)] .null .null 1) 2⟩
    organizationIndex := AVLTree.empty
    personIndex := AVLTree.empty
    documentIDs := [str "1", str "2", str "3", str "4"]
    documentMetadata := [] }

/-- A catalog with terms `stock` (d1, d2) and `bad` (d2), the organization `Google`
(d1, d3) and the person `Tim` (d2). -/
def entityCatalog : IndexHandler ℚ :=
  { wordIndex := ⟨.mk (str "stock") [(str "d1", 0.5), (str "d2", 0.3)]
      (.mk (str "bad") [(str "d2", 1)] .null .null 1) .null 2⟩
    organizationIndex := ⟨.mk (str "Google") [(str "d1", 1), (str "d3", 1)] .null .null 1⟩
    personIndex := ⟨.mk (str "Tim") [(str "d2", 1)] .null .null 1⟩
    documentIDs := [str "d1", str "d2", str "d3"]
    documentMetadata := [] }

/-- A score map with the scores 5, 2, NaN and 3, in the order in which the map
enumerates them. -/
def nanScores : List (Str × Double) :=
  [(str "a", .num 5), (str "b", .num 2), (str "c", .nan), (str "d", .num 3)]

/-- A score map without NaN. -/
def plainScores : List (Str × Double) :=
  [(str "a", .num 2), (str "b", .num 5), (str "c", .num 3)]

/-- A run in which every indeterminate byte is 0. -/
def zeroMachine : Machine := ⟨fun _ _ => 0, 2 ^ 62, 4096⟩

/-- A run in which every indeterminate byte is 255. -/
def onesMachine : Machine := ⟨fun _ _ => 255, 2 ^ 62, 4096⟩

/-- The insert calls of `test/test_avltree.cpp`, in order. -/
def testOps : List (Str × Str × ℚ) :=
  [(str "apple", str "doc1", 1.0), (str "banana", str "doc1", 2.0),
   (str "orange", str "doc2", 3.0), (str "common", str "doc1", 1.0),
   (str "common", str "doc2", 2.0), (str "common", str "doc3", 3.0)]

/-- The end-to-end scenario: from the empty catalog, register d1 and d2, then
`addTerm("stock", "d1", 0.5)`, `addOrganization("Google", "d1")` and
`addTerm("stock", "d2", 0.3)`. -/
def scenarioCatalog : Option (IndexHandler ℚ) :=
  ((((IndexHandler.empty : IndexHandler ℚ).registerDocument (str "d1")).registerDocument
      (str "d2")).addTerm (str "stock") (str "d1") 0.5).bind (fun ih =>
    (ih.addOrganization (str "Google") (str "d1")).bind (fun ih' =>
      ih'.addTerm (str "stock") (str "d2") 0.3))

/-- An index with the keys "a" and "b" in a right-leaning chain; inserting "c"
rotates the root to the left. -/
def chainOps : List (Str × Str × Fin (2 ^ 64)) :=
  [(str "a", str "d1", 1), (str "a", str "d1", 1), (str "b", str "d2", 2),
   (str "b", str "d2", 2)]

/-- The index that `chainOps` builds from the empty index. -/
def chainIndex : AVLTree Str Str (Fin (2 ^ 64)) :=
  ⟨.mk (str "a") [(str "d1", 1)] .null (.mk (str "b") [(str "d2", 2)] .null .null 1) 2⟩

/-- A catalog with three non-empty indices, one registered document with metadata
and one document that has metadata without being registered. -/
def savedCatalog : IndexHandler (Fin (2 ^ 64)) :=
  { wordIndex := exampleIndex
    organizationIndex := chainIndex
    personIndex := chainIndex
    documentIDs := [str "d1"]
    documentMetadata := [(str "d1", str "m1"), (str "d2", str "m2")] }

/-! # Theorems -/

namespace DocScores

variable {D S : Type} [DecidableEq D]

theorem keys_set (m : List (D × S)) (d : D) (s : S) :
    keys (set m d s) = if d ∈ keys m then keys m else keys m ++ [d] := by
  induction m with
  | nil => simp [set, keys]
  | cons x m ih =>
    obtain ⟨d', s'⟩ := x
    simp only [set]
    split
    · rename_i h
      subst h
      simp [keys]
    · rename_i h
      have hne : ¬ d = d' := fun e => h e.symm
      simp only [keys, List.map_cons, List.mem_cons, hne, false_or] at ih ⊢
      rw [ih]
      split <;> simp

theorem mem_keys_set (m : List (D × S)) (d : D) (s : S) (a : D) :
    a ∈ keys (set m d s) ↔ a = d ∨ a ∈ keys m := by
  rw [keys_set]
  split
  · constructor
    · exact Or.inr
    · rintro (rfl | h)
      · assumption
      · exact h
  · simp [or_comm]

theorem set_nodup (m : List (D × S)) (d : D) (s : S) (h : Nodup m) : Nodup (set m d s) := by
  unfold Nodup at h ⊢
  rw [keys_set]
  split
  · exact h
  · rename_i hn
    exact List.Nodup.append h (List.nodup_singleton d) (by simpa using hn)

theorem find?_set (m : List (D × S)) (d : D) (s : S) (a : D) :
    find? (set m d s) a = if a = d then some s else find? m a := by
  induction m with
  | nil =>
    by_cases h : a = d
    · simp [set, find?, h]
    · have : ¬ d = a := fun e => h e.symm
      simp [set, find?, h, this]
  | cons x m ih =>
    obtain ⟨d', s'⟩ := x
    simp only [set]
    by_cases h1 : d' = d
    · subst h1
      by_cases h2 : a = d'
      · simp [find?, h2]
      · have : ¬ d' = a := fun e => h2 e.symm
        simp [find?, h2, this]
    · simp only [h1, if_false, find?]
      by_cases h2 : d' = a
      · subst h2
        simp [h1]
      · simp [h2, ih]

theorem find?_eq_none_iff (m : List (D × S)) (a : D) : find? m a = none ↔ a ∉ keys m := by
  induction m with
  | nil => simp [find?, keys]
  | cons x m ih =>
    obtain ⟨d', s'⟩ := x
    by_cases h : d' = a
    · simp [find?, keys, h]
    · have : ¬ a = d' := fun e => h e.symm
      simp only [find?, h, if_false, ih, keys, List.map_cons, List.mem_cons, this, false_or]

theorem find?_isSome_iff (m : List (D × S)) (a : D) : (find? m a).isSome ↔ a ∈ keys m := by
  rw [← not_iff_not, ← find?_eq_none_iff]
  cases find? m a <;> simp

theorem filter_eq_nil_of_not_mem (m : List (D × S)) (d : D) (h : d ∉ keys m) :
    m.filter (fun e => decide (e.1 = d)) = [] := by
  rw [List.filter_eq_nil_iff]
  intro e he
  simp only [decide_eq_true_eq]
  rintro rfl
  exact h (List.mem_map_of_mem _ he)

/-- After `m[d] = s` the map has exactly one entry for `d`, and it carries `s`. -/
theorem filter_set (m : List (D × S)) (d : D) (s : S) (h : Nodup m) :
    (set m d s).filter (fun e => decide (e.1 = d)) = [(d, s)] := by
  induction m with
  | nil => simp [set]
  | cons x m ih =>
    obtain ⟨d', s'⟩ := x
    have h' : d' ∉ keys m ∧ Nodup m := by
      simpa [Nodup, keys] using h
    simp only [set]
    split
    · rename_i e
      subst e
      simp [List.filter_cons, filter_eq_nil_of_not_mem m d' h'.1]
    · rename_i e
      simp [List.filter_cons, e, ih h'.2]

end DocScores

namespace AVLTree

variable {K D S : Type}

@[simp] theorem height_null : height (Node.null : Node K D S) = 0 := rfl

@[simp] theorem height_mk (k : K) (p : List (D × S)) (l r : Node K D S) (h : Int) :
    height (Node.mk k p l r h) = h := rfl

theorem height_nonneg {t : Node K D S} (h : AVLInv t) : 0 ≤ height t := by
  cases t with
  | null => simp
  | mk k p l r hh =>
    obtain ⟨hl, hr, he, _, _⟩ := h
    have := height_nonneg hl
    have := height_nonneg hr
    simp only [height_null, height_mk]
    omega

theorem height_eq_realHeight {t : Node K D S} (h : AVLInv t) :
    height t = (realHeight t : Int) := by
  induction t with
  | null => simp [height, realHeight]
  | mk k p l r hh ihl ihr =>
    obtain ⟨hl, hr, he, _, _⟩ := h
    have := ihl hl
    have := ihr hr
    simp only [height, realHeight]
    omega

theorem AVLInv.balanced {t : Node K D S} (h : AVLInv t) : Balanced t := by
  induction t with
  | null => trivial
  | mk k p l r hh ihl ihr =>
    obtain ⟨hl, hr, he, h1, h2⟩ := h
    refine ⟨ihl hl, ihr hr, ?_⟩
    rw [← height_eq_realHeight hl, ← height_eq_realHeight hr]
    exact abs_le.mpr ⟨by omega, by omega⟩

theorem AVLInv.heightsOk {t : Node K D S} (h : AVLInv t) : HeightsOk t := by
  induction t with
  | null => trivial
  | mk k p l r hh ihl ihr =>
    obtain ⟨hl, hr, he, h1, h2⟩ := h
    exact ⟨ihl hl, ihr hr, he⟩

theorem height_pos_iff {t : Node K D S} (h : AVLInv t) (hp : 0 < height t) :
    ∃ k p l r hh, t = .mk k p l r hh := by
  cases t with
  | null => simp at hp
  | mk k p l r hh => exact ⟨k, p, l, r, hh, rfl⟩

variable [LinearOrder K]

/-- Rebalancing after an insertion into the left subtree. -/
theorem rebalance_left (key nk : K) (nd : List (D × S)) {l r : Node K D S} (h : Int)
    (hl : AVLInv l) (hr : AVLInv r)
    (h1 : height l - height r ≤ 2) (h2 : height r - height l ≤ 1)
    (ht : height l - height r = 2 → Tilt key l) :
    ∃ t, rebalance key (.mk nk nd l r h) = some t ∧ AVLInv t ∧
      ((height l - height r ≤ 1 ∧ t = .mk nk nd l r (1 + max (height l) (height r))) ∨
       (height l - height r = 2 ∧ height t = height l)) := by
  by_cases hb : height l - height r ≤ 1
  · refine ⟨.mk nk nd l r (1 + max (height l) (height r)), ?_, ⟨hl, hr, rfl, hb, h2⟩,
      Or.inl ⟨hb, rfl⟩⟩
    have e1 : ¬ (1 < height l - height r) := by omega
    have e2 : ¬ (height l - height r < -1) := by omega
    simp [rebalance, andThen, getBalanceFactor, e1, e2]
  · have hb2 : height l - height r = 2 := by omega
    have e1 : (1 < height l - height r) := by omega
    have e2 : ¬ (height l - height r < -1) := by omega
    have hrn := height_nonneg hr
    cases l with
    | null => simp only [height_null, height_mk] at hb2; omega
    | mk lk ld ll lr lh =>
      obtain ⟨hll, hlr, hle, hl1, hl2⟩ := hl
      have hlln := height_nonneg hll
      have hlrn := height_nonneg hlr
      simp only [height_null, height_mk] at hb2 e1 e2 h1 h2 ⊢
      rcases ht hb2 with ⟨hk, hh⟩ | ⟨hk, hh⟩
      · -- Left Left
        refine ⟨.mk lk ld ll (.mk nk nd lr r (max (height lr) (height r) + 1))
          (max (height ll) (max (height lr) (height r) + 1) + 1), ?_, ?_, Or.inr ⟨hb2, ?_⟩⟩
        · simp [rebalance, andThen, getBalanceFactor, e1, hk, rotateRight, keyOf]
        · refine ⟨hll, ⟨hlr, hr, ?_, ?_, ?_⟩, ?_, ?_, ?_⟩ <;>
            (try simp only [height_mk]) <;> omega
        · simp only [height_null, height_mk]; omega
      · -- Left Right
        have hk' : ¬ key < lk := not_lt.mpr hk.le
        cases lr with
        | null => simp only [height_null, height_mk] at hh hle; omega
        | mk mk' md ml mr mh =>
          obtain ⟨hml, hmr, hme, hm1, hm2⟩ := hlr
          have := height_nonneg hml
          have := height_nonneg hmr
          simp only [height_null, height_mk] at hh hle hlrn
          refine ⟨.mk mk' md (.mk lk ld ll ml (max (height ll) (height ml) + 1))
            (.mk nk nd mr r (max (height mr) (height r) + 1))
            (max (max (height ll) (height ml) + 1) (max (height mr) (height r) + 1) + 1),
            ?_, ?_, Or.inr ⟨hb2, ?_⟩⟩
          · simp [rebalance, andThen, getBalanceFactor, e1, e2, hk, hk', rotateRight,
              rotateLeft, keyOf]
          · refine ⟨⟨hll, hml, ?_, ?_, ?_⟩, ⟨hmr, hr, ?_, ?_, ?_⟩, ?_, ?_, ?_⟩ <;>
              (try simp only [height_mk]) <;> omega
          · simp only [height_null, height_mk]; omega

/-- Rebalancing after an insertion into the right subtree. -/
theorem rebalance_right (key nk : K) (nd : List (D × S)) {l r : Node K D S} (h : Int)
    (hl : AVLInv l) (hr : AVLInv r)
    (h1 : height r - height l ≤ 2) (h2 : height l - height r ≤ 1)
    (ht : height r - height l = 2 → Tilt key r) :
    ∃ t, rebalance key (.mk nk nd l r h) = some t ∧ AVLInv t ∧
      ((height r - height l ≤ 1 ∧ t = .mk nk nd l r (1 + max (height l) (height r))) ∨
       (height r - height l = 2 ∧ height t = height r)) := by
  by_cases hb : height r - height l ≤ 1
  · refine ⟨.mk nk nd l r (1 + max (height l) (height r)), ?_, ⟨hl, hr, rfl, h2, hb⟩,
      Or.inl ⟨hb, rfl⟩⟩
    have e1 : ¬ (1 < height l - height r) := by omega
    have e2 : ¬ (height l - height r < -1) := by omega
    simp [rebalance, andThen, getBalanceFactor, e1, e2]
  · have hb2 : height r - height l = 2 := by omega
    have e1 : ¬ (1 < height l - height r) := by omega
    have e2 : (height l - height r < -1) := by omega
    have hln := height_nonneg hl
    cases r with
    | null => simp only [height_null, height_mk] at hb2; omega
    | mk rk rd rl rr rh =>
      obtain ⟨hrl, hrr, hre, hr1, hr2⟩ := hr
      have hrln := height_nonneg hrl
      have hrrn := height_nonneg hrr
      simp only [height_null, height_mk] at hb2 e1 e2 h1 h2 ⊢
      rcases ht hb2 with ⟨hk, hh⟩ | ⟨hk, hh⟩
      · -- Right Left
        have hk' : ¬ rk < key := not_lt.mpr hk.le
        cases rl with
        | null => simp only [height_null, height_mk] at hh hre; omega
        | mk mk' md ml mr mh =>
          obtain ⟨hml, hmr, hme, hm1, hm2⟩ := hrl
          have := height_nonneg hml
          have := height_nonneg hmr
          simp only [height_null, height_mk] at hh hre hrln
          refine ⟨.mk mk' md (.mk nk nd l ml (max (height l) (height ml) + 1))
            (.mk rk rd mr rr (max (height mr) (height rr) + 1))
            (max (max (height l) (height ml) + 1) (max (height mr) (height rr) + 1) + 1),
            ?_, ?_, Or.inr ⟨hb2, ?_⟩⟩
          · simp [rebalance, andThen, getBalanceFactor, e1, e2, hk, hk', rotateRight,
              rotateLeft, keyOf]
          · refine ⟨⟨hl, hml, ?_, ?_, ?_⟩, ⟨hmr, hrr, ?_, ?_, ?_⟩, ?_, ?_, ?_⟩ <;>
              (try simp only [height_mk]) <;> omega
          · simp only [height_null, height_mk]; omega
      · -- Right Right
        refine ⟨.mk rk rd (.mk nk nd l rl (max (height l) (height rl) + 1)) rr
          (max (max (height l) (height rl) + 1) (height rr) + 1), ?_, ?_, Or.inr ⟨hb2, ?_⟩⟩
        · simp [rebalance, andThen, getBalanceFactor, e1, e2, hk, rotateLeft, keyOf]
        · refine ⟨⟨hl, hrl, ?_, ?_, ?_⟩, hrr, ?_, ?_, ?_⟩ <;>
            (try simp only [height_mk]) <;> omega
        · simp only [height_null, height_mk]; omega

/-- The private `insert` is defined on every tree satisfying the AVL invariant,
preserves the invariant, and changes the height by at most one; when a non-empty
tree grows, the result leans to the side of the inserted key. -/
theorem insertNode_inv [DecidableEq D] (t : Node K D S) (key : K) (d : D) (s : S)
    (h : AVLInv t) :
    ∃ t', insertNode t key d s = some t' ∧ AVLInv t' ∧
      (height t' = height t ∨
        (height t' = height t + 1 ∧ (t = .null ∨ Tilt key t'))) := by
  induction t with
  | null =>
    refine ⟨.mk key [] .null .null 1, rfl, ⟨trivial, trivial, ?_, ?_, ?_⟩, Or.inr ⟨?_, Or.inl rfl⟩⟩ <;>
      simp
  | mk nk nd l r hh ihl ihr =>
    obtain ⟨hl, hr, he, hb1, hb2⟩ := h
    have hln := height_nonneg hl
    have hrn := height_nonneg hr
    by_cases hlt : key < nk
    · obtain ⟨l', el, hl', hg⟩ := ihl hl
      have hT : height l' - height r = 2 → Tilt key l' := by
        intro h2
        rcases hg with hg | ⟨hg, hn | hT⟩
        · omega
        · subst hn; simp only [height_null] at hg; omega
        · exact hT
      obtain ⟨t, et, hti, hc⟩ := rebalance_left key nk nd hh
        hl' hr (by omega) (by omega) hT
      refine ⟨t, ?_, hti, ?_⟩
      · simp [insertNode, hlt, el, et]
      · simp only [height_mk]
        rcases hc with ⟨hc1, rfl⟩ | ⟨hc1, hc2⟩
        · simp only [height_mk]
          by_cases hgrow : 1 + max (height l') (height r) = hh
          · exact Or.inl hgrow
          · refine Or.inr ⟨by omega, Or.inr (Or.inl ⟨hlt, by omega⟩)⟩
        · exact Or.inl (by omega)
    · by_cases hgt : nk < key
      · obtain ⟨r', er, hr', hg⟩ := ihr hr
        have hT : height r' - height l = 2 → Tilt key r' := by
          intro h2
          rcases hg with hg | ⟨hg, hn | hT⟩
          · omega
          · subst hn; simp only [height_null] at hg; omega
          · exact hT
        obtain ⟨t, et, hti, hc⟩ := rebalance_right key nk nd hh
          hl hr' (by omega) (by omega) hT
        refine ⟨t, ?_, hti, ?_⟩
        · simp [insertNode, hlt, hgt, er, et]
        · simp only [height_mk]
          rcases hc with ⟨hc1, rfl⟩ | ⟨hc1, hc2⟩
          · simp only [height_mk]
            by_cases hgrow : 1 + max (height l) (height r') = hh
            · exact Or.inl hgrow
            · refine Or.inr ⟨by omega, Or.inr (Or.inr ⟨hgt, by omega⟩)⟩
          · exact Or.inl (by omega)
      · refine ⟨.mk nk (DocScores.set nd d s) l r hh, ?_, ⟨hl, hr, he, hb1, hb2⟩, Or.inl rfl⟩
        simp [insertNode, hlt, hgt]

/-! ### The in-order sequence under rotations and insertion -/

omit [LinearOrder K] in
theorem rotateRight_traverse {t t' : Node K D S} (h : rotateRight t = some t') :
    traverseInOrder t' = traverseInOrder t := by
  cases t with
  | null => simp [rotateRight] at h
  | mk k p l r hh =>
    cases l with
    | null => simp [rotateRight] at h
    | mk lk lp ll lr lh =>
      simp only [rotateRight, Option.some.injEq] at h
      subst h
      simp [traverseInOrder]

omit [LinearOrder K] in
theorem rotateLeft_traverse {t t' : Node K D S} (h : rotateLeft t = some t') :
    traverseInOrder t' = traverseInOrder t := by
  cases t with
  | null => simp [rotateLeft] at h
  | mk k p l r hh =>
    cases r with
    | null => simp [rotateLeft] at h
    | mk rk rp rl rr rh =>
      simp only [rotateLeft, Option.some.injEq] at h
      subst h
      simp [traverseInOrder]

theorem rebalance_traverse {key : K} {n n' : Node K D S} (h : rebalance key n = some n') :
    traverseInOrder n' = traverseInOrder n := by
  cases n with
  | null => simp [rebalance] at h
  | mk nk nd l r hh =>
    simp only [rebalance] at h
    split at h
    · simp at h
    · rw [rotateRight_traverse h]; rfl
    · split at h
      · simp at h
      · rw [rotateLeft_traverse h]; rfl
      · split at h
        · simp at h
        · obtain ⟨l', e1, e2⟩ := Option.bind_eq_some.mp h
          rw [rotateRight_traverse e2]
          simp [traverseInOrder, rotateLeft_traverse e1]
        · split at h
          · simp at h
          · obtain ⟨r', e1, e2⟩ := Option.bind_eq_some.mp h
            rw [rotateLeft_traverse e2]
            simp [traverseInOrder, rotateRight_traverse e1]
          · simp only [Option.some.injEq] at h
            subst h
            rfl

section InsList

variable [DecidableEq D]

theorem insList_append_lt (key : K) (d : D) (s : S) (xs ys : List (K × List (D × S)))
    (k : K) (p : List (D × S)) (h : key < k) :
    insList key d s (xs ++ (k, p) :: ys) = insList key d s xs ++ (k, p) :: ys := by
  induction xs with
  | nil => simp [insList, h]
  | cons x xs ih =>
    obtain ⟨k', p'⟩ := x
    simp only [List.cons_append, insList, List.append_eq]
    split
    · rfl
    · split
      · rw [ih]; rfl
      · rfl

theorem insList_append_gt (key : K) (d : D) (s : S) (xs ys : List (K × List (D × S)))
    (h : ∀ x ∈ xs, x.1 < key) :
    insList key d s (xs ++ ys) = xs ++ insList key d s ys := by
  induction xs with
  | nil => rfl
  | cons x xs ih =>
    obtain ⟨k', p'⟩ := x
    have hk : k' < key := h (k', p') (List.mem_cons_self _ _)
    have hn : ¬ key < k' := not_lt.mpr hk.le
    simp only [List.cons_append, insList, hn, hk, if_true, if_false, List.append_eq]
    rw [ih (fun x hx => h x (List.mem_cons_of_mem _ hx))]

theorem mem_keys_insList (key : K) (d : D) (s : S) (xs : List (K × List (D × S))) (a : K) :
    a ∈ (insList key d s xs).map Prod.fst ↔ a = key ∨ a ∈ xs.map Prod.fst := by
  induction xs with
  | nil => simp [insList]
  | cons x xs ih =>
    obtain ⟨k', p'⟩ := x
    simp only [insList]
    split
    · simp
    · split
      · simp only [List.map_cons, List.mem_cons, ih]
        tauto
      · have : k' = key := le_antisymm (not_lt.mp ‹_›) (not_lt.mp ‹_›)
        subst this
        simp

theorem insList_sorted (key : K) (d : D) (s : S) (xs : List (K × List (D × S)))
    (h : (xs.map Prod.fst).Pairwise (· < ·)) :
    ((insList key d s xs).map Prod.fst).Pairwise (· < ·) := by
  induction xs with
  | nil => simp [insList]
  | cons x xs ih =>
    obtain ⟨k', p'⟩ := x
    simp only [List.map_cons, List.pairwise_cons] at h
    simp only [insList]
    split
    · rename_i hlt
      simp only [List.map_cons, List.pairwise_cons, List.mem_cons]
      refine ⟨?_, h.1, h.2⟩
      rintro a (rfl | ha)
      · exact hlt
      · exact lt_trans hlt (h.1 a ha)
    · split
      · rename_i hgt
        simp only [List.map_cons, List.pairwise_cons]
        refine ⟨?_, ih h.2⟩
        intro a ha
        rcases (mem_keys_insList key d s xs a).mp ha with rfl | ha
        · exact hgt
        · exact h.1 a ha
      · simpa using h

end InsList

/-- On a search tree, the private `insert` acts on the in-order sequence as `insList`. -/
theorem insertNode_traverse [DecidableEq D] (t : Node K D S) (key : K) (d : D) (s : S)
    (hs : (keys t).Pairwise (· < ·)) {t' : Node K D S} (h : insertNode t key d s = some t') :
    traverseInOrder t' = insList key d s (traverseInOrder t) := by
  induction t generalizing t' with
  | null =>
    simp only [insertNode, Option.some.injEq] at h
    subst h
    rfl
  | mk nk nd l r hh ihl ihr =>
    simp only [keys, traverseInOrder, List.map_append, List.map_cons,
      List.pairwise_append, List.pairwise_cons, List.mem_cons] at hs
    obtain ⟨hsl, ⟨hnr, hsr⟩, hlr⟩ := hs
    simp only [insertNode] at h
    split at h
    · rename_i hlt
      obtain ⟨l', e1, e2⟩ := Option.bind_eq_some.mp h
      rw [rebalance_traverse e2]
      simp only [traverseInOrder]
      rw [ihl hsl e1, insList_append_lt _ _ _ _ _ _ _ hlt]
    · split at h
      · rename_i hgt
        obtain ⟨r', e1, e2⟩ := Option.bind_eq_some.mp h
        rw [rebalance_traverse e2]
        simp only [traverseInOrder]
        rw [ihr hsr e1, insList_append_gt]
        · simp [insList, hgt, not_lt.mpr hgt.le]
        · intro x hx
          exact lt_trans (hlr x.1 (List.mem_map_of_mem _ hx) nk (Or.inl rfl)) hgt
      · rename_i hlt hgt
        simp only [Option.some.injEq] at h
        subst h
        simp only [traverseInOrder]
        rw [insList_append_gt]
        · simp [insList, hlt, hgt]
        · intro x hx
          have := hlr x.1 (List.mem_map_of_mem _ hx) nk (Or.inl rfl)
          exact lt_of_lt_of_le this (not_lt.mp hlt)

/-! ### Lookup in the in-order sequence -/

theorem postingsOf_of_not_mem (key : K) (xs : List (K × List (D × S)))
    (h : key ∉ xs.map Prod.fst) : postingsOf key xs = [] := by
  induction xs with
  | nil => rfl
  | cons x xs ih =>
    obtain ⟨k, p⟩ := x
    simp only [List.map_cons, List.mem_cons, not_or] at h
    have : ¬ k = key := fun e => h.1 e.symm
    simp [postingsOf, this, ih h.2]

theorem postingsOf_append (key : K) (xs ys : List (K × List (D × S))) :
    postingsOf key (xs ++ ys) =
      if key ∈ xs.map Prod.fst then postingsOf key xs else postingsOf key ys := by
  induction xs with
  | nil => simp
  | cons x xs ih =>
    obtain ⟨k, p⟩ := x
    by_cases h : k = key
    · simp [postingsOf, h]
    · have hk : ¬ key = k := fun e => h e.symm
      simp only [List.cons_append, postingsOf, h, if_false, List.append_eq, ih, List.map_cons]
      by_cases hm : key ∈ List.map Prod.fst xs
      · rw [if_pos hm, if_pos (List.mem_cons_of_mem _ hm)]
      · rw [if_neg hm, if_neg (fun hc => (List.mem_cons.mp hc).elim hk hm)]

theorem postingsOf_nodup [DecidableEq D] (key : K)
    (xs : List (K × List (D × S))) (h : ∀ p ∈ xs, DocScores.Nodup p.2) :
    DocScores.Nodup (postingsOf key xs) := by
  induction xs with
  | nil => simp [postingsOf, DocScores.Nodup, DocScores.keys]
  | cons x xs ih =>
    obtain ⟨k, p⟩ := x
    simp only [postingsOf]
    split
    · exact h (k, p) (List.mem_cons_self _ _)
    · exact ih (fun q hq => h q (List.mem_cons_of_mem _ hq))

/-- On a search tree the public `search` returns the `docScores` that the in-order
sequence lists under the key. -/
theorem search_eq_postingsOf [DecidableEq D] (t : Node K D S) (key : K)
    (hs : (keys t).Pairwise (· < ·)) :
    AVLTree.search ⟨t⟩ key = postingsOf key (traverseInOrder t) := by
  induction t with
  | null => rfl
  | mk nk nd l r hh ihl ihr =>
    simp only [keys, traverseInOrder, List.map_append, List.map_cons,
      List.pairwise_append, List.pairwise_cons, List.mem_cons] at hs
    obtain ⟨hsl, ⟨hnr, hsr⟩, hlr⟩ := hs
    have hl := ihl hsl
    have hr := ihr hsr
    simp only [search] at hl hr ⊢
    simp only [traverseInOrder, postingsOf_append, searchNode]
    by_cases h1 : nk = key
    · subst h1
      have : nk ∉ List.map Prod.fst (traverseInOrder l) := fun hm =>
        lt_irrefl _ (hlr nk hm nk (Or.inl rfl))
      simp [this, postingsOf]
    · simp only [h1, if_false]
      by_cases h2 : key < nk
      · simp only [h2, if_true, hl]
        split
        · rfl
        · rename_i hn
          have hnr' : key ∉ List.map Prod.fst (traverseInOrder r) := fun hm =>
            lt_asymm h2 (hnr key hm)
          simp [postingsOf, h1, postingsOf_of_not_mem key _ hn,
            postingsOf_of_not_mem key _ hnr']
      · simp only [h2, if_false, hr]
        have hgt : nk < key := lt_of_le_of_ne (not_lt.mp h2) h1
        have : key ∉ List.map Prod.fst (traverseInOrder l) := fun hm =>
          lt_asymm hgt (hlr key hm nk (Or.inl rfl))
        simp [this, postingsOf, h1]

section InsList2

variable [DecidableEq D]

theorem postingsOf_insList_self (key : K) (d : D) (s : S) (xs : List (K × List (D × S)))
    (h : (xs.map Prod.fst).Pairwise (· < ·)) :
    postingsOf key (insList key d s xs) =
      if key ∈ xs.map Prod.fst then DocScores.set (postingsOf key xs) d s else [] := by
  induction xs with
  | nil => simp [insList, postingsOf]
  | cons x xs ih =>
    obtain ⟨k, p⟩ := x
    simp only [List.map_cons, List.pairwise_cons] at h
    simp only [insList]
    split
    · rename_i hlt
      have h1 : ¬ key = k := ne_of_lt hlt
      have h2 : key ∉ xs.map Prod.fst := fun hm => lt_asymm hlt (h.1 key hm)
      simp [postingsOf, h1, h2]
    · split
      · rename_i hgt
        have h1 : ¬ k = key := ne_of_lt hgt
        have h1' : ¬ key = k := fun e => h1 e.symm
        simp only [postingsOf, h1, if_false, ih h.2, List.map_cons]
        by_cases hm : key ∈ List.map Prod.fst xs
        · rw [if_pos hm, if_pos (List.mem_cons_of_mem _ hm)]
        · rw [if_neg hm, if_neg (fun hc => (List.mem_cons.mp hc).elim h1' hm)]
      · have : k = key := le_antisymm (not_lt.mp ‹_›) (not_lt.mp ‹_›)
        subst this
        simp [postingsOf]

theorem postingsOf_insList_other (key key' : K) (d : D) (s : S)
    (xs : List (K × List (D × S))) (hne : key' ≠ key) :
    postingsOf key' (insList key d s xs) = postingsOf key' xs := by
  induction xs with
  | nil => simp [insList, postingsOf, hne.symm]
  | cons x xs ih =>
    obtain ⟨k, p⟩ := x
    simp only [insList]
    split
    · simp [postingsOf, hne.symm]
    · split
      · simp [postingsOf, ih]
      · have : k = key := le_antisymm (not_lt.mp ‹_›) (not_lt.mp ‹_›)
        subst this
        simp [postingsOf, hne.symm]

theorem insList_postingsOk (key : K) (d : D) (s : S) (xs : List (K × List (D × S)))
    (h : ∀ p ∈ xs, DocScores.Nodup p.2) :
    ∀ p ∈ insList key d s xs, DocScores.Nodup p.2 := by
  induction xs with
  | nil => simp [insList, DocScores.Nodup, DocScores.keys]
  | cons x xs ih =>
    obtain ⟨k, p⟩ := x
    have hx := h (k, p) (List.mem_cons_self _ _)
    have hxs : ∀ q ∈ xs, DocScores.Nodup q.2 := fun q hq => h q (List.mem_cons_of_mem _ hq)
    simp only [insList]
    split
    · intro q hq
      rcases List.mem_cons.mp hq with rfl | hq
      · simp [DocScores.Nodup, DocScores.keys]
      · exact h q hq
    · split
      · intro q hq
        rcases List.mem_cons.mp hq with rfl | hq
        · exact hx
        · exact ih hxs q hq
      · intro q hq
        rcases List.mem_cons.mp hq with rfl | hq
        · exact DocScores.set_nodup _ _ _ hx
        · exact hxs q hq

end InsList2

/-! ### Trees built by a sequence of inserts -/

theorem wf_null [DecidableEq D] : WF (Node.null : Node K D S) :=
  ⟨trivial, by simp [keys, traverseInOrder], by simp [PostingsOk, traverseInOrder]⟩

/-- One public `insert` on a well-formed index succeeds, keeps it well-formed, and
acts on the in-order sequence as `insList`. -/
theorem insert_wf [DecidableEq D] (t : AVLTree K D S) (key : K) (d : D) (s : S)
    (h : WF t.root) :
    ∃ t', t.insert key d s = some t' ∧ WF t'.root ∧
      traverseInOrder t'.root = insList key d s (traverseInOrder t.root) := by
  obtain ⟨hi, hs, hp⟩ := h
  obtain ⟨r', e, hi', _⟩ := insertNode_inv t.root key d s hi
  have ht := insertNode_traverse t.root key d s hs e
  refine ⟨⟨r'⟩, by simp [insert, e], ⟨hi', ?_, ?_⟩, ht⟩
  · simp only [keys, ht]
    exact insList_sorted key d s _ hs
  · simp only [PostingsOk, ht]
    exact insList_postingsOk key d s _ hp

/-- Any sequence of public `insert` calls on a well-formed index succeeds and
yields a well-formed index. -/
theorem insertAll_wf [DecidableEq D] (ops : List (K × D × S)) (t : AVLTree K D S)
    (h : WF t.root) : ∃ t', insertAll t ops = some t' ∧ WF t'.root := by
  induction ops generalizing t with
  | nil => exact ⟨t, rfl, h⟩
  | cons op ops ih =>
    obtain ⟨k, d, s⟩ := op
    obtain ⟨t1, e1, h1, _⟩ := insert_wf t k d s h
    obtain ⟨t2, e2, h2⟩ := ih t1 h1
    exact ⟨t2, by simp [insertAll, e1, e2], h2⟩

theorem isBST_of_sorted (t : Node K D S) (hs : (keys t).Pairwise (· < ·)) : IsBST t := by
  induction t with
  | null => trivial
  | mk nk nd l r hh ihl ihr =>
    simp only [keys, traverseInOrder, List.map_append, List.map_cons,
      List.pairwise_append, List.pairwise_cons, List.mem_cons] at hs
    obtain ⟨hsl, ⟨hnr, hsr⟩, hlr⟩ := hs
    exact ⟨ihl hsl, ihr hsr, fun k hk => hlr k hk nk (Or.inl rfl), hnr⟩

/-- Inserting a key that the index does not hold yet creates a node with an empty
`docScores`: the posting `(d, s)` is not stored, and `search` returns nothing. -/
theorem search_insert_absent [DecidableEq D] (t : AVLTree K D S) (key : K) (d : D) (s : S)
    (h : WF t.root) (hk : key ∉ keys t.root) :
    ∃ t', t.insert key d s = some t' ∧ t'.search key = [] := by
  obtain ⟨t', e, hw, ht⟩ := insert_wf t key d s h
  refine ⟨t', e, ?_⟩
  have := search_eq_postingsOf t'.root key hw.2.1
  rw [ht, postingsOf_insList_self key d s _ h.2.1] at this
  rw [if_neg (by simpa [keys] using hk)] at this
  exact this

/-- Inserting under a key that the index already holds sets the posting of `d` in
the `docScores` of that key. -/
theorem search_insert_present [DecidableEq D] (t : AVLTree K D S) (key : K) (d : D) (s : S)
    (h : WF t.root) (hk : key ∈ keys t.root) :
    ∃ t', t.insert key d s = some t' ∧ t'.search key = DocScores.set (t.search key) d s := by
  obtain ⟨t', e, hw, ht⟩ := insert_wf t key d s h
  refine ⟨t', e, ?_⟩
  have := search_eq_postingsOf t'.root key hw.2.1
  rw [ht, postingsOf_insList_self key d s _ h.2.1] at this
  rw [if_pos (by simpa [keys] using hk), ← search_eq_postingsOf t.root key h.2.1] at this
  exact this

theorem search_nodup [DecidableEq D] (t : AVLTree K D S) (key : K) (h : WF t.root) :
    DocScores.Nodup (t.search key) := by
  have := search_eq_postingsOf t.root key h.2.1
  rw [show (⟨t.root⟩ : AVLTree K D S) = t from rfl] at this
  rw [this]
  exact postingsOf_nodup key _ h.2.2

/-! ## Claims on the tree -/

/-- C1 (as the code behaves): on the insert sequence of the repository's own test,
`search "apple"` returns no entry at all, where the test asserts exactly the one
entry `("doc1", 1.0)`: a newly created node does not receive the posting. -/
theorem C1_test_search_after_first_insert_is_empty :
    ((AVLTree.empty : AVLTree Str Str ℚ).insertAll
        [(str "apple", str "doc1", 1.0), (str "banana", str "doc1", 2.0),
         (str "orange", str "doc2", 3.0)]).map
      (fun t => t.search (str "apple")) = some [] := by
  decide

/-- C2: after any finite sequence of insert calls from the empty index, the tree
exists and every node satisfies `|height(left) - height(right)| ≤ 1` on true heights. -/
theorem C2_balanced_after_inserts [DecidableEq D] (ops : List (K × D × S)) :
    ∃ t, (AVLTree.empty : AVLTree K D S).insertAll ops = some t ∧ Balanced t.root := by
  obtain ⟨t, e, hw⟩ := insertAll_wf ops (AVLTree.empty : AVLTree K D S) wf_null
  exact ⟨t, e, hw.1.balanced⟩

/-- C3: after any finite sequence of insert calls from the empty index, the in-order
traversal of the keys is strictly increasing, and at every node the keys of the left
subtree are smaller and the keys of the right subtree larger than the node key. -/
theorem C3_bst_after_inserts [DecidableEq D] (ops : List (K × D × S)) :
    ∃ t, (AVLTree.empty : AVLTree K D S).insertAll ops = some t ∧
      ((traverseInOrder t.root).map Prod.fst).Pairwise (· < ·) ∧ IsBST t.root := by
  obtain ⟨t, e, hw⟩ := insertAll_wf ops (AVLTree.empty : AVLTree K D S) wf_null
  exact ⟨t, e, hw.2.1, isBST_of_sorted _ hw.2.1⟩

/-- C4: on an index built by inserts, `insert(k, d, s1)` followed by
`insert(k, d, s2)` leaves `search(k)` with exactly one entry for `d`, carrying `s2`. -/
theorem C4_overwrite_not_accumulate [DecidableEq D] (ops : List (K × D × S))
    (k : K) (d : D) (s1 s2 : S) :
    ∃ t t1 t2, (AVLTree.empty : AVLTree K D S).insertAll ops = some t ∧
      t.insert k d s1 = some t1 ∧ t1.insert k d s2 = some t2 ∧
      (t2.search k).filter (fun e => decide (e.1 = d)) = [(d, s2)] := by
  obtain ⟨t, e, hw⟩ := insertAll_wf ops (AVLTree.empty : AVLTree K D S) wf_null
  obtain ⟨t1, e1, hw1, ht1⟩ := insert_wf t k d s1 hw
  have hk : k ∈ keys t1.root := by
    simp only [keys, ht1]
    exact (mem_keys_insList k d s1 _ k).mpr (Or.inl rfl)
  obtain ⟨t2, e2, hs⟩ := search_insert_present t1 k d s2 hw1 hk
  refine ⟨t, t1, t2, e, e1, e2, ?_⟩
  rw [hs]
  exact DocScores.filter_set _ d s2 (search_nodup t1 k hw1)

end AVLTree

/-! ## Binary persistence -/

theorem writeLE_length (w n : Nat) : (writeLE w n).length = w := by
  induction w generalizing n with
  | zero => rfl
  | succ w ih => simp [writeLE, ih]

theorem readLE_writeLE (w n : Nat) : readLE (writeLE w n) = n % 256 ^ w := by
  induction w generalizing n with
  | zero => simp [writeLE, readLE, Nat.mod_one]
  | succ w ih =>
    simp only [writeLE, readLE, byteOf, ih]
    rw [pow_succ', Nat.mod_mul]

theorem readBytes_append (xs rest : List Byte) :
    readBytes xs.length (xs ++ rest) = some (xs, rest) := by
  simp [readBytes]

theorem readSize_writeSize (n : Nat) (rest : List Byte) (h : n < 2 ^ 64) :
    readSize (writeSize n ++ rest) = some (n, rest) := by
  have hl : (writeSize n).length = 8 := writeLE_length 8 _
  have hb := readBytes_append (writeSize n) rest
  rw [hl] at hb
  have : n % 2 ^ 64 % 256 ^ 8 = n := by
    norm_num
    omega
  simp only [readSize, hb, Option.map_some']
  simp only [writeSize, readLE_writeLE, this]

theorem readString_writeString (s : Str) (rest : List Byte) (h : s.length < 2 ^ 64) :
    readString (writeString s ++ rest) = some (s, rest) := by
  simp only [readString, writeString, List.append_assoc, readSize_writeSize _ _ h,
    Option.some_bind, readBytes_append]

theorem readBool_writeBool (b : Bool) (rest : List Byte) :
    readBool (writeBool b ++ rest) = some (b, rest) := by
  cases b <;> simp [readBool, writeBool]

namespace AVLTree

variable {S : Type} [ScoreBytes S]

omit [ScoreBytes S] in
theorem set_of_not_mem (acc : List (Str × S)) (d : Str) (s : S) (h : d ∉ DocScores.keys acc) :
    DocScores.set acc d s = acc ++ [(d, s)] := by
  induction acc with
  | nil => rfl
  | cons x acc ih =>
    obtain ⟨d', s'⟩ := x
    simp only [DocScores.keys, List.map_cons, List.mem_cons, not_or] at h
    have : ¬ d' = d := fun e => h.1 e.symm
    simp only [DocScores.set, this, if_false, List.cons_append]
    rw [ih h.2]

theorem readDocScores_write (m acc : List (Str × S)) (rest : List Byte)
    (hn : DocScores.Nodup (acc ++ m)) (hf : ∀ e ∈ m, e.1.length < 2 ^ 64) :
    readDocScores m.length acc (writeDocScores m ++ rest) = some (acc ++ m, rest) := by
  induction m generalizing acc with
  | nil => simp [readDocScores, writeDocScores]
  | cons x m ih =>
    obtain ⟨d, s⟩ := x
    have hd : d ∉ DocScores.keys acc := by
      intro hm
      simp only [DocScores.Nodup, DocScores.keys, List.map_append, List.map_cons] at hn
      have := (List.nodup_append.mp hn).2.2
      exact this hm (List.mem_cons_self _ _)
    have hlen : (ScoreBytes.toBytes s).length = 8 := ScoreBytes.length_toBytes s
    have hb := readBytes_append (ScoreBytes.toBytes s) (writeDocScores m ++ rest)
    rw [hlen] at hb
    simp only [List.length_cons, readDocScores, writeDocScores, List.append_assoc,
      readString_writeString _ _ (hf (d, s) (List.mem_cons_self _ _)), Option.some_bind, hb,
      ScoreBytes.ofBytes_toBytes, set_of_not_mem acc d s hd]
    rw [ih (acc ++ [(d, s)]) (by simpa using hn)
      (fun e he => hf e (List.mem_cons_of_mem _ he))]
    simp

theorem realHeight_le_serialize (t : Node Str Str S) :
    realHeight t ≤ (serializeHelper t).length := by
  induction t with
  | null => simp [realHeight]
  | mk k p l r h ihl ihr =>
    have h8 : (writeSize k.length).length = 8 := writeLE_length 8 _
    simp only [realHeight, serializeHelper, writeString, List.length_append, h8, writeBool,
      List.length_singleton]
    cases l <;> cases r <;>
      simp only [isNull, realHeight, Bool.not_true, Bool.not_false, if_true,
        Bool.false_eq_true, if_false, List.length_nil, realHeight] at ihl ihr ⊢ <;> omega

/-- Reading back what `serializeHelper` wrote for a non-empty tree gives the same
tree and leaves the rest of the input, when the cached heights are correct, the
document ids of every node are unique and every size fits a `size_t`. -/
theorem deserializeHelper_serializeHelper (t : Node Str Str S) (fuel : Nat)
    (rest : List Byte) (hne : isNull t = false) (hh : HeightsOk t) (hp : PostingsOk t)
    (hf : SizesFit t) (hfuel : realHeight t ≤ fuel) :
    deserializeHelper fuel (serializeHelper t ++ rest) = some (t, rest) := by
  induction t generalizing fuel rest with
  | null => simp [isNull] at hne
  | mk k p l r h ihl ihr =>
    obtain ⟨hhl, hhr, hhe⟩ := hh
    have hpl : PostingsOk l := fun q hq => hp q (by simp [traverseInOrder, hq])
    have hpr : PostingsOk r := fun q hq => hp q (by simp [traverseInOrder, hq])
    have hfl : SizesFit l := fun q hq => hf q (by simp [traverseInOrder, hq])
    have hfr : SizesFit r := fun q hq => hf q (by simp [traverseInOrder, hq])
    have hpk := hp (k, p) (by simp [traverseInOrder])
    obtain ⟨hfk, hfp, hfe⟩ := hf (k, p) (by simp [traverseInOrder])
    cases fuel with
    | zero => simp [realHeight] at hfuel
    | succ fuel =>
      have hfuel' : max (realHeight l) (realHeight r) ≤ fuel := by
        simp only [realHeight] at hfuel
        omega
      have hdl : ∀ rest', (if (!isNull l) = true then deserializeHelper fuel
          ((if (!isNull l) = true then serializeHelper l else []) ++ rest')
          else some (Node.null, (if (!isNull l) = true then serializeHelper l else []) ++ rest'))
          = some (l, rest') := by
        intro rest'
        cases hl : isNull l with
        | true => cases l <;> simp_all [isNull]
        | false =>
          simp only [Bool.not_false, if_true]
          exact ihl fuel rest' hl hhl hpl hfl (le_trans (le_max_left _ _) hfuel')
      have hdr : ∀ rest', (if (!isNull r) = true then deserializeHelper fuel
          ((if (!isNull r) = true then serializeHelper r else []) ++ rest')
          else some (Node.null, (if (!isNull r) = true then serializeHelper r else []) ++ rest'))
          = some (r, rest') := by
        intro rest'
        cases hr : isNull r with
        | true => cases r <;> simp_all [isNull]
        | false =>
          simp only [Bool.not_false, if_true]
          exact ihr fuel rest' hr hhr hpr hfr (le_trans (le_max_right _ _) hfuel')
      simp only [deserializeHelper, serializeHelper, List.append_assoc,
        readString_writeString _ _ hfk, readSize_writeSize _ _ hfp, Option.some_bind,
        readDocScores_write p [] _ (by simpa using hpk) hfe, List.nil_append,
        readBool_writeBool, hdl, hdr, hhe]

end AVLTree

/-! ### The recursion bound of `deserialize` -/

theorem readBytes_length {n : Nat} {bs a r : List Byte} (h : readBytes n bs = some (a, r)) :
    r.length + n = bs.length := by
  simp only [readBytes] at h
  split at h
  · simp at h
  · rename_i hn
    simp only [Option.some.injEq, Prod.mk.injEq] at h
    rw [← h.2, List.length_drop]
    omega

theorem readSize_length {bs r : List Byte} {n : Nat} (h : readSize bs = some (n, r)) :
    r.length + 8 = bs.length := by
  simp only [readSize, Option.map_eq_some'] at h
  obtain ⟨⟨a, r'⟩, h1, h2⟩ := h
  simp only [Prod.mk.injEq] at h2
  rw [← h2.2]
  exact readBytes_length h1

theorem readString_length {bs r : List Byte} {w : Str} (h : readString bs = some (w, r)) :
    r.length + 8 ≤ bs.length := by
  simp only [readString] at h
  obtain ⟨⟨n, r'⟩, h1, h2⟩ := Option.bind_eq_some.mp h
  dsimp only at h2
  have := readSize_length h1
  have := readBytes_length h2
  omega

theorem readBool_length {bs r : List Byte} {b : Bool} (h : readBool bs = some (b, r)) :
    r.length + 1 = bs.length := by
  cases bs with
  | nil => simp [readBool] at h
  | cons x bs =>
    simp only [readBool] at h
    split at h
    · simp only [Option.some.injEq, Prod.mk.injEq] at h
      simp [h.2]
    · split at h
      · simp only [Option.some.injEq, Prod.mk.injEq] at h
        simp [h.2]
      · simp at h

namespace AVLTree

variable {S : Type} [ScoreBytes S]

theorem readDocScores_length (n : Nat) (acc : List (Str × S)) (bs : List Byte)
    {m : List (Str × S)} {r : List Byte} (h : readDocScores n acc bs = some (m, r)) :
    r.length ≤ bs.length := by
  induction n generalizing acc bs with
  | zero =>
    simp only [readDocScores, Option.some.injEq, Prod.mk.injEq] at h
    rw [h.2]
  | succ n ih =>
    simp only [readDocScores] at h
    obtain ⟨⟨w, r1⟩, h1, h2⟩ := Option.bind_eq_some.mp h
    obtain ⟨⟨y, r2⟩, h3, h4⟩ := Option.bind_eq_some.mp h2
    dsimp only at h3 h4
    have := readString_length h1
    have := readBytes_length h3
    have := ih _ _ h4
    omega

omit [ScoreBytes S] in
/-- A child read by `deserializeHelper`: a recursive call when the flag is set,
`nullptr` otherwise. -/
theorem child_length {f : List Byte → Option (Node Str Str S × List Byte)} {b : Bool}
    {bs r : List Byte} {t : Node Str Str S}
    (hf : ∀ t' r', f bs = some (t', r') → r'.length ≤ bs.length)
    (h : (if b = true then f bs else some (Node.null, bs)) = some (t, r)) :
    r.length ≤ bs.length := by
  split at h
  · exact hf t r h
  · simp only [Option.some.injEq, Prod.mk.injEq] at h
    rw [h.2]

/-- Every successful call of `deserializeHelper` consumes input. -/
theorem deserializeHelper_length (fuel : Nat) (bs : List Byte) {t : Node Str Str S}
    {r : List Byte} (h : deserializeHelper fuel bs = some (t, r)) :
    r.length < bs.length := by
  induction fuel generalizing bs t r with
  | zero => simp [deserializeHelper] at h
  | succ fuel ih =>
    simp only [deserializeHelper] at h
    obtain ⟨⟨k, r1⟩, h1, h⟩ := Option.bind_eq_some.mp h
    obtain ⟨⟨c, r2⟩, h2, h⟩ := Option.bind_eq_some.mp h
    obtain ⟨⟨m, r3⟩, h3, h⟩ := Option.bind_eq_some.mp h
    obtain ⟨⟨hl, r4⟩, h4, h⟩ := Option.bind_eq_some.mp h
    obtain ⟨⟨l, r5⟩, h5, h⟩ := Option.bind_eq_some.mp h
    obtain ⟨⟨hr, r6⟩, h6, h⟩ := Option.bind_eq_some.mp h
    obtain ⟨⟨rt, r7⟩, h7, h⟩ := Option.bind_eq_some.mp h
    dsimp only at h2 h3 h4 h5 h6 h7 h
    simp only [Option.some.injEq, Prod.mk.injEq] at h
    have e1 := readString_length h1
    have e2 := readSize_length h2
    have e3 := readDocScores_length _ _ _ h3
    have e4 := readBool_length h4
    have e6 := readBool_length h6
    have e5 := child_length (fun t' r' h' => (ih r4 h').le) h5
    have e7 := child_length (fun t' r' h' => (ih r6 h').le) h7
    rw [← h.2]
    omega

/-- The result of `deserializeHelper` does not depend on the depth bound once the
bound exceeds the length of the input: `deserialize` never stops for lack of depth. -/
theorem deserializeHelper_fuel (fuel fuel' : Nat) (bs : List Byte)
    (h : bs.length < fuel) (h' : bs.length < fuel') :
    (deserializeHelper fuel bs : Option (Node Str Str S × List Byte)) =
      deserializeHelper fuel' bs := by
  induction fuel generalizing fuel' bs with
  | zero => omega
  | succ fuel ih =>
    cases fuel' with
    | zero => omega
    | succ fuel' =>
      simp only [deserializeHelper]
      cases h1 : readString bs with
      | none => rfl
      | some k1 =>
        obtain ⟨k, r1⟩ := k1
        have e1 := readString_length h1
        simp only [Option.some_bind]
        cases h2 : readSize r1 with
        | none => rfl
        | some c1 =>
          obtain ⟨c, r2⟩ := c1
          have e2 := readSize_length h2
          simp only [Option.some_bind]
          cases h3 : readDocScores c ([] : List (Str × S)) r2 with
          | none => rfl
          | some m1 =>
            obtain ⟨m, r3⟩ := m1
            have e3 := readDocScores_length _ _ _ h3
            simp only [Option.some_bind]
            cases h4 : readBool r3 with
            | none => rfl
            | some hl1 =>
              obtain ⟨hl, r4⟩ := hl1
              have e4 := readBool_length h4
              simp only [Option.some_bind]
              have el : (if hl = true then deserializeHelper fuel r4
                  else some ((Node.null : Node Str Str S), r4)) =
                  (if hl = true then deserializeHelper fuel' r4
                  else some (Node.null, r4)) := by
                split
                · exact ih fuel' r4 (by omega) (by omega)
                · rfl
              rw [el]
              cases h5 : (if hl = true then deserializeHelper fuel' r4
                  else some ((Node.null : Node Str Str S), r4)) with
              | none => rfl
              | some l1 =>
                obtain ⟨l, r5⟩ := l1
                have e5 := child_length
                  (fun t' r' h' => (deserializeHelper_length fuel' r4 h').le) h5
                simp only [Option.some_bind]
                cases h6 : readBool r5 with
                | none => rfl
                | some hr1 =>
                  obtain ⟨hr, r6⟩ := hr1
                  have e6 := readBool_length h6
                  simp only [Option.some_bind]
                  have er : (if hr = true then deserializeHelper fuel r6
                      else some ((Node.null : Node Str Str S), r6)) =
                      (if hr = true then deserializeHelper fuel' r6
                      else some (Node.null, r6)) := by
                    split
                    · exact ih fuel' r6 (by omega) (by omega)
                    · rfl
                  rw [er]

end AVLTree

namespace AVLTree

variable {S : Type} [ScoreBytes S]

/-- C5: for a non-empty index built by inserts (all sizes being `size_t` values),
`deserialize` of the bytes written by `serialize` yields an index whose `search(k)`
has the same entries as the original one, for every key `k` of the original. -/
theorem C5_serialize_deserialize_search (ops : List (Str × Str × S)) (t : AVLTree Str Str S)
    (hb : (AVLTree.empty : AVLTree Str Str S).insertAll ops = some t)
    (hne : t.isEmpty = false) (hfit : SizesFit t.root) :
    ∃ t' : AVLTree Str Str S, deserialize (serialize t) = some t' ∧
      ∀ k ∈ keys t.root, ∀ e, e ∈ t'.search k ↔ e ∈ t.search k := by
  obtain ⟨t0, e0, hw⟩ := insertAll_wf ops (AVLTree.empty : AVLTree Str Str S) wf_null
  rw [hb] at e0
  cases e0
  have hrt := deserializeHelper_serializeHelper t.root ((serialize t).length + 1) [] hne
    hw.1.heightsOk hw.2.2 hfit (Nat.le_succ_of_le (realHeight_le_serialize t.root))
  refine ⟨t, ?_, fun k _ e => Iff.rfl⟩
  simp only [List.append_nil, serialize] at hrt
  simp [deserialize, serialize, hrt]

/-- The round trip of C5 on the index built by `exampleOps`. -/
theorem C5_serialize_deserialize_search_witness :
    (AVLTree.empty : AVLTree Str Str (Fin (2 ^ 64))).insertAll exampleOps = some exampleIndex ∧
    exampleIndex.isEmpty = false ∧
    ∃ t' : AVLTree Str Str (Fin (2 ^ 64)), deserialize (serialize exampleIndex) = some t' ∧
      ∀ k ∈ keys exampleIndex.root, ∀ e, e ∈ t'.search k ↔ e ∈ exampleIndex.search k :=
  ⟨by decide, by decide,
    C5_serialize_deserialize_search exampleOps exampleIndex (by decide) (by decide)
      (by unfold SizesFit; decide)⟩

end AVLTree

/-! ## Ranking -/

theorem sortInsert_perm {α : Type} (comp : α → α → Bool) (a : α) (l : List α) :
    (sortInsert comp a l).Perm (a :: l) := by
  induction l with
  | nil => exact List.Perm.refl _
  | cons b l ih =>
    simp only [sortInsert]
    split
    · exact ((List.Perm.cons b ih).trans (List.Perm.swap a b l))
    · exact List.Perm.refl _

theorem stdSort_perm {α : Type} (comp : α → α → Bool) (l : List α) :
    (stdSort comp l).Perm l := by
  induction l with
  | nil => exact List.Perm.refl _
  | cons a l ih =>
    simp only [stdSort]
    exact (sortInsert_perm comp a _).trans (List.Perm.cons a ih)

namespace QueryProcessor

variable {S : Type}

/-- The list that `rankResults` sorts and truncates. -/
theorem rankResults_eq_take [LT S] [DecidableRel (fun a b : S => a < b)] (lib : ThirdParty) (ih : IndexHandler S)
    (m : List (Str × S)) (limit : Nat) :
    rankResults lib ih m limit =
      (stdSort (fun a b => decide (a.score > b.score)) (m.map (makeResult lib ih))).take limit := by
  simp only [rankResults]
  split
  · rfl
  · rename_i h
    rw [List.take_of_length_le (not_lt.mp h)]

/-- On the model of `double`, the scores compare as numbers do exactly when none of
them is NaN. -/
theorem noNaN_iff (l : List Double) : NoNaN l ↔ Double.nan ∉ l := by
  constructor
  · intro h hm
    rcases h.1 _ hm _ hm with h1 | h1 <;> exact h1
  · intro hm
    have hnum : ∀ a ∈ l, ∃ x, a = Double.num x := by
      intro a ha
      cases a with
      | nan => exact absurd ha hm
      | num x => exact ⟨x, rfl⟩
    refine ⟨fun a ha b hb => ?_, fun a ha b hb c hc => ?_, fun a ha b hb => ?_⟩
    · obtain ⟨x, rfl⟩ := hnum a ha
      obtain ⟨y, rfl⟩ := hnum b hb
      exact le_total x y
    · obtain ⟨x, rfl⟩ := hnum a ha
      obtain ⟨y, rfl⟩ := hnum b hb
      obtain ⟨z, rfl⟩ := hnum c hc
      exact fun h1 h2 => (le_trans h1 h2 : x ≤ z)
    · obtain ⟨x, rfl⟩ := hnum a ha
      obtain ⟨y, rfl⟩ := hnum b hb
      exact (not_le : ¬ y ≤ x ↔ x < y).symm

theorem sortInsert_sorted_of {α : Type} [LT S] [LE S] [DecidableRel (fun a b : S => a < b)]
    (f : α → S) (u : List S) (hn : NoNaN u) (a : α) (l : List α)
    (ha : f a ∈ u) (hl : ∀ x ∈ l, f x ∈ u)
    (h : l.Pairwise (fun x y => f y ≤ f x)) :
    (sortInsert (fun x y => decide (f x > f y)) a l).Pairwise (fun x y => f y ≤ f x) := by
  obtain ⟨htot, htrans, hlt⟩ := hn
  induction l with
  | nil => simp [sortInsert]
  | cons b l ih =>
    simp only [List.pairwise_cons] at h
    have hb : f b ∈ u := hl b (List.mem_cons_self _ _)
    have hl' : ∀ x ∈ l, f x ∈ u := fun x hx => hl x (List.mem_cons_of_mem _ hx)
    simp only [sortInsert]
    split
    · rename_i hc
      simp only [gt_iff_lt, decide_eq_true_eq] at hc
      have hab : f a ≤ f b := by
        rcases htot (f a) ha (f b) hb with h1 | h1
        · exact h1
        · exact absurd h1 ((hlt (f a) ha (f b) hb).mp hc)
      refine List.pairwise_cons.mpr ⟨?_, ih hl' h.2⟩
      intro x hx
      rcases List.mem_cons.mp ((sortInsert_perm _ a l).subset hx) with rfl | hx
      · exact hab
      · exact h.1 x hx
    · rename_i hc
      simp only [gt_iff_lt, decide_eq_true_eq] at hc
      have hba : f b ≤ f a := by
        by_contra hcon
        exact hc ((hlt (f a) ha (f b) hb).mpr hcon)
      refine List.pairwise_cons.mpr ⟨?_, List.pairwise_cons.mpr h⟩
      intro x hx
      rcases List.mem_cons.mp hx with rfl | hx
      · exact hba
      · exact htrans (f x) (hl' x hx) (f b) hb (f a) ha (h.1 x hx) hba

/-- Sorting by descending score puts scores that compare as numbers do in
non-increasing order. -/
theorem stdSort_sorted_of {α : Type} [LT S] [LE S] [DecidableRel (fun a b : S => a < b)]
    (f : α → S) (l : List α) (hn : NoNaN (l.map f)) :
    (stdSort (fun x y => decide (f x > f y)) l).Pairwise (fun x y => f y ≤ f x) := by
  suffices H : ∀ l' : List α, (∀ x ∈ l', f x ∈ l.map f) →
      (stdSort (fun x y => decide (f x > f y)) l').Pairwise (fun x y => f y ≤ f x) from
    H l (fun x hx => List.mem_map_of_mem f hx)
  intro l'
  induction l' with
  | nil => intro _; simp [stdSort]
  | cons a l' ih =>
    intro hsub
    exact sortInsert_sorted_of f _ hn a _ (hsub a (List.mem_cons_self _ _))
      (fun x hx => hsub x (List.mem_cons_of_mem _ ((stdSort_perm _ _).subset hx)))
      (ih (fun x hx => hsub x (List.mem_cons_of_mem _ hx)))

/-- The scores of the sorted results of a score map without NaN are in
non-increasing order. -/
theorem sorted_results [LT S] [LE S] [DecidableRel (fun a b : S => a < b)]
    (lib : ThirdParty) (ih : IndexHandler S) (m : List (Str × S))
    (hn : NoNaN (m.map Prod.snd)) :
    (stdSort (fun a b : QueryResult S => decide (a.score > b.score))
      (m.map (makeResult lib ih))).Pairwise (fun a b => b.score ≤ a.score) := by
  apply stdSort_sorted_of (fun r : QueryResult S => r.score)
  rw [List.map_map]
  exact hn

/-- C9 (as the code behaves): on the score map with the scores 5, 2, NaN and 3,
`rankResults` returns the scores in the order 5, 2, NaN, 3, which is not
non-increasing: the comparator `a.score > b.score` is false whenever NaN takes part,
so the sort moves nothing past the NaN. -/
theorem C9_nan_score_breaks_the_order :
    (rankResults exampleLib IndexHandler.empty nanScores 15).map (fun r => r.score) =
      [Double.num 5, Double.num 2, Double.nan, Double.num 3] ∧
    ¬ (rankResults exampleLib IndexHandler.empty nanScores 15).Pairwise
      (fun a b => b.score ≤ a.score) := by
  decide!

/-- C9, amended: for every score map none of whose scores is NaN (the scores compare
as numbers do) and every limit, the list returned by `rankResults` is in
non-increasing order of score: every result has a score at least that of every result
after it. -/
theorem C9_rankResults_sorted_descending [LT S] [LE S]
    [DecidableRel (fun a b : S => a < b)] (lib : ThirdParty) (ih : IndexHandler S)
    (m : List (Str × S)) (limit : Nat) (hn : NoNaN (m.map Prod.snd)) :
    (rankResults lib ih m limit).Pairwise (fun a b => b.score ≤ a.score) := by
  rw [rankResults_eq_take]
  exact (sorted_results lib ih m hn).sublist (List.take_sublist _ _)

/-- C9, amended, on a score map with the scores 2, 5 and 3. -/
theorem C9_rankResults_sorted_descending_witness :
    NoNaN (plainScores.map Prod.snd) ∧
    (rankResults exampleLib IndexHandler.empty plainScores 15).map (fun r => r.score) =
      [Double.num 5, Double.num 3, Double.num 2] ∧
    (rankResults exampleLib IndexHandler.empty plainScores 15).Pairwise
      (fun a b => b.score ≤ a.score) :=
  ⟨(noNaN_iff _).mpr (by decide), by decide!,
    C9_rankResults_sorted_descending exampleLib IndexHandler.empty plainScores 15
      ((noNaN_iff _).mpr (by decide))⟩

/-- C10 (as the code behaves): on the score map with the scores 5, 2, NaN and 3 and
the limit 2, `rankResults` returns the documents with the scores 5 and 2 and leaves
out document "d", whose score 3 is greater than the returned score 2. -/
theorem C10_nan_score_displaces_higher_score :
    (rankResults exampleLib IndexHandler.empty nanScores 2).map
      (fun r => (r.docID, r.score)) = [(str "a", Double.num 5), (str "b", Double.num 2)] ∧
    (str "d", Double.num 3) ∈ nanScores ∧
    ¬ (Double.num 3 ≤ Double.num 2) := by
  decide!

/-- C10, amended: `rankResults(m, L)` returns exactly `min(L, |m|)` results, each a
document of `m` with its score from `m`; when no score of `m` is NaN, every document
of `m` left out has a score no greater than every returned score; and `processQuery`
returns at most 15 results. -/
theorem C10_rankResults_top_limit [LT S] [LE S] [DecidableRel (fun a b : S => a < b)]
    [Add S] [Mul S] [OfScientific S] (lib : ThirdParty) (ih : IndexHandler S)
    (m : List (Str × S)) (limit : Nat) (query : Str) :
    (rankResults lib ih m limit).length = min limit m.length ∧
    (∀ r ∈ rankResults lib ih m limit, (r.docID, r.score) ∈ m) ∧
    (NoNaN (m.map Prod.snd) →
      ∀ e ∈ m, e.1 ∉ (rankResults lib ih m limit).map (fun r => r.docID) →
        ∀ r ∈ rankResults lib ih m limit, e.2 ≤ r.score) ∧
    (processQuery lib ih query).length ≤ 15 := by
  have hperm := stdSort_perm (fun a b : QueryResult S => decide (a.score > b.score))
    (m.map (makeResult lib ih))
  have hlen : ∀ (m' : List (Str × S)) (L : Nat),
      (rankResults lib ih m' L).length = min L m'.length := by
    intro m' L
    rw [rankResults_eq_take, List.length_take,
      (stdSort_perm (fun a b : QueryResult S => decide (a.score > b.score))
        (m'.map (makeResult lib ih))).length_eq, List.length_map]
  refine ⟨hlen m limit, ?_, ?_, ?_⟩
  · intro r hr
    rw [rankResults_eq_take] at hr
    have hr' := hperm.subset (List.mem_of_mem_take hr)
    obtain ⟨e, he, rfl⟩ := List.mem_map.mp hr'
    exact he
  · intro hn e he hout r hr
    rw [rankResults_eq_take] at hout hr
    have hmem : makeResult lib ih e ∈
        stdSort (fun a b : QueryResult S => decide (a.score > b.score))
          (m.map (makeResult lib ih)) :=
      hperm.symm.subset (List.mem_map_of_mem _ he)
    rw [← List.take_append_drop limit (stdSort _ _)] at hmem
    rcases List.mem_append.mp hmem with h1 | h2
    · exact absurd (List.mem_map_of_mem (fun r => r.docID) h1) hout
    · have hs := sorted_results lib ih m hn
      rw [← List.take_append_drop limit (stdSort _ _)] at hs
      exact (List.pairwise_append.mp hs).2.2 r hr _ h2
  · simp only [processQuery]
    rw [hlen]
    exact min_le_left _ _

/-- C10, amended, on a score map with the scores 2, 5 and 3 and the limit 2: the
scores 5 and 3 are returned and the score 2, left out, is no greater. -/
theorem C10_rankResults_top_limit_witness :
    NoNaN (plainScores.map Prod.snd) ∧
    (rankResults exampleLib IndexHandler.empty plainScores 2).map
      (fun r => (r.docID, r.score)) = [(str "b", Double.num 5), (str "c", Double.num 3)] ∧
    (∀ e ∈ plainScores,
      e.1 ∉ (rankResults exampleLib IndexHandler.empty plainScores 2).map (fun r => r.docID) →
        ∀ r ∈ rankResults exampleLib IndexHandler.empty plainScores 2, e.2 ≤ r.score) :=
  ⟨(noNaN_iff _).mpr (by decide), by decide!,
    (C10_rankResults_top_limit exampleLib IndexHandler.empty plainScores 2 []).2.2.1
      ((noNaN_iff _).mpr (by decide))⟩

end QueryProcessor

/-! ## Search results of an index with unique document ids -/

namespace AVLTree

variable {K D S : Type} [LinearOrder K]

theorem searchNode_mem (t : Node K D S) (key : K) {k : K} {nd : List (D × S)}
    {l r : Node K D S} {h : Int} (hs : searchNode t key = .mk k nd l r h) :
    (k, nd) ∈ traverseInOrder t := by
  induction t with
  | null => simp [searchNode] at hs
  | mk nk p tl tr th ihl ihr =>
    simp only [searchNode] at hs
    split at hs
    · cases hs
      simp [traverseInOrder]
    · split at hs
      · simp [traverseInOrder, ihl hs]
      · simp [traverseInOrder, ihr hs]

theorem search_nodup_of_unique (t : AVLTree K D S) (key : K)
    (h : ∀ p ∈ traverseInOrder t.root, (p.2.map Prod.fst).Nodup) :
    DocScores.Nodup (t.search key) := by
  simp only [search]
  split
  · exact List.nodup_nil
  · rename_i k nd l r hh hs
    exact h (k, nd) (searchNode_mem t.root key hs)

end AVLTree

namespace IndexHandler

variable {S : Type}

theorem searchWord_nodup (ih : IndexHandler S) (hu : ih.PostingsUnique) (t : Str) :
    DocScores.Nodup (ih.searchWord t) :=
  AVLTree.search_nodup_of_unique ih.wordIndex t hu.1

theorem searchOrganization_nodup (ih : IndexHandler S) (hu : ih.PostingsUnique) (t : Str) :
    DocScores.Nodup (ih.searchOrganization t) :=
  AVLTree.search_nodup_of_unique ih.organizationIndex t hu.2.1

theorem searchPerson_nodup (ih : IndexHandler S) (hu : ih.PostingsUnique) (t : Str) :
    DocScores.Nodup (ih.searchPerson t) :=
  AVLTree.search_nodup_of_unique ih.personIndex t hu.2.2

end IndexHandler

/-! ## Query evaluation -/

namespace DocScores

variable {D S : Type} [DecidableEq D]

theorem find?_erase (m : List (D × S)) (d a : D) :
    find? (erase m d) a = if a = d then none else find? m a := by
  induction m with
  | nil => simp [erase, find?]
  | cons x m ih =>
    obtain ⟨d', s'⟩ := x
    simp only [erase]
    by_cases h1 : d' = d
    · subst h1
      by_cases h2 : a = d'
      · subst h2
        simpa using ih
      · have : ¬ d' = a := fun e => h2 e.symm
        simp [ih, h2, find?, this]
    · simp only [h1, if_false, find?, ih]
      by_cases h2 : d' = a
      · subst h2
        simp [h1]
      · simp [h2]

theorem find?_of_not_mem (m : List (D × S)) (a : D) (h : a ∉ keys m) : find? m a = none :=
  (find?_eq_none_iff m a).mpr h

omit [DecidableEq D] in
theorem nodup_cons {d : D} {s : S} {m : List (D × S)} (h : Nodup ((d, s) :: m)) :
    d ∉ keys m ∧ Nodup m := by
  simpa [Nodup, keys] using h

/-- Assigning the entries of a map with unique keys one by one. -/
theorem find?_foldl_set (results acc : List (D × S)) (a : D) (h : Nodup results) :
    find? (results.foldl (fun m e => set m e.1 e.2) acc) a =
      match find? results a with
      | some s => some s
      | none => find? acc a := by
  induction results generalizing acc with
  | nil => simp [find?]
  | cons x rest ih =>
    obtain ⟨d', s'⟩ := x
    obtain ⟨hd, hn⟩ := nodup_cons h
    simp only [List.foldl_cons, ih _ hn, find?_set]
    by_cases h1 : d' = a
    · subst h1
      simp [find?, find?_of_not_mem rest d' hd]
    · have : ¬ a = d' := fun e => h1 e.symm
      simp [find?, h1, this]

end DocScores

namespace QueryProcessor

variable {S : Type}

theorem find?_seedScores (results : List (Str × S)) (d : Str)
    (h : DocScores.Nodup results) :
    DocScores.find? (seedScores results) d = DocScores.find? results d := by
  simp only [seedScores, DocScores.find?_foldl_set results [] d h]
  cases DocScores.find? results d <;> simp [DocScores.find?]

theorem find?_intersect_fold [Add S] (scores results temp : List (Str × S)) (d : Str)
    (h : DocScores.Nodup results) :
    DocScores.find? (results.foldl (fun temp e =>
        match DocScores.find? scores e.1 with
        | some v => DocScores.set temp e.1 (v + e.2)
        | none => temp) temp) d =
      match DocScores.find? scores d, DocScores.find? results d with
      | some v, some s => some (v + s)
      | _, _ => DocScores.find? temp d := by
  induction results generalizing temp with
  | nil => cases DocScores.find? scores d <;> simp [DocScores.find?]
  | cons x rest ih =>
    obtain ⟨d', s'⟩ := x
    obtain ⟨hd, hn⟩ := DocScores.nodup_cons h
    simp only [List.foldl_cons, ih _ hn]
    by_cases h1 : d' = d
    · subst h1
      cases hs : DocScores.find? scores d' with
      | none => simp [DocScores.find?]
      | some v =>
        simp [DocScores.find?, DocScores.find?_of_not_mem rest d' hd, DocScores.find?_set]
    · have h1' : ¬ d = d' := fun e => h1 e.symm
      cases hs : DocScores.find? scores d' with
      | none => simp [DocScores.find?, h1]
      | some v => simp [DocScores.find?, h1, DocScores.find?_set, h1']

theorem find?_intersectScores [Add S] (scores results : List (Str × S)) (d : Str)
    (h : DocScores.Nodup results) :
    DocScores.find? (intersectScores scores results) d =
      match DocScores.find? scores d, DocScores.find? results d with
      | some v, some s => some (v + s)
      | _, _ => none := by
  simp only [intersectScores, find?_intersect_fold scores results [] d h]
  cases DocScores.find? scores d <;> cases DocScores.find? results d <;> simp [DocScores.find?]

theorem find?_termScores [Add S] (ih : IndexHandler S) (terms : List Str) (d : Str)
    (hu : ∀ t, DocScores.Nodup (ih.searchWord t)) :
    DocScores.find? (termScores ih terms) d = andScore ih d terms := by
  cases terms with
  | nil => simp [termScores, andScore, DocScores.find?]
  | cons t rest =>
    simp only [termScores, andScore]
    rw [← find?_seedScores _ d (hu t)]
    generalize seedScores (ih.searchWord t) = scores
    induction rest generalizing scores with
    | nil => rfl
    | cons t' rest ih' =>
      simp only [List.foldl_cons]
      rw [ih' (intersectScores scores (ih.searchWord t')),
        find?_intersectScores _ _ d (hu t')]

theorem andScore_fold_isSome [Add S] (ih : IndexHandler S) (d : Str) (rest : List Str)
    (acc : Option S) :
    (rest.foldl (fun acc t' =>
      match acc, DocScores.find? (ih.searchWord t') d with
      | some a, some s => some (a + s)
      | _, _ => none) acc).isSome ↔
      acc.isSome ∧ ∀ t ∈ rest, d ∈ DocScores.keys (ih.searchWord t) := by
  induction rest generalizing acc with
  | nil => simp
  | cons t' rest ih' =>
    simp only [List.foldl_cons, ih', List.mem_cons, forall_eq_or_imp,
      ← DocScores.find?_isSome_iff]
    cases acc <;> cases DocScores.find? (ih.searchWord t') d <;> simp

theorem andScore_isSome [Add S] (ih : IndexHandler S) (d : Str) (terms : List Str)
    (hne : terms ≠ []) :
    (andScore ih d terms).isSome ↔ ∀ t ∈ terms, d ∈ DocScores.keys (ih.searchWord t) := by
  cases terms with
  | nil => exact absurd rfl hne
  | cons t rest =>
    simp only [andScore, andScore_fold_isSome, List.mem_cons, forall_eq_or_imp,
      DocScores.find?_isSome_iff]

theorem clauseScores_terms_only [Add S] [Mul S] [OfScientific S] (ih : IndexHandler S)
    (terms : List Str) : clauseScores ih (terms, [], [], []) = termScores ih terms := by
  simp [clauseScores, applyExclusions]

/-- C6: for a query made only of term tokens, the score map handed to ranking has as
keys exactly the documents listed in the word-index postings of every term, and maps
each of them to the sum (from left to right) of its scores under the terms. -/
theorem C6_and_semantics [Add S] [Mul S] [OfScientific S] (lib : ThirdParty)
    (ih : IndexHandler S) (query : Str) (terms : List Str)
    (hq : parseQuery lib query = (terms, [], [], [])) (hne : terms ≠ [])
    (hu : ih.PostingsUnique) :
    (∀ d, d ∈ DocScores.keys (queryScores lib ih query) ↔
      ∀ t ∈ terms, d ∈ DocScores.keys (ih.searchWord t)) ∧
    (∀ d, DocScores.find? (queryScores lib ih query) d = andScore ih d terms) := by
  have hf : ∀ d, DocScores.find? (queryScores lib ih query) d = andScore ih d terms := by
    intro d
    rw [queryScores, hq, clauseScores_terms_only,
      find?_termScores ih terms d (IndexHandler.searchWord_nodup ih hu)]
  refine ⟨fun d => ?_, hf⟩
  rw [← DocScores.find?_isSome_iff, hf, andScore_isSome ih d terms hne]

end QueryProcessor

namespace QueryProcessor

variable {S : Type}

theorem find?_addBoosted [Add S] [Mul S] [OfScientific S] (scores results : List (Str × S))
    (d : Str) (h : DocScores.Nodup results) :
    DocScores.find? (addBoosted scores results) d =
      boostStep d (DocScores.find? scores d) results := by
  simp only [addBoosted]
  induction results generalizing scores with
  | nil => simp [boostStep, DocScores.find?]
  | cons x rest ih' =>
    obtain ⟨d', s'⟩ := x
    obtain ⟨hd, hn⟩ := DocScores.nodup_cons h
    simp only [List.foldl_cons, ih' _ hn]
    by_cases h1 : d' = d
    · subst h1
      cases hs : DocScores.find? scores d' <;>
        simp [boostStep, DocScores.find?, DocScores.find?_of_not_mem rest d' hd,
          DocScores.find?_set]
    · have h1' : ¬ d = d' := fun e => h1 e.symm
      cases hs : DocScores.find? scores d' <;>
        simp [boostStep, DocScores.find?, h1, h1', DocScores.find?_set]

theorem find?_addBoosted_fold [Add S] [Mul S] [OfScientific S]
    (search : Str → List (Str × S)) (hn : ∀ c, DocScores.Nodup (search c))
    (clauses : List Str) (scores : List (Str × S)) (d : Str) :
    DocScores.find? (clauses.foldl (fun m c => addBoosted m (search c)) scores) d =
      clauses.foldl (fun acc c => boostStep d acc (search c)) (DocScores.find? scores d) := by
  induction clauses generalizing scores with
  | nil => rfl
  | cons c rest ih' => simp only [List.foldl_cons, ih', find?_addBoosted _ _ d (hn c)]

theorem boostStep_isSome [Add S] [Mul S] [OfScientific S] (d : Str) (acc : Option S)
    (results : List (Str × S)) (h : acc.isSome ∨ d ∈ DocScores.keys results) :
    (boostStep d acc results).isSome := by
  rw [← DocScores.find?_isSome_iff] at h
  simp only [boostStep]
  cases hf : DocScores.find? results d <;> cases acc <;> simp_all

theorem boostStep_fold_isSome [Add S] [Mul S] [OfScientific S]
    (search : Str → List (Str × S)) (d : Str) (clauses : List Str) (acc : Option S)
    (h : acc.isSome ∨ ∃ c ∈ clauses, d ∈ DocScores.keys (search c)) :
    (clauses.foldl (fun acc c => boostStep d acc (search c)) acc).isSome := by
  induction clauses generalizing acc with
  | nil => simpa using h
  | cons c rest ih' =>
    simp only [List.foldl_cons]
    apply ih'
    rcases h with h | ⟨c', hc', hd⟩
    · exact Or.inl (boostStep_isSome d acc _ (Or.inl h))
    · rcases List.mem_cons.mp hc' with rfl | hc'
      · exact Or.inl (boostStep_isSome d acc _ (Or.inr hd))
      · exact Or.inr ⟨c', hc', hd⟩

theorem find?_erase_fold (results res : List (Str × S)) (a : Str) :
    DocScores.find? (results.foldl (fun r e => DocScores.erase r e.1) res) a =
      if a ∈ DocScores.keys results then none else DocScores.find? res a := by
  induction results generalizing res with
  | nil => simp [DocScores.keys]
  | cons x rest ih' =>
    obtain ⟨d', s'⟩ := x
    simp only [List.foldl_cons, ih', DocScores.find?_erase, DocScores.keys, List.map_cons,
      List.mem_cons]
    by_cases h1 : a = d' <;> by_cases h2 : a ∈ List.map Prod.fst rest <;> simp [h1, h2]

theorem find?_applyExclusions_none (ih : IndexHandler S) (res : List (Str × S))
    (exclusions : List Str) (a : Str)
    (h : DocScores.find? res a = none ∨
      ∃ x ∈ exclusions, a ∈ DocScores.keys (ih.searchWord x)) :
    DocScores.find? (applyExclusions ih res exclusions) a = none := by
  simp only [applyExclusions]
  induction exclusions generalizing res with
  | nil => simpa using h
  | cons x rest ih' =>
    simp only [List.foldl_cons]
    apply ih'
    rw [find?_erase_fold]
    by_cases hm : a ∈ DocScores.keys (ih.searchWord x)
    · exact Or.inl (if_pos hm)
    · rw [if_neg hm]
      rcases h with h | ⟨x', hx', hd⟩
      · exact Or.inl h
      · rcases List.mem_cons.mp hx' with rfl | hx'
        · exact absurd hd hm
        · exact Or.inr ⟨x', hx', hd⟩

theorem find?_applyExclusions_keep (ih : IndexHandler S) (res : List (Str × S))
    (exclusions : List Str) (a : Str)
    (h : ∀ x ∈ exclusions, a ∉ DocScores.keys (ih.searchWord x)) :
    DocScores.find? (applyExclusions ih res exclusions) a = DocScores.find? res a := by
  simp only [applyExclusions]
  induction exclusions generalizing res with
  | nil => rfl
  | cons x rest ih' =>
    simp only [List.foldl_cons]
    rw [ih' _ (fun y hy => h y (List.mem_cons_of_mem _ hy)), find?_erase_fold,
      if_neg (h x (List.mem_cons_self _ _))]

theorem rankResults_mem [LT S] [DecidableRel (fun a b : S => a < b)] (lib : ThirdParty) (ih : IndexHandler S)
    (m : List (Str × S)) (limit : Nat) (r : QueryResult S)
    (hr : r ∈ rankResults lib ih m limit) : (r.docID, r.score) ∈ m := by
  rw [rankResults_eq_take] at hr
  have hr' := (stdSort_perm _ _).subset (List.mem_of_mem_take hr)
  obtain ⟨e, he, rfl⟩ := List.mem_map.mp hr'
  exact he

/-- C7: a document listed by an organization or person clause and by no exclusion
clause is in the final score map, whatever the term clauses match; and the final
score of a document that no exclusion clause lists is its score after the term
clauses, to which every organization clause and then every person clause listing it
contributes 1.5 times its posting score (added to the running score if there is one,
a new entry otherwise). -/
theorem C7_entity_clauses_boost [Add S] [Mul S] [OfScientific S] (lib : ThirdParty)
    (ih : IndexHandler S) (query : Str) (terms orgs persons exclusions : List Str)
    (hq : parseQuery lib query = (terms, orgs, persons, exclusions))
    (hu : ih.PostingsUnique) (d : Str)
    (hex : ∀ x ∈ exclusions, d ∉ DocScores.keys (ih.searchWord x)) :
    (((∃ o ∈ orgs, d ∈ DocScores.keys (ih.searchOrganization o)) ∨
        (∃ p ∈ persons, d ∈ DocScores.keys (ih.searchPerson p))) →
      d ∈ DocScores.keys (queryScores lib ih query)) ∧
    DocScores.find? (queryScores lib ih query) d =
      persons.foldl (fun acc p => boostStep d acc (ih.searchPerson p))
        (orgs.foldl (fun acc o => boostStep d acc (ih.searchOrganization o))
          (DocScores.find? (termScores ih terms) d)) := by
  have hf : DocScores.find? (queryScores lib ih query) d =
      persons.foldl (fun acc p => boostStep d acc (ih.searchPerson p))
        (orgs.foldl (fun acc o => boostStep d acc (ih.searchOrganization o))
          (DocScores.find? (termScores ih terms) d)) := by
    rw [queryScores, hq]
    simp only [clauseScores]
    rw [find?_applyExclusions_keep ih _ exclusions d hex,
      find?_addBoosted_fold ih.searchPerson (IndexHandler.searchPerson_nodup ih hu),
      find?_addBoosted_fold ih.searchOrganization (IndexHandler.searchOrganization_nodup ih hu)]
  refine ⟨fun h => ?_, hf⟩
  rw [← DocScores.find?_isSome_iff, hf]
  apply boostStep_fold_isSome
  rcases h with h | h
  · exact Or.inl (boostStep_fold_isSome _ d orgs _ (Or.inr h))
  · exact Or.inr h

/-- C8: no document returned by `processQuery` is listed in the word-index postings
of an exclusion clause of the query, however the document was matched. -/
theorem C8_exclusions_override [LT S] [DecidableRel (fun a b : S => a < b)] [Add S] [Mul S] [OfScientific S]
    (lib : ThirdParty) (ih : IndexHandler S) (query : Str)
    (terms orgs persons exclusions : List Str)
    (hq : parseQuery lib query = (terms, orgs, persons, exclusions))
    (r : QueryResult S) (hr : r ∈ processQuery lib ih query)
    (x : Str) (hx : x ∈ exclusions) :
    r.docID ∉ DocScores.keys (ih.searchWord x) := by
  intro hd
  have hm := rankResults_mem lib ih _ 15 r hr
  have hk : r.docID ∈ DocScores.keys (queryScores lib ih query) :=
    List.mem_map_of_mem Prod.fst hm
  rw [← DocScores.find?_isSome_iff, queryScores, hq] at hk
  simp only [clauseScores] at hk
  rw [find?_applyExclusions_none ih _ exclusions r.docID (Or.inr ⟨x, hx, hd⟩)] at hk
  simp at hk

end QueryProcessor

/-! ## The claims on the example catalogs -/

namespace QueryProcessor

/-- The example of C6: term `a` in documents 1, 2, 3 and term `b` in documents 2, 3, 4;
the query "A B" yields exactly the documents 2 and 3. -/
theorem C6_and_semantics_witness :
    parseQuery exampleLib (str "A B") = ([str "a", str "b"], [], [], []) ∧
    DocScores.keys (queryScores exampleLib andCatalog (str "A B")) = [str "2", str "3"] ∧
    ((∀ d, d ∈ DocScores.keys (queryScores exampleLib andCatalog (str "A B")) ↔
        ∀ t ∈ [str "a", str "b"], d ∈ DocScores.keys (andCatalog.searchWord t)) ∧
      (∀ d, DocScores.find? (queryScores exampleLib andCatalog (str "A B")) d =
        andScore andCatalog d [str "a", str "b"])) :=
  ⟨by decide, by decide!,
    C6_and_semantics exampleLib andCatalog (str "A B") [str "a", str "b"] (by decide)
      (by decide) (by unfold IndexHandler.PostingsUnique; decide)⟩

/-- C7 on `entityCatalog`: document d3 is listed by no term, enters through the
organization clause alone and gets the score 1.5. -/
theorem C7_entity_clauses_boost_witness :
    parseQuery exampleLib (str "stock ORG:Google PERSON:Tim -bad") =
      ([str "stock"], [str "Google"], [str "Tim"], [str "bad"]) ∧
    DocScores.find? (termScores entityCatalog [str "stock"]) (str "d3") = none ∧
    DocScores.find? (queryScores exampleLib entityCatalog
      (str "stock ORG:Google PERSON:Tim -bad")) (str "d3") = some 1.5 ∧
    ((((∃ o ∈ [str "Google"], str "d3" ∈ DocScores.keys (entityCatalog.searchOrganization o)) ∨
        (∃ p ∈ [str "Tim"], str "d3" ∈ DocScores.keys (entityCatalog.searchPerson p))) →
      str "d3" ∈ DocScores.keys (queryScores exampleLib entityCatalog
        (str "stock ORG:Google PERSON:Tim -bad"))) ∧
    DocScores.find? (queryScores exampleLib entityCatalog
        (str "stock ORG:Google PERSON:Tim -bad")) (str "d3") =
      [str "Tim"].foldl (fun acc p => boostStep (str "d3") acc (entityCatalog.searchPerson p))
        ([str "Google"].foldl
          (fun acc o => boostStep (str "d3") acc (entityCatalog.searchOrganization o))
          (DocScores.find? (termScores entityCatalog [str "stock"]) (str "d3")))) :=
  ⟨by decide, by decide, by decide!,
    C7_entity_clauses_boost exampleLib entityCatalog (str "stock ORG:Google PERSON:Tim -bad")
      [str "stock"] [str "Google"] [str "Tim"] [str "bad"] (by decide)
      (by unfold IndexHandler.PostingsUnique; decide) (str "d3") (by decide)⟩

/-- C8 on `entityCatalog`: d2 matches the term and the person clause but is listed
under the excluded term, so only d1 and d3 are returned. -/
theorem C8_exclusions_override_witness :
    (⟨str "d1", 2, [], [], []⟩ : QueryResult ℚ) ∈
      processQuery exampleLib entityCatalog (str "stock ORG:Google PERSON:Tim -bad") ∧
    str "d2" ∈ DocScores.keys (entityCatalog.searchPerson (str "Tim")) ∧
    str "d2" ∈ DocScores.keys (entityCatalog.searchWord (str "bad")) ∧
    (processQuery exampleLib entityCatalog (str "stock ORG:Google PERSON:Tim -bad")).map
      (fun r => r.docID) = [str "d1", str "d3"] ∧
    str "d1" ∉ DocScores.keys (entityCatalog.searchWord (str "bad")) :=
  ⟨by decide!, by decide, by decide, by decide!,
    C8_exclusions_override exampleLib entityCatalog (str "stock ORG:Google PERSON:Tim -bad")
      [str "stock"] [str "Google"] [str "Tim"] [str "bad"] (by decide)
      ⟨str "d1", 2, [], [], []⟩ (by decide!) (str "bad") (by decide)⟩

end QueryProcessor

/-! ## Further claims on the tree -/

namespace AVLTree

variable {K D S : Type} [LinearOrder K] [DecidableEq D]

/-- The keys of an index after a sequence of inserts are keys it had or keys of
the inserts. -/
theorem insertAll_keys (ops : List (K × D × S)) (t t' : AVLTree K D S) (h : WF t.root)
    (hb : t.insertAll ops = some t') (k : K) (hk : k ∈ keys t'.root) :
    k ∈ keys t.root ∨ k ∈ ops.map (fun o => o.1) := by
  induction ops generalizing t with
  | nil =>
    simp only [insertAll, Option.some.injEq] at hb
    subst hb
    exact Or.inl hk
  | cons op ops ih =>
    obtain ⟨k1, d1, s1⟩ := op
    obtain ⟨t1, e1, h1, ht1⟩ := insert_wf t k1 d1 s1 h
    simp only [insertAll, e1, Option.some_bind] at hb
    rcases ih t1 h1 hb with hk1 | hk1
    · simp only [keys, ht1] at hk1
      rcases (mem_keys_insList k1 d1 s1 _ k).mp hk1 with rfl | hk1
      · exact Or.inr (by simp)
      · exact Or.inl hk1
    · exact Or.inr (by simp [hk1])

/-- The public `search` of a key that the index does not hold returns nothing. -/
theorem search_absent (t : AVLTree K D S) (k : K) (h : WF t.root) (hk : k ∉ keys t.root) :
    t.search k = [] := by
  have := search_eq_postingsOf t.root k h.2.1
  rw [show (⟨t.root⟩ : AVLTree K D S) = t from rfl] at this
  rw [this]
  exact postingsOf_of_not_mem k _ hk

/-- C11 (as the code behaves): on the insert sequence of the repository's test,
`search "common"` returns two entries, for doc2 and doc3, where the test asserts
three entries including doc1: the insert that creates the node stores no posting. -/
theorem C11_test_search_common_has_two_entries :
    ((AVLTree.empty : AVLTree Str Str ℚ).insertAll testOps).map
      (fun t => t.search (str "common")) =
      some [(str "doc2", 2.0), (str "doc3", 3.0)] := by
  decide!

/-- C12: on an index built by any sequence of inserts, `search` of a key that no
insert used returns the empty sequence (and `search` is a total function: it has no
failure case). -/
theorem C12_search_never_inserted_key (ops : List (K × D × S)) (k : K)
    (hk : k ∉ ops.map (fun o => o.1)) :
    ∃ t, (AVLTree.empty : AVLTree K D S).insertAll ops = some t ∧ t.search k = [] := by
  obtain ⟨t, e, hw⟩ := insertAll_wf ops (AVLTree.empty : AVLTree K D S) wf_null
  refine ⟨t, e, search_absent t k hw ?_⟩
  intro hm
  rcases insertAll_keys ops AVLTree.empty t wf_null e k hm with h | h
  · simp [keys, traverseInOrder, AVLTree.empty] at h
  · exact hk h

/-- C12 on the inserts of the repository's test and the key "nonexistent". -/
theorem C12_search_never_inserted_key_witness :
    str "nonexistent" ∉ testOps.map (fun o => o.1) ∧
    ∃ t, (AVLTree.empty : AVLTree Str Str ℚ).insertAll testOps = some t ∧
      t.search (str "nonexistent") = [] :=
  ⟨by decide, C12_search_never_inserted_key testOps (str "nonexistent") (by decide)⟩

omit [LinearOrder K] [DecidableEq D] in
theorem AVLInv.heightsTrue {t : Node K D S} (h : AVLInv t) : HeightsTrue t := by
  induction t with
  | null => trivial
  | mk k p l r hh ihl ihr =>
    obtain ⟨hl, hr, he, h1, h2⟩ := h
    refine ⟨ihl hl, ihr hr, ?_⟩
    have := height_eq_realHeight hl
    have := height_eq_realHeight hr
    omega

/-- C19: after any finite sequence of insert calls from the empty index, every
cached height field equals `1 + max(height(left), height(right))` (0 for a missing
child) and equals the true height of the subtree of its node. -/
theorem C19_cached_heights_correct (ops : List (K × D × S)) :
    ∃ t, (AVLTree.empty : AVLTree K D S).insertAll ops = some t ∧
      HeightsOk t.root ∧ HeightsTrue t.root := by
  obtain ⟨t, e, hw⟩ := insertAll_wf ops (AVLTree.empty : AVLTree K D S) wf_null
  exact ⟨t, e, hw.1.heightsOk, hw.1.heightsTrue⟩

end AVLTree

/-! ## The end-to-end scenario -/

namespace QueryProcessor

/-- C14 (as the code behaves): in the scenario catalog the query "stock" returns d2
alone, with score 0.3; d1 is not returned, because the `addTerm` call that created
the node of "stock" stored no posting for d1. -/
theorem C14_scenario_query_stock_returns_d2_only :
    scenarioCatalog.map (fun ih =>
      (processQuery exampleLib ih (str "stock")).map (fun r => (r.docID, r.score))) =
      some [(str "d2", 0.3)] := by
  decide!

/-- C15 (as the code behaves): in the scenario catalog the query "ORG:Google" returns
no result; the node of "Google" exists but holds no posting for d1. -/
theorem C15_scenario_query_org_returns_nothing :
    scenarioCatalog.map (fun ih =>
      ((processQuery exampleLib ih (str "ORG:Google")).map (fun r => (r.docID, r.score)),
        ih.searchOrganization (str "Google"))) = some ([], []) := by
  decide!

end QueryProcessor

/-! ## The normalization pass -/

namespace DocumentParser

variable {S : Type}

/-- C13 (as the code behaves): `calculateTFIDF` leaves the index handler as it was;
every `searchWord` result, with its raw frequencies, is the same after the pass. -/
theorem C13_calculateTFIDF_changes_nothing [Add S] [Mul S] [Div S] [OfScientific S]
    (log10 : S → S) (toDouble : Nat → S) (ih : IndexHandler S) (term : Str) :
    calculateTFIDF log10 toDouble ih = ih ∧
    (calculateTFIDF log10 toDouble ih).searchWord term = ih.searchWord term :=
  ⟨rfl, rfl⟩

end DocumentParser

/-! ## Insertion under a key that is present -/

namespace AVLTree

variable {K D S : Type}

theorem height_shape (t : Node K D S) : height (shape t) = height t := by
  cases t <;> rfl

variable [LinearOrder K] [DecidableEq D]

/-- On a search tree with correct balance, the private `insert` of a key that is
present returns a tree of the same shape, keys and height fields. -/
theorem insertNode_present_shape (t : Node K D S) (k : K) (d : D) (s : S) (hi : AVLInv t)
    (hs : (keys t).Pairwise (· < ·)) (hk : k ∈ keys t) :
    ∃ t', insertNode t k d s = some t' ∧ shape t' = shape t := by
  induction t with
  | null => simp [keys, traverseInOrder] at hk
  | mk nk nd l r hh ihl ihr =>
    obtain ⟨hl, hr, he, hb1, hb2⟩ := hi
    simp only [keys, traverseInOrder, List.map_append, List.map_cons,
      List.pairwise_append, List.pairwise_cons, List.mem_cons, List.mem_append] at hs hk
    obtain ⟨hsl, ⟨hnr, hsr⟩, hlr⟩ := hs
    by_cases hlt : k < nk
    · have hkl : k ∈ keys l := by
        rcases hk with hk | hk | hk
        · exact hk
        · exact absurd hk (ne_of_lt hlt)
        · exact absurd (hnr k hk) (lt_asymm hlt)
      obtain ⟨l', el, hsh⟩ := ihl hl hsl hkl
      obtain ⟨l'', el', hl', _⟩ := insertNode_inv l k d s hl
      rw [el] at el'
      cases el'
      have hh' : height l' = height l := by
        rw [← height_shape l', hsh, height_shape]
      obtain ⟨t, et, _, hc⟩ := rebalance_left k nk nd hh hl' hr (by omega) (by omega)
        (fun h2 => by omega)
      refine ⟨t, by simp [insertNode, hlt, el, et], ?_⟩
      rcases hc with ⟨_, rfl⟩ | ⟨hc, _⟩
      · simp only [shape, hsh, hh', he]
      · omega
    · by_cases hgt : nk < k
      · have hkr : k ∈ keys r := by
          rcases hk with hk | hk | hk
          · exact absurd (hlr k hk nk (Or.inl rfl)) (lt_asymm hgt)
          · exact absurd hk.symm (ne_of_lt hgt)
          · exact hk
        obtain ⟨r', er, hsh⟩ := ihr hr hsr hkr
        obtain ⟨r'', er', hr', _⟩ := insertNode_inv r k d s hr
        rw [er] at er'
        cases er'
        have hh' : height r' = height r := by
          rw [← height_shape r', hsh, height_shape]
        obtain ⟨t, et, _, hc⟩ := rebalance_right k nk nd hh hl hr' (by omega) (by omega)
          (fun h2 => by omega)
        refine ⟨t, by simp [insertNode, hlt, hgt, er, et], ?_⟩
        rcases hc with ⟨_, rfl⟩ | ⟨hc, _⟩
        · simp only [shape, hsh, hh', he]
        · omega
      · exact ⟨.mk nk (DocScores.set nd d s) l r hh, by simp [insertNode, hlt, hgt], rfl⟩

/-- On a sorted in-order sequence that lists `key`, `insList` changes the postings of
`key` and nothing else. -/
theorem insList_present (key : K) (d : D) (s : S) (xs : List (K × List (D × S)))
    (h : (xs.map Prod.fst).Pairwise (· < ·)) (hk : key ∈ xs.map Prod.fst) :
    insList key d s xs =
      xs.map (fun p => if p.1 = key then (p.1, DocScores.set p.2 d s) else p) := by
  induction xs with
  | nil => simp at hk
  | cons x xs ih =>
    obtain ⟨k, p⟩ := x
    simp only [List.map_cons, List.pairwise_cons, List.mem_cons] at h hk
    simp only [insList, List.map_cons]
    by_cases h1 : key < k
    · exfalso
      rcases hk with hk | hk
      · exact ne_of_lt h1 hk
      · exact lt_asymm h1 (h.1 key hk)
    · by_cases h2 : k < key
      · have hne : ¬ k = key := ne_of_lt h2
        rcases hk with hk | hk
        · exact absurd hk.symm hne
        · simp only [h1, h2, if_true, if_false, hne, ih h.2 hk]
      · have hkk : k = key := le_antisymm (not_lt.mp h1) (not_lt.mp h2)
        subst hkk
        simp only [lt_irrefl, if_false, if_true, List.cons.injEq, true_and]
        have hm : xs.map (fun p => if p.1 = k then (p.1, DocScores.set p.2 d s) else p) =
            xs.map id := by
          apply List.map_congr_left
          intro q hq
          have hq' : k < q.1 := h.1 q.1 (List.mem_map_of_mem _ hq)
          simp [ne_of_gt hq']
        rw [hm, List.map_id]

/-- C18: on an index built by inserts, `insert(k, d, s)` for a key `k` that is present
succeeds and changes no structure: the shape, every key and every height field are
the same before and after, the postings of every other node are the same, and the
postings of `k` are the old ones with the entry of `d` set to `s`. -/
theorem C18_insert_present_no_structural_change (ops : List (K × D × S))
    (t : AVLTree K D S) (k : K) (d : D) (s : S)
    (hb : (AVLTree.empty : AVLTree K D S).insertAll ops = some t) (hk : k ∈ keys t.root) :
    ∃ t', t.insert k d s = some t' ∧ shape t'.root = shape t.root ∧
      traverseInOrder t'.root = (traverseInOrder t.root).map
        (fun p => if p.1 = k then (p.1, DocScores.set p.2 d s) else p) ∧
      t'.search k = DocScores.set (t.search k) d s := by
  obtain ⟨t0, e0, hw⟩ := insertAll_wf ops (AVLTree.empty : AVLTree K D S) wf_null
  rw [hb] at e0
  cases e0
  obtain ⟨t', e, hw', ht⟩ := insert_wf t k d s hw
  obtain ⟨r', er, hsh⟩ := insertNode_present_shape t.root k d s hw.1 hw.2.1 hk
  obtain ⟨t2, e2, hs2⟩ := search_insert_present t k d s hw hk
  rw [e] at e2
  cases e2
  have hr : t'.root = r' := by
    simp only [insert, er, Option.map_some', Option.some.injEq] at e
    rw [← e]
  refine ⟨t', e, by rw [hr, hsh], ?_, hs2⟩
  rw [ht]
  exact insList_present k d s _ hw.2.1 hk

/-- C18 on the index built by `exampleOps`, for the present key "a". -/
theorem C18_insert_present_no_structural_change_witness :
    (AVLTree.empty : AVLTree Str Str (Fin (2 ^ 64))).insertAll exampleOps = some exampleIndex ∧
    str "a" ∈ keys exampleIndex.root ∧
    ∃ t', exampleIndex.insert (str "a") (str "d2") 9 = some t' ∧
      shape t'.root = shape exampleIndex.root ∧
      traverseInOrder t'.root = (traverseInOrder exampleIndex.root).map
        (fun p => if p.1 = str "a" then (p.1, DocScores.set p.2 (str "d2") 9) else p) ∧
      t'.search (str "a") = DocScores.set (exampleIndex.search (str "a")) (str "d2") 9 :=
  ⟨by decide, by decide,
    C18_insert_present_no_structural_change exampleOps exampleIndex (str "a") (str "d2") 9
      (by decide) (by decide)⟩

end AVLTree

/-! ## Parsing of queries -/

namespace QueryProcessor

theorem str_org : str "ORG:" = [79, 82, 71, 58] := by decide

theorem str_person : str "PERSON:" = [80, 69, 82, 83, 79, 78, 58] := by decide

theorem hasPrefix_org (token : Str) :
    hasPrefix (str "ORG:") token = true ↔ token.length ≥ 5 ∧ token.take 4 = str "ORG:" := by
  simp [hasPrefix, str_org]

theorem hasPrefix_person (token : Str) :
    hasPrefix (str "PERSON:") token = true ↔
      token.length ≥ 8 ∧ token.take 7 = str "PERSON:" := by
  simp [hasPrefix, str_person]

/-- A token that begins with `PERSON:` does not begin with `ORG:`. -/
theorem not_org_of_person (token : Str) (h : token.take 7 = str "PERSON:") :
    ¬ token.take 4 = str "ORG:" := by
  intro h4
  have h1 : (token.take 7).take 4 = token.take 4 := by
    rw [List.take_take]
    rfl
  rw [h, h4] at h1
  revert h1
  decide

theorem classify_orgs (lib : ThirdParty) (c : Clauses) (token : Str) :
    (classify lib c token).2.1 =
      c.2.1 ++ (if hasPrefix (str "ORG:") token = true then [token.drop 4] else []) := by
  obtain ⟨terms, orgs, persons, exclusions⟩ := c
  simp only [classify, hasPrefix_org]
  split
  · simp
  · split
    · simp
    · split <;> simp

theorem classify_persons (lib : ThirdParty) (c : Clauses) (token : Str) :
    (classify lib c token).2.2.1 =
      c.2.2.1 ++ (if hasPrefix (str "PERSON:") token = true then [token.drop 7] else []) := by
  obtain ⟨terms, orgs, persons, exclusions⟩ := c
  simp only [classify, hasPrefix_person]
  split
  · rename_i ho
    have : ¬ (token.length ≥ 8 ∧ token.take 7 = str "PERSON:") :=
      fun hp => not_org_of_person token hp.2 ho.2
    simp [this]
  · split
    · rename_i hp
      simp [hp]
    · rename_i hp
      split <;> simp [hp]

theorem foldl_classify_orgs (lib : ThirdParty) (ts : List Str) (c : Clauses) :
    (ts.foldl (classify lib) c).2.1 =
      c.2.1 ++ (ts.filter (hasPrefix (str "ORG:"))).map (List.drop 4) := by
  induction ts generalizing c with
  | nil => simp
  | cons t ts ih =>
    simp only [List.foldl_cons, ih, classify_orgs, List.filter_cons]
    split <;> simp

theorem foldl_classify_persons (lib : ThirdParty) (ts : List Str) (c : Clauses) :
    (ts.foldl (classify lib) c).2.2.1 =
      c.2.2.1 ++ (ts.filter (hasPrefix (str "PERSON:"))).map (List.drop 7) := by
  induction ts generalizing c with
  | nil => simp
  | cons t ts ih =>
    simp only [List.foldl_cons, ih, classify_persons, List.filter_cons]
    split <;> simp

/-- C20 (as the code behaves): the tokens `ORG:` and `PERSON:`, which consist of the
prefix alone, are not classified as organization and person clauses; they become the
term clauses `org:` and `person:`. -/
theorem C20_prefix_alone_is_a_term_clause :
    parseQuery exampleLib (str "ORG: PERSON:") =
      ([str "org:", str "person:"], [], [], []) := by
  decide

/-- C20, amended: the organization clauses of a query are its tokens that begin with
`ORG:` and go on after it, each with the prefix removed and otherwise unchanged; the
person clauses are the tokens that begin with `PERSON:` and go on after it, with
the prefix removed; a token that is the prefix alone is a term clause, lower-cased
and stemmed. -/
theorem C20_prefixed_tokens_with_text (lib : ThirdParty) (query : Str) (c : Clauses) :
    (parseQuery lib query).2.1 =
      ((tokens query).filter (hasPrefix (str "ORG:"))).map (List.drop 4) ∧
    (parseQuery lib query).2.2.1 =
      ((tokens query).filter (hasPrefix (str "PERSON:"))).map (List.drop 7) ∧
    classify lib c (str "ORG:") =
      (c.1 ++ [normalize lib (str "ORG:")], c.2.1, c.2.2.1, c.2.2.2) ∧
    classify lib c (str "PERSON:") =
      (c.1 ++ [normalize lib (str "PERSON:")], c.2.1, c.2.2.1, c.2.2.2) := by
  refine ⟨?_, ?_, ?_, ?_⟩
  · simp [parseQuery, foldl_classify_orgs]
  · simp [parseQuery, foldl_classify_persons]
  · obtain ⟨terms, orgs, persons, exclusions⟩ := c
    simp [classify, str_org, str_person]
  · obtain ⟨terms, orgs, persons, exclusions⟩ := c
    simp [classify, str_org, str_person]

end QueryProcessor

/-! ## A term excluded by itself -/

namespace DocScores

variable {D S : Type} [DecidableEq D]

theorem eq_nil_of_find?_none (m : List (D × S)) (h : ∀ a, find? m a = none) : m = [] := by
  cases m with
  | nil => rfl
  | cons x m =>
    obtain ⟨d, s⟩ := x
    have := h d
    simp [find?] at this

theorem keys_foldl_set (results acc : List (D × S)) (a : D)
    (h : a ∈ keys (results.foldl (fun m e => set m e.1 e.2) acc)) :
    a ∈ keys acc ∨ a ∈ keys results := by
  induction results generalizing acc with
  | nil => exact Or.inl h
  | cons x rest ih =>
    simp only [List.foldl_cons] at h
    rcases ih _ h with h1 | h1
    · rcases (mem_keys_set acc x.1 x.2 a).mp h1 with rfl | h2
      · exact Or.inr (by simp [keys])
      · exact Or.inl h2
    · exact Or.inr (by simp only [keys, List.map_cons, List.mem_cons]; exact Or.inr h1)

end DocScores

namespace QueryProcessor

variable {S : Type}

theorem tokensFrom_append (w rest cur : Str) (h : ∀ b ∈ w, isSpace b = false) :
    tokensFrom (w ++ rest) cur = tokensFrom rest (cur ++ w) := by
  induction w generalizing cur with
  | nil => simp
  | cons b w ih =>
    have hb : isSpace b = false := h b (List.mem_cons_self _ _)
    simp only [List.cons_append, tokensFrom, hb, Bool.false_eq_true, if_false,
      List.append_eq]
    rw [ih _ (fun x hx => h x (List.mem_cons_of_mem _ hx))]
    simp

/-- The query made of a token, a space and the same token after a minus sign has
these two tokens. -/
theorem tokens_self_exclusion (t : Str) (hne : t ≠ []) (h : ∀ b ∈ t, isSpace b = false) :
    tokens (t ++ str " -" ++ t) = [t, 45 :: t] := by
  have e : str " -" = [32, 45] := by decide
  have h45 : ∀ b ∈ (45 : Byte) :: t, isSpace b = false := by
    intro b hb
    rcases List.mem_cons.mp hb with rfl | hb
    · decide
    · exact h b hb
  have hs : isSpace 32 = true := by decide
  have ht : t.isEmpty = false := by
    cases t with
    | nil => exact absurd rfl hne
    | cons b t => rfl
  simp only [tokens, e, List.append_assoc, List.cons_append, List.nil_append]
  rw [tokensFrom_append t _ [] h]
  have := tokensFrom_append (45 :: t) [] [] h45
  simp only [List.append_nil, List.nil_append] at this
  rw [List.nil_append, tokensFrom.eq_2]
  simp only [hs, if_true, ht, Bool.false_eq_true, if_false]
  rw [this]
  simp [tokensFrom]

/-- A token with a leading minus sign and further text is an exclusion clause. -/
theorem classify_minus (lib : ThirdParty) (c : Clauses) (t : Str) (hne : t ≠ []) :
    classify lib c (45 :: t) = (c.1, c.2.1, c.2.2.1, c.2.2.2 ++ [normalize lib t]) := by
  obtain ⟨terms, orgs, persons, exclusions⟩ := c
  have hl : t.length ≠ 0 := fun h => hne (List.length_eq_zero.mp h)
  have h1 : ¬ ((45 : Byte) :: t).take 4 = str "ORG:" := by
    rw [str_org]
    simp
  have h2 : ¬ ((45 : Byte) :: t).take 7 = str "PERSON:" := by
    rw [str_person]
    simp
  simp only [classify, h1, h2, and_false, if_false]
  rw [if_pos]
  · simp
  · refine ⟨by simp, by simp, ?_⟩
    simp only [List.length_cons]
    omega

theorem seed_erase_empty (ih : IndexHandler S) (w : Str) :
    applyExclusions ih (seedScores (ih.searchWord w)) [w] = [] := by
  apply DocScores.eq_nil_of_find?_none
  intro a
  by_cases ha : a ∈ DocScores.keys (ih.searchWord w)
  · exact find?_applyExclusions_none ih _ [w] a (Or.inr ⟨w, List.mem_singleton.mpr rfl, ha⟩)
  · apply find?_applyExclusions_none ih _ [w] a
    refine Or.inl ((DocScores.find?_eq_none_iff _ a).mpr ?_)
    intro hm
    rcases DocScores.keys_foldl_set _ _ a hm with h1 | h1
    · simp [DocScores.keys] at h1
    · exact ha h1

/-- C16: for a token `t` that `parseQuery` classifies as a term clause, the query
made of `t`, a space and `-t` gives the empty result list on every catalog. -/
theorem C16_self_exclusion_is_empty [LT S] [DecidableRel (fun a b : S => a < b)] [Add S] [Mul S] [OfScientific S]
    (lib : ThirdParty) (ih : IndexHandler S) (t : Str) (hne : t ≠ [])
    (hsp : ∀ b ∈ t, isSpace b = false)
    (hterm : classify lib ([], [], [], []) t = ([normalize lib t], [], [], [])) :
    parseQuery lib (t ++ str " -" ++ t) = ([normalize lib t], [], [], [normalize lib t]) ∧
    processQuery lib ih (t ++ str " -" ++ t) = [] := by
  have hp : parseQuery lib (t ++ str " -" ++ t) =
      ([normalize lib t], [], [], [normalize lib t]) := by
    simp only [parseQuery, tokens_self_exclusion t hne hsp, List.foldl_cons, List.foldl_nil,
      hterm, classify_minus lib _ t hne, List.nil_append]
  refine ⟨hp, ?_⟩
  simp only [processQuery, queryScores, hp, clauseScores, termScores, List.foldl_nil,
    seed_erase_empty]
  simp [rankResults, stdSort]

/-- C16 on the catalog `entityCatalog` and the token "stock". -/
theorem C16_self_exclusion_is_empty_witness :
    str "stock" ≠ [] ∧
    classify exampleLib ([], [], [], []) (str "stock") =
      ([normalize exampleLib (str "stock")], [], [], []) ∧
    (processQuery exampleLib entityCatalog (str "stock")).map (fun r => r.docID) =
      [str "d1", str "d2"] ∧
    (parseQuery exampleLib (str "stock" ++ str " -" ++ str "stock") =
      ([normalize exampleLib (str "stock")], [], [], [normalize exampleLib (str "stock")]) ∧
    processQuery exampleLib entityCatalog (str "stock" ++ str " -" ++ str "stock") = []) :=
  ⟨by decide, by decide!, by decide!,
    C16_self_exclusion_is_empty exampleLib entityCatalog (str "stock") (by decide)
      (by decide!) (by decide!)⟩

end QueryProcessor

/-! ## Truncated index files -/

theorem readBytes_ext {n : Nat} {bs a r : List Byte} (q : List Byte)
    (h : readBytes n bs = some (a, r)) : readBytes n (bs ++ q) = some (a, r ++ q) := by
  simp only [readBytes] at h ⊢
  split at h
  · simp at h
  · rename_i hn
    simp only [Option.some.injEq, Prod.mk.injEq] at h
    have hn' : ¬ (bs ++ q).length < n := by
      simp only [List.length_append]
      omega
    rw [if_neg hn', ← h.1, ← h.2, List.take_append_of_le_length (not_lt.mp hn),
      List.drop_append_of_le_length (not_lt.mp hn)]

theorem readSize_ext {bs r : List Byte} {n : Nat} (q : List Byte)
    (h : readSize bs = some (n, r)) : readSize (bs ++ q) = some (n, r ++ q) := by
  simp only [readSize, Option.map_eq_some'] at h ⊢
  obtain ⟨⟨a, r'⟩, h1, h2⟩ := h
  simp only [Prod.mk.injEq] at h2
  exact ⟨(a, r' ++ q), readBytes_ext q h1, by simp [h2.1, h2.2]⟩

theorem readString_ext {bs r : List Byte} {w : Str} (q : List Byte)
    (h : readString bs = some (w, r)) : readString (bs ++ q) = some (w, r ++ q) := by
  simp only [readString] at h ⊢
  obtain ⟨⟨n, r'⟩, h1, h2⟩ := Option.bind_eq_some.mp h
  dsimp only at h2
  rw [readSize_ext q h1]
  exact readBytes_ext q h2

theorem readBool_ext {bs r : List Byte} {b : Bool} (q : List Byte)
    (h : readBool bs = some (b, r)) : readBool (bs ++ q) = some (b, r ++ q) := by
  cases bs with
  | nil => simp [readBool] at h
  | cons x bs =>
    simp only [readBool, List.cons_append] at h ⊢
    split at h
    · rename_i hx
      simp only [Option.some.injEq, Prod.mk.injEq] at h
      simp [hx, h.1, h.2]
    · rename_i hx
      split at h
      · rename_i hx1
        simp only [Option.some.injEq, Prod.mk.injEq] at h
        simp [hx, hx1, h.1, h.2]
      · simp at h

namespace AVLTree

variable {S : Type} [ScoreBytes S]

theorem readDocScores_ext (n : Nat) (acc : List (Str × S)) (bs q : List Byte)
    {m : List (Str × S)} {r : List Byte} (h : readDocScores n acc bs = some (m, r)) :
    readDocScores n acc (bs ++ q) = some (m, r ++ q) := by
  induction n generalizing acc bs with
  | zero =>
    simp only [readDocScores, Option.some.injEq, Prod.mk.injEq] at h ⊢
    exact ⟨h.1, by rw [h.2]⟩
  | succ n ih =>
    simp only [readDocScores] at h ⊢
    obtain ⟨⟨w, r1⟩, h1, h2⟩ := Option.bind_eq_some.mp h
    obtain ⟨⟨y, r2⟩, h3, h4⟩ := Option.bind_eq_some.mp h2
    dsimp only at h3 h4
    rw [readString_ext q h1]
    simp only [Option.some_bind]
    rw [readBytes_ext q h3]
    simp only [Option.some_bind]
    exact ih _ _ h4

omit [ScoreBytes S] in
theorem child_ext {f : List Byte → Option (Node Str Str S × List Byte)} {b : Bool}
    {bs r : List Byte} (q : List Byte) {t : Node Str Str S}
    (hf : ∀ t' r', f bs = some (t', r') → f (bs ++ q) = some (t', r' ++ q))
    (h : (if b = true then f bs else some (Node.null, bs)) = some (t, r)) :
    (if b = true then f (bs ++ q) else some (Node.null, bs ++ q)) = some (t, r ++ q) := by
  split at h
  · rename_i hb
    rw [if_pos hb]
    exact hf t r h
  · rename_i hb
    rw [if_neg hb]
    simp only [Option.some.injEq, Prod.mk.injEq] at h ⊢
    exact ⟨h.1, by rw [h.2]⟩

/-- A successful `deserializeHelper` reads the same node when more input follows. -/
theorem deserializeHelper_ext (fuel : Nat) (bs q : List Byte) {t : Node Str Str S}
    {r : List Byte} (h : deserializeHelper fuel bs = some (t, r)) :
    deserializeHelper fuel (bs ++ q) = some (t, r ++ q) := by
  induction fuel generalizing bs t r with
  | zero => simp [deserializeHelper] at h
  | succ fuel ih =>
    simp only [deserializeHelper] at h ⊢
    obtain ⟨⟨k, r1⟩, h1, h⟩ := Option.bind_eq_some.mp h
    obtain ⟨⟨c, r2⟩, h2, h⟩ := Option.bind_eq_some.mp h
    obtain ⟨⟨m, r3⟩, h3, h⟩ := Option.bind_eq_some.mp h
    obtain ⟨⟨hl, r4⟩, h4, h⟩ := Option.bind_eq_some.mp h
    obtain ⟨⟨l, r5⟩, h5, h⟩ := Option.bind_eq_some.mp h
    obtain ⟨⟨hr, r6⟩, h6, h⟩ := Option.bind_eq_some.mp h
    obtain ⟨⟨rt, r7⟩, h7, h⟩ := Option.bind_eq_some.mp h
    dsimp only at h2 h3 h4 h5 h6 h7 h
    simp only [Option.some.injEq, Prod.mk.injEq] at h
    rw [readString_ext q h1]
    simp only [Option.some_bind]
    rw [readSize_ext q h2]
    simp only [Option.some_bind]
    rw [readDocScores_ext _ _ _ q h3]
    simp only [Option.some_bind]
    rw [readBool_ext q h4]
    simp only [Option.some_bind]
    rw [child_ext q (fun t' r' h' => ih r4 h') h5]
    simp only [Option.some_bind]
    rw [readBool_ext q h6]
    simp only [Option.some_bind]
    rw [child_ext q (fun t' r' h' => ih r6 h') h7]
    simp only [Option.some_bind, Option.some.injEq, Prod.mk.injEq]
    exact ⟨h.1, by rw [h.2]⟩

/-- Reading a proper prefix of what `serializeHelper` wrote comes up short. -/
theorem deserialize_prefix (t : Node Str Str S) (hne : isNull t = false) (hh : HeightsOk t)
    (hp : PostingsOk t) (hf : SizesFit t) (p q : List Byte)
    (hs : serializeHelper t = p ++ q) (hq : q ≠ []) :
    (deserialize p : Option (AVLTree Str Str S)) = none := by
  cases hd : (deserializeHelper (p.length + 1) p : Option (Node Str Str S × List Byte)) with
  | none => simp [deserialize, hd]
  | some x =>
    obtain ⟨t', r⟩ := x
    exfalso
    have hfull := deserializeHelper_serializeHelper t ((p ++ q).length + 1) [] hne hh hp hf
      (by rw [← hs]; exact Nat.le_succ_of_le (realHeight_le_serialize t))
    rw [List.append_nil, hs] at hfull
    have h1 : deserializeHelper ((p ++ q).length + 1) p = some (t', r) := by
      rw [← hd]
      exact deserializeHelper_fuel _ _ p (by simp only [List.length_append]; omega)
        (Nat.lt_succ_self _)
    have h2 := deserializeHelper_ext _ p q h1
    rw [hfull] at h2
    simp only [Option.some.injEq, Prod.mk.injEq] at h2
    have : q = [] := (List.append_eq_nil.mp h2.2.symm).2
    exact hq this

/-! ### Runs in which every read finds its bytes -/

omit [ScoreBytes S] in
theorem readVar_of_readBytes (m : Machine) (w : Nat) (bs x r : List Byte) (n : Nat)
    (h : readBytes w bs = some (x, r)) :
    LoadState.readVar m w ⟨bs, true, n⟩ = (x, ⟨r, true, n + 1⟩) := by
  simp only [readBytes] at h
  split at h
  · simp at h
  · rename_i hn
    simp only [Option.some.injEq, Prod.mk.injEq] at h
    simp only [LoadState.readVar, LoadState.extract, List.length_map, List.length_range,
      if_true, if_pos (not_lt.mp hn), h.1, h.2]

omit [ScoreBytes S] in
theorem readSize_of_readSize (m : Machine) (bs r : List Byte) (v n : Nat)
    (h : readSize bs = some (v, r)) :
    LoadState.readSize m ⟨bs, true, n⟩ = (v, ⟨r, true, n + 1⟩) := by
  simp only [readSize, Option.map_eq_some'] at h
  obtain ⟨⟨a, r'⟩, h1, h2⟩ := h
  simp only [Prod.mk.injEq] at h2
  simp only [LoadState.readSize, readVar_of_readBytes m 8 bs a r' n h1, h2.1, h2.2]

omit [ScoreBytes S] in
theorem readText_of_readBytes (m : Machine) (k : Nat) (bs x r : List Byte) (n : Nat)
    (h : readBytes k bs = some (x, r)) (hk : k ≤ m.maxString) :
    LoadState.readText m k ⟨bs, true, n⟩ = .ok (x, ⟨r, true, n⟩) := by
  simp only [readBytes] at h
  split at h
  · simp at h
  · rename_i hn
    simp only [Option.some.injEq, Prod.mk.injEq] at h
    simp only [LoadState.readText, if_neg (not_lt.mpr hk), LoadState.extract,
      List.length_replicate, if_true, if_pos (not_lt.mp hn), h.1, h.2]

omit [ScoreBytes S] in
theorem readString_of_readString (m : Machine) (bs r : List Byte) (v : Str) (n : Nat)
    (h : readString bs = some (v, r)) (hb : bs.length ≤ m.maxString) :
    LoadState.readString m ⟨bs, true, n⟩ = .ok (v, ⟨r, true, n + 1⟩) := by
  simp only [readString] at h
  obtain ⟨⟨k, r'⟩, h1, h2⟩ := Option.bind_eq_some.mp h
  dsimp only at h2
  have hl1 := readSize_length h1
  have hl2 := readBytes_length h2
  simp only [LoadState.readString, readSize_of_readSize m bs r' k n h1]
  exact readText_of_readBytes m k r' v r (n + 1) h2 (by omega)

omit [ScoreBytes S] in
theorem readBool_of_readBool (m : Machine) (bs r : List Byte) (b : Bool) (n : Nat)
    (h : readBool bs = some (b, r)) :
    LoadState.readBool m ⟨bs, true, n⟩ = .ok (b, ⟨r, true, n + 1⟩) := by
  cases bs with
  | nil => simp [readBool] at h
  | cons x bs =>
    have hv : LoadState.readVar m 1 ⟨x :: bs, true, n⟩ = ([x], ⟨bs, true, n + 1⟩) :=
      readVar_of_readBytes m 1 (x :: bs) [x] bs n (by simp [readBytes])
    simp only [readBool] at h
    simp only [LoadState.readBool, hv]
    split at h
    · rename_i h0
      simp only [Option.some.injEq, Prod.mk.injEq] at h
      simp only [h0, if_true, ← h.1, ← h.2]
    · rename_i h0
      split at h
      · rename_i h1
        simp only [Option.some.injEq, Prod.mk.injEq] at h
        subst h1
        rw [← h.1, ← h.2]
        rfl
      · simp at h

theorem readDocScores_of_readDocScores (m : Machine) (c : Nat) (acc d : List (Str × S))
    (bs r : List Byte) (n : Nat) (h : readDocScores c acc bs = some (d, r))
    (hb : bs.length ≤ m.maxString) :
    ∃ n', Stream.readDocScores m c acc ⟨bs, true, n⟩ = .ok (d, ⟨r, true, n'⟩) := by
  induction c generalizing acc bs n with
  | zero =>
    simp only [readDocScores, Option.some.injEq, Prod.mk.injEq] at h
    exact ⟨n, by simp only [Stream.readDocScores, h.1, h.2]⟩
  | succ c ih =>
    simp only [readDocScores] at h
    obtain ⟨⟨w, r1⟩, h1, h⟩ := Option.bind_eq_some.mp h
    obtain ⟨⟨y, r2⟩, h2, h⟩ := Option.bind_eq_some.mp h
    dsimp only at h2 h
    have hl1 := readString_length h1
    have hl2 := readBytes_length h2
    obtain ⟨n', hn'⟩ := ih (DocScores.set acc w (ScoreBytes.ofBytes y)) r2 (n + 1 + 1) h
      (by omega)
    refine ⟨n', ?_⟩
    simp only [Stream.readDocScores, readString_of_readString m bs r1 w n h1 hb, Except.bind,
      readVar_of_readBytes m 8 r1 y r2 (n + 1) h2]
    exact hn'

theorem child_of_child (m : Machine) (fuel : Nat) (b : Bool) (bs r : List Byte)
    (t : Node Str Str S) (n : Nat)
    (ih : ∀ (bs r : List Byte) (t : Node Str Str S) (n : Nat),
      deserializeHelper fuel bs = some (t, r) → bs.length ≤ m.maxString →
      ∃ n', Stream.deserializeHelper m fuel ⟨bs, true, n⟩ = .ok (t, ⟨r, true, n'⟩))
    (h : (if b = true then deserializeHelper fuel bs else some (Node.null, bs)) = some (t, r))
    (hb : bs.length ≤ m.maxString) :
    ∃ n', (if b = true then Stream.deserializeHelper m fuel ⟨bs, true, n⟩
      else .ok (Node.null, ⟨bs, true, n⟩)) = .ok (t, ⟨r, true, n'⟩) := by
  cases b with
  | true =>
    simp only [if_true] at h ⊢
    exact ih bs r t n h hb
  | false =>
    simp only [Bool.false_eq_true, if_false, Option.some.injEq, Prod.mk.injEq] at h ⊢
    exact ⟨n, by rw [h.1, h.2]⟩

/-- A run in which every read finds its bytes returns what the readers of the
persistence section return, and leaves the stream good. -/
theorem deserializeHelper_of_deserializeHelper (m : Machine) (fuel : Nat) (bs r : List Byte)
    (t : Node Str Str S) (n : Nat) (h : deserializeHelper fuel bs = some (t, r))
    (hb : bs.length ≤ m.maxString) :
    ∃ n', Stream.deserializeHelper m fuel ⟨bs, true, n⟩ = .ok (t, ⟨r, true, n'⟩) := by
  induction fuel generalizing bs r t n with
  | zero => simp [deserializeHelper] at h
  | succ fuel ih =>
    simp only [deserializeHelper] at h
    obtain ⟨⟨k, r1⟩, h1, h⟩ := Option.bind_eq_some.mp h
    obtain ⟨⟨c, r2⟩, h2, h⟩ := Option.bind_eq_some.mp h
    obtain ⟨⟨d, r3⟩, h3, h⟩ := Option.bind_eq_some.mp h
    obtain ⟨⟨hl, r4⟩, h4, h⟩ := Option.bind_eq_some.mp h
    obtain ⟨⟨l, r5⟩, h5, h⟩ := Option.bind_eq_some.mp h
    obtain ⟨⟨hr, r6⟩, h6, h⟩ := Option.bind_eq_some.mp h
    obtain ⟨⟨rt, r7⟩, h7, h⟩ := Option.bind_eq_some.mp h
    dsimp only at h2 h3 h4 h5 h6 h7 h
    simp only [Option.some.injEq, Prod.mk.injEq] at h
    have e1 := readString_length h1
    have e2 := readSize_length h2
    have e3 := readDocScores_length _ _ _ h3
    have e4 := readBool_length h4
    have e6 := readBool_length h6
    have e5 := child_length (fun t' r' h' => (deserializeHelper_length fuel r4 h').le) h5
    obtain ⟨n3, g3⟩ := readDocScores_of_readDocScores m c [] d r2 r3 (n + 1 + 1) h3 (by omega)
    obtain ⟨n5, g5⟩ := child_of_child m fuel hl r4 r5 l (n3 + 1) ih h5 (by omega)
    obtain ⟨n7, g7⟩ := child_of_child m fuel hr r6 r7 rt (n5 + 1) ih h7 (by omega)
    refine ⟨n7, ?_⟩
    simp only [Stream.deserializeHelper, readString_of_readString m bs r1 k n h1 hb,
      Except.bind, readSize_of_readSize m r1 r2 c (n + 1) h2, g3,
      readBool_of_readBool m r3 r4 hl n3 h4, g5, readBool_of_readBool m r5 r6 hr n5 h6, g7]
    rw [← h.1, ← h.2]

/-! ### The last byte of an index file -/

theorem serializeHelper_ne_nil (t : Node Str Str S) (h : isNull t = false) :
    serializeHelper t ≠ [] := by
  intro e
  have hl := realHeight_le_serialize t
  rw [e] at hl
  cases t with
  | null => simp [isNull] at h
  | mk k p l r hh =>
    simp only [realHeight, List.length_nil] at hl
    omega

/-- On the bytes written for a key, its postings and its left subtree, followed by
any bytes `E`, `deserializeHelper` reads the key, the postings and the left subtree
and goes on to read the flag of the right subtree from `E`. -/
theorem run_to_right (m : Machine) (fuel : Nat) (k : Str) (p : List (Str × S))
    (l : Node Str Str S) (E : List Byte) (n : Nat)
    (hk : k.length < 2 ^ 64) (hpl : p.length < 2 ^ 64) (hpe : ∀ e ∈ p, e.1.length < 2 ^ 64)
    (hpn : DocScores.Nodup p)
    (hhl : HeightsOk l) (hpol : PostingsOk l) (hfl : SizesFit l) (hfuel : realHeight l ≤ fuel)
    (hb : (writeString k ++ writeSize p.length ++ writeDocScores p ++ writeBool (!isNull l) ++
        (if !isNull l then serializeHelper l else []) ++ E).length ≤ m.maxString) :
    ∃ n5, Stream.deserializeHelper m (fuel + 1)
        ⟨writeString k ++ writeSize p.length ++ writeDocScores p ++ writeBool (!isNull l) ++
          (if !isNull l then serializeHelper l else []) ++ E, true, n⟩ =
      (LoadState.readBool m ⟨E, true, n5⟩).bind (fun hr =>
        (if hr.1 then Stream.deserializeHelper m fuel hr.2 else .ok (.null, hr.2)).bind
          (fun r => .ok (.mk k p l r.1 (1 + max (height l) (height r.1)), r.2))) := by
  simp only [List.append_assoc] at hb ⊢
  simp only [List.length_append] at hb
  have c1 := readString_of_readString m
    (writeString k ++ (writeSize p.length ++ (writeDocScores p ++ (writeBool (!isNull l) ++
      ((if (!isNull l) = true then serializeHelper l else []) ++ E)))))
    (writeSize p.length ++ (writeDocScores p ++ (writeBool (!isNull l) ++
      ((if (!isNull l) = true then serializeHelper l else []) ++ E)))) k n
    (readString_writeString k _ hk) (by simp only [List.length_append]; omega)
  have c2 := readSize_of_readSize m
    (writeSize p.length ++ (writeDocScores p ++ (writeBool (!isNull l) ++
      ((if (!isNull l) = true then serializeHelper l else []) ++ E))))
    (writeDocScores p ++ (writeBool (!isNull l) ++
      ((if (!isNull l) = true then serializeHelper l else []) ++ E))) p.length (n + 1)
    (readSize_writeSize _ _ hpl)
  obtain ⟨n3, c3⟩ := readDocScores_of_readDocScores m p.length [] ([] ++ p)
    (writeDocScores p ++ (writeBool (!isNull l) ++
      ((if (!isNull l) = true then serializeHelper l else []) ++ E)))
    (writeBool (!isNull l) ++
      ((if (!isNull l) = true then serializeHelper l else []) ++ E)) (n + 1 + 1)
    (readDocScores_write p [] _ (by simpa using hpn) hpe)
    (by simp only [List.length_append]; omega)
  have c4 := readBool_of_readBool m
    (writeBool (!isNull l) ++ ((if (!isNull l) = true then serializeHelper l else []) ++ E))
    ((if (!isNull l) = true then serializeHelper l else []) ++ E) (!isNull l) n3
    (readBool_writeBool _ _)
  simp only [List.nil_append] at c3
  cases hl : isNull l with
  | true =>
    have el : l = Node.null := by
      cases l with
      | null => rfl
      | mk _ _ _ _ _ => simp [isNull] at hl
    simp only [hl, Bool.not_true, Bool.false_eq_true, if_false, List.nil_append] at c1 c2 c3 c4 ⊢
    refine ⟨n3 + 1, ?_⟩
    simp only [Stream.deserializeHelper, c1, Except.bind, c2, c3, c4, Bool.false_eq_true,
      if_false, el]
  | false =>
    simp only [hl, Bool.not_false, if_true] at c1 c2 c3 c4 hb ⊢
    obtain ⟨n5, c5⟩ := deserializeHelper_of_deserializeHelper m fuel (serializeHelper l ++ E) E
      l (n3 + 1) (deserializeHelper_serializeHelper l fuel E hl hhl hpol hfl hfuel)
      (by simp only [List.length_append]; omega)
    refine ⟨n5, ?_⟩
    simp only [Stream.deserializeHelper, c1, Except.bind, c2, c3, c4, if_true, c5]

/-- With the last byte of what `serializeHelper` wrote missing and a 0 in every flag
that no read assigned, `deserializeHelper` returns the whole tree; the stream is in
the failed state. -/
theorem deserializeHelper_dropLast (m : Machine) (hj : ∀ v, m.junk v 0 = 0)
    (t : Node Str Str S) (fuel n : Nat) (hne : isNull t = false) (hh : HeightsOk t)
    (hp : PostingsOk t) (hf : SizesFit t) (hfuel : realHeight t ≤ fuel)
    (hb : (serializeHelper t).length ≤ m.maxString) :
    ∃ n', Stream.deserializeHelper m fuel ⟨(serializeHelper t).dropLast, true, n⟩ =
      .ok (t, ⟨[], false, n'⟩) := by
  induction t generalizing fuel n with
  | null => simp [isNull] at hne
  | mk k p l r h ihl ihr =>
    obtain ⟨hhl, hhr, hhe⟩ := hh
    have hpl : PostingsOk l := fun q hq => hp q (by simp [traverseInOrder, hq])
    have hpr : PostingsOk r := fun q hq => hp q (by simp [traverseInOrder, hq])
    have hfl : SizesFit l := fun q hq => hf q (by simp [traverseInOrder, hq])
    have hfr : SizesFit r := fun q hq => hf q (by simp [traverseInOrder, hq])
    have hpk := hp (k, p) (by simp [traverseInOrder])
    obtain ⟨hfk, hfp, hfe⟩ := hf (k, p) (by simp [traverseInOrder])
    cases fuel with
    | zero => simp [realHeight] at hfuel
    | succ fuel =>
      have hfuel' : max (realHeight l) (realHeight r) ≤ fuel := by
        simp only [realHeight] at hfuel
        omega
      cases hr : isNull r with
      | true =>
        have er : r = Node.null := by
          cases r with
          | null => rfl
          | mk _ _ _ _ _ => simp [isNull] at hr
        subst er
        have es : serializeHelper (Node.mk k p l Node.null h) =
            (writeString k ++ writeSize p.length ++ writeDocScores p ++ writeBool (!isNull l) ++
              (if !isNull l then serializeHelper l else []) ++ []) ++ [0] := by
          simp [serializeHelper, isNull, writeBool]
        rw [es, List.length_append] at hb
        rw [es, List.dropLast_concat]
        obtain ⟨n5, e⟩ := run_to_right m fuel k p l [] n hfk hfp hfe hpk hhl hpl hfl
          (le_trans (le_max_left _ _) hfuel') (by omega)
        rw [e]
        have eb : LoadState.readBool m ⟨[], true, n5⟩ = .ok (false, ⟨[], false, n5 + 1⟩) := by
          have e1 : List.range 1 = [0] := rfl
          simp [LoadState.readBool, LoadState.readVar, LoadState.extract, hj, e1]
        refine ⟨n5 + 1, ?_⟩
        simp only [eb, Except.bind, Bool.false_eq_true, if_false, hhe]
      | false =>
        have es : serializeHelper (Node.mk k p l r h) =
            (writeString k ++ writeSize p.length ++ writeDocScores p ++ writeBool (!isNull l) ++
              (if !isNull l then serializeHelper l else [])) ++ ([1] ++ serializeHelper r) := by
          simp [serializeHelper, hr, writeBool]
        have hrn := serializeHelper_ne_nil r hr
        have ed : (serializeHelper (Node.mk k p l r h)).dropLast =
            writeString k ++ writeSize p.length ++ writeDocScores p ++ writeBool (!isNull l) ++
              (if !isNull l then serializeHelper l else []) ++
              ([1] ++ (serializeHelper r).dropLast) := by
          rw [es, List.dropLast_append_of_ne_nil _ (by simp),
            List.dropLast_append_of_ne_nil _ hrn]
        rw [es] at hb
        simp only [List.length_append] at hb
        rw [ed]
        obtain ⟨n5, e⟩ := run_to_right m fuel k p l ([1] ++ (serializeHelper r).dropLast) n
          hfk hfp hfe hpk hhl hpl hfl (le_trans (le_max_left _ _) hfuel')
          (by simp only [List.length_append, List.length_dropLast]; omega)
        rw [e]
        have eb : LoadState.readBool m ⟨[1] ++ (serializeHelper r).dropLast, true, n5⟩ =
            .ok (true, ⟨(serializeHelper r).dropLast, true, n5 + 1⟩) :=
          readBool_of_readBool m _ _ true n5 (by simp [readBool])
        obtain ⟨n7, e7⟩ := ihr fuel (n5 + 1) hr hhr hpr hfr
          (le_trans (le_max_right _ _) hfuel') (by omega)
        refine ⟨n7, ?_⟩
        simp only [eb, Except.bind, if_true, e7, hhe]

/-! ### Runs that leave the stream good -/

theorem bind_eq_ok {ε α β : Type} {x : Except ε α} {f : α → Except ε β} {b : β}
    (h : x.bind f = .ok b) : ∃ a, x = .ok a ∧ f a = .ok b := by
  cases x with
  | error e => simp [Except.bind] at h
  | ok a => exact ⟨a, rfl, h⟩

omit [ScoreBytes S] in
theorem readVar_good (m : Machine) (w : Nat) (st : LoadState)
    (h : (LoadState.readVar m w st).2.good = true) :
    st.good = true ∧
    readBytes w st.rest =
      some ((LoadState.readVar m w st).1, (LoadState.readVar m w st).2.rest) := by
  obtain ⟨rest, good, vars⟩ := st
  cases good with
  | false => simp [LoadState.readVar, LoadState.extract] at h
  | true =>
    by_cases hw : w ≤ rest.length
    · simp [LoadState.readVar, LoadState.extract, hw, readBytes, not_lt.mpr hw]
    · simp [LoadState.readVar, LoadState.extract, hw] at h

omit [ScoreBytes S] in
theorem readSize_good (m : Machine) (st : LoadState)
    (h : (LoadState.readSize m st).2.good = true) :
    st.good = true ∧
    readSize st.rest =
      some ((LoadState.readSize m st).1, (LoadState.readSize m st).2.rest) := by
  obtain ⟨hg, hr⟩ := readVar_good m 8 st h
  exact ⟨hg, by simp only [readSize, hr, Option.map_some', LoadState.readSize]⟩

omit [ScoreBytes S] in
theorem readText_good (m : Machine) (k : Nat) (st st' : LoadState) (x : Str)
    (h : LoadState.readText m k st = .ok (x, st')) (hg : st'.good = true) :
    st.good = true ∧ readBytes k st.rest = some (x, st'.rest) := by
  obtain ⟨rest, good, vars⟩ := st
  simp only [LoadState.readText] at h
  split at h
  · simp at h
  · simp only [Except.ok.injEq] at h
    cases good with
    | false =>
      simp only [LoadState.extract, Bool.false_eq_true, if_false, Prod.mk.injEq] at h
      rw [← h.2] at hg
      simp at hg
    | true =>
      by_cases hw : k ≤ rest.length
      · simp only [LoadState.extract, List.length_replicate, if_true, if_pos hw,
          Prod.mk.injEq] at h
        simp [readBytes, not_lt.mpr hw, ← h.1, ← h.2]
      · simp only [LoadState.extract, List.length_replicate, if_true, if_neg hw,
          Prod.mk.injEq] at h
        rw [← h.2] at hg
        simp at hg

omit [ScoreBytes S] in
theorem readString_good (m : Machine) (st st' : LoadState) (v : Str)
    (h : LoadState.readString m st = .ok (v, st')) (hg : st'.good = true) :
    st.good = true ∧ readString st.rest = some (v, st'.rest) := by
  simp only [LoadState.readString] at h
  obtain ⟨h1, h2⟩ := readText_good m _ _ st' v h hg
  obtain ⟨h3, h4⟩ := readSize_good m st h1
  exact ⟨h3, by simp only [readString, h4, Option.some_bind, h2]⟩

omit [ScoreBytes S] in
theorem readBool_good (m : Machine) (st st' : LoadState) (b : Bool)
    (h : LoadState.readBool m st = .ok (b, st')) (hg : st'.good = true) :
    st.good = true ∧ readBool st.rest = some (b, st'.rest) := by
  have hst : st' = (LoadState.readVar m 1 st).2 := by
    simp only [LoadState.readBool] at h
    split at h
    · split at h
      · simp only [Except.ok.injEq, Prod.mk.injEq] at h
        exact h.2.symm
      · split at h
        · simp only [Except.ok.injEq, Prod.mk.injEq] at h
          exact h.2.symm
        · simp at h
    · simp at h
  rw [hst] at hg
  obtain ⟨h1, h2⟩ := readVar_good m 1 st hg
  refine ⟨h1, ?_⟩
  simp only [readBytes] at h2
  split at h2
  · simp at h2
  · simp only [Option.some.injEq, Prod.mk.injEq] at h2
    cases hr : st.rest with
    | nil =>
      rename_i hn
      simp [hr] at hn
    | cons x bs =>
      rw [hr] at h2
      simp only [List.take_succ_cons, List.take_zero, List.drop_succ_cons, List.drop_zero] at h2
      simp only [LoadState.readBool, ← h2.1] at h
      simp only [readBool]
      split at h
      · rename_i h0
        simp only [Except.ok.injEq, Prod.mk.injEq] at h
        simp only [h0, if_true, ← h.1, ← h.2, h2.2]
      · rename_i h0
        split at h
        · rename_i h1'
          simp only [Except.ok.injEq, Prod.mk.injEq] at h
          simp only [if_neg h0, if_pos h1', ← h.1, ← h.2, h2.2]
        · simp at h

theorem readDocScores_good (m : Machine) (c : Nat) (acc d : List (Str × S))
    (st st' : LoadState) (h : Stream.readDocScores m c acc st = .ok (d, st'))
    (hg : st'.good = true) :
    st.good = true ∧ readDocScores c acc st.rest = some (d, st'.rest) := by
  induction c generalizing acc st with
  | zero =>
    simp only [Stream.readDocScores, Except.ok.injEq, Prod.mk.injEq] at h
    rw [← h.2] at hg ⊢
    exact ⟨hg, by simp only [readDocScores, h.1]⟩
  | succ c ih =>
    simp only [Stream.readDocScores] at h
    obtain ⟨⟨w, s1⟩, h1, h⟩ := bind_eq_ok h
    dsimp only at h
    obtain ⟨g2, c3⟩ := ih _ _ h
    obtain ⟨g1, c2⟩ := readVar_good m 8 s1 g2
    obtain ⟨g0, c1⟩ := readString_good m st s1 w h1 g1
    exact ⟨g0, by simp only [readDocScores, c1, Option.some_bind, c2, c3]⟩

theorem child_good (m : Machine) (fuel : Nat) (b : Bool) (st st' : LoadState)
    (t : Node Str Str S)
    (ih : ∀ (st st' : LoadState) (t : Node Str Str S),
      Stream.deserializeHelper m fuel st = .ok (t, st') → st'.good = true →
      st.good = true ∧ deserializeHelper fuel st.rest = some (t, st'.rest))
    (h : (if b = true then Stream.deserializeHelper m fuel st
      else .ok (Node.null, st)) = .ok (t, st'))
    (hg : st'.good = true) :
    st.good = true ∧
    (if b = true then deserializeHelper fuel st.rest else some (Node.null, st.rest)) =
      some (t, st'.rest) := by
  cases b with
  | true =>
    simp only [if_true] at h ⊢
    exact ih st st' t h hg
  | false =>
    simp only [Bool.false_eq_true, if_false, Except.ok.injEq, Prod.mk.injEq] at h ⊢
    rw [← h.2] at hg ⊢
    exact ⟨hg, by simp only [h.1, Option.some.injEq, Prod.mk.injEq, and_self]⟩

/-- A run that returns with the stream still good is a run in which every read
found its bytes. -/
theorem deserializeHelper_good (m : Machine) (fuel : Nat) (st st' : LoadState)
    (t : Node Str Str S) (h : Stream.deserializeHelper m fuel st = .ok (t, st'))
    (hg : st'.good = true) :
    st.good = true ∧ deserializeHelper fuel st.rest = some (t, st'.rest) := by
  induction fuel generalizing st st' t with
  | zero => simp [Stream.deserializeHelper] at h
  | succ fuel ih =>
    simp only [Stream.deserializeHelper] at h
    obtain ⟨⟨k, s1⟩, h1, h⟩ := bind_eq_ok h
    dsimp only at h
    obtain ⟨⟨d, s3⟩, h3, h⟩ := bind_eq_ok h
    dsimp only at h
    obtain ⟨⟨hl, s4⟩, h4, h⟩ := bind_eq_ok h
    dsimp only at h
    obtain ⟨⟨l, s5⟩, h5, h⟩ := bind_eq_ok h
    dsimp only at h
    obtain ⟨⟨hr, s6⟩, h6, h⟩ := bind_eq_ok h
    dsimp only at h
    obtain ⟨⟨rt, s7⟩, h7, h⟩ := bind_eq_ok h
    simp only [Except.ok.injEq, Prod.mk.injEq] at h
    rw [← h.2] at hg ⊢
    obtain ⟨g6, c7⟩ := child_good m fuel hr s6 s7 rt ih h7 hg
    obtain ⟨g5, c6⟩ := readBool_good m s5 s6 hr h6 g6
    obtain ⟨g4, c5⟩ := child_good m fuel hl s4 s5 l ih h5 g5
    obtain ⟨g3, c4⟩ := readBool_good m s3 s4 hl h4 g4
    obtain ⟨g2, c3⟩ := readDocScores_good m _ [] d _ s3 h3 g3
    obtain ⟨g1, c2⟩ := readSize_good m s1 g2
    obtain ⟨g0, c1⟩ := readString_good m st s1 k h1 g1
    refine ⟨g0, ?_⟩
    simp only [deserializeHelper, c1, Option.some_bind, c2, c3, c4, c5, c6, c7, h.1]

/-- On a proper prefix of what `serializeHelper` wrote, some read finds too few bytes:
a run that returns leaves the stream in the failed state. -/
theorem deserializeHelper_prefix_fails (m : Machine) (t : Node Str Str S)
    (hne : isNull t = false) (hh : HeightsOk t) (hp : PostingsOk t) (hf : SizesFit t)
    (p q : List Byte) (hs : serializeHelper t = p ++ q) (hq : q ≠ [])
    (hstack : p.length < m.stackDepth) (t' : Node Str Str S) (st' : LoadState)
    (h : Stream.deserializeHelper m m.stackDepth ⟨p, true, 0⟩ = .ok (t', st')) :
    st'.good = false := by
  cases hg : st'.good with
  | false => rfl
  | true =>
    exfalso
    obtain ⟨_, hc⟩ := deserializeHelper_good m _ _ st' t' h hg
    dsimp only at hc
    rw [deserializeHelper_fuel m.stackDepth (p.length + 1) p hstack (Nat.lt_succ_self _)] at hc
    have hd := deserialize_prefix t hne hh hp hf p q hs hq
    simp [deserialize, hc] at hd

/-- On the first 10 bytes of the serialization of `exampleIndex`, which end inside
the field `docCount`, what `deserialize` does depends on the indeterminate bytes:
with 255 in them the constructor of `std::string` throws, with 0 in them an index is
returned whose only key carries a posting that no file held. -/
theorem deserialize_depends_on_junk :
    (Stream.deserialize onesMachine ((serialize exampleIndex).take 10) :
        Except Crash (AVLTree Str Str (Fin (2 ^ 64)))) = .error .stringConstructor ∧
    (Stream.deserialize zeroMachine ((serialize exampleIndex).take 10) :
        Except Crash (AVLTree Str Str (Fin (2 ^ 64)))) =
      .ok ⟨.mk (str "b") [([], 0)] .null .null 1⟩ := by
  constructor
  · rfl
  · rfl

/-- C17 (as the code behaves): the serialization of `exampleIndex` has 111 bytes; on
its first 110 bytes, with 0 in the flag that no read assigns, `deserialize` reports
no error and returns the complete index. -/
theorem C17_truncated_file_gives_an_index :
    (serialize exampleIndex).length = 111 ∧
    Stream.deserialize zeroMachine ((serialize exampleIndex).take 110) = .ok exampleIndex := by
  constructor
  · decide
  · rfl

/-- C17, amended: `deserialize` does not detect a file that ends early.  On a proper
prefix of the serialization of a non-empty index built by inserts, some read finds too
few bytes, so that a run that returns a tree leaves the stream in the failed state,
which the code never tests; and when only the last byte is missing and the flags that
no read assigned hold 0, `deserialize` reports no error and returns the complete
index. -/
theorem C17_truncated_file_is_not_detected (ops : List (Str × Str × S))
    (t : AVLTree Str Str S) (m : Machine)
    (hb : (AVLTree.empty : AVLTree Str Str S).insertAll ops = some t)
    (hne : t.isEmpty = false) (hfit : SizesFit t.root)
    (hmax : (serialize t).length ≤ m.maxString)
    (hstack : (serialize t).length ≤ m.stackDepth) :
    (∀ p q : List Byte, serialize t = p ++ q → q ≠ [] →
      ∀ (t' : Node Str Str S) (st' : LoadState),
        Stream.deserializeHelper m m.stackDepth ⟨p, true, 0⟩ = .ok (t', st') →
        st'.good = false) ∧
    (serialize t).dropLast <+: serialize t ∧
    (serialize t).dropLast.length + 1 = (serialize t).length ∧
    ((∀ v, m.junk v 0 = 0) → Stream.deserialize m (serialize t).dropLast = .ok t) := by
  obtain ⟨t0, e0, hw⟩ := insertAll_wf ops (AVLTree.empty : AVLTree Str Str S) wf_null
  rw [hb] at e0
  cases e0
  have hne' : isNull t.root = false := hne
  have hpos : 0 < (serialize t).length :=
    List.length_pos.mpr (serializeHelper_ne_nil t.root hne')
  refine ⟨?_, List.dropLast_prefix _, ?_, ?_⟩
  · intro p q hs hq t' st' h
    have hl : p.length < (serialize t).length := by
      rw [hs, List.length_append]
      have := List.length_pos.mpr hq
      omega
    exact deserializeHelper_prefix_fails m t.root hne' hw.1.heightsOk hw.2.2 hfit p q hs hq
      (by omega) t' st' h
  · rw [List.length_dropLast]
    omega
  · intro hj
    obtain ⟨n', e⟩ := deserializeHelper_dropLast m hj t.root m.stackDepth 0 hne'
      hw.1.heightsOk hw.2.2 hfit
      (le_trans (realHeight_le_serialize t.root) hstack) hmax
    simp only [Stream.deserialize, serialize, e]
    rfl

/-- C17, amended, on `exampleIndex` and a run in which every indeterminate byte
is 0. -/
theorem C17_truncated_file_is_not_detected_witness :
    (AVLTree.empty : AVLTree Str Str (Fin (2 ^ 64))).insertAll exampleOps = some exampleIndex ∧
    (serialize exampleIndex).length ≤ zeroMachine.maxString ∧
    (serialize exampleIndex).length ≤ zeroMachine.stackDepth ∧
    (∀ (t' : Node Str Str (Fin (2 ^ 64))) (st' : LoadState),
      Stream.deserializeHelper zeroMachine zeroMachine.stackDepth
        ⟨(serialize exampleIndex).take 50, true, 0⟩ = .ok (t', st') → st'.good = false) ∧
    Stream.deserialize zeroMachine (serialize exampleIndex).dropLast = .ok exampleIndex :=
  have h := C17_truncated_file_is_not_detected exampleOps exampleIndex zeroMachine
    (by decide) (by decide) (by unfold SizesFit; decide) (by decide) (by decide)
  ⟨by decide, by decide, by decide,
    h.1 ((serialize exampleIndex).take 50) ((serialize exampleIndex).drop 50)
      (List.take_append_drop 50 _).symm (by decide),
    h.2.2.2 (fun _ => rfl)⟩

end AVLTree

/-! ## Term and exclusion clauses -/

namespace QueryProcessor

theorem classify_terms (lib : ThirdParty) (c : Clauses) (token : Str) :
    (classify lib c token).1 =
      c.1 ++ (if isTermToken token = true then [normalize lib token] else []) := by
  obtain ⟨terms, orgs, persons, exclusions⟩ := c
  by_cases ho : hasPrefix (str "ORG:") token = true
  · have ho' := (hasPrefix_org token).mp ho
    simp [classify, isTermToken, ho, ho']
  · have ho' : ¬ (token.length ≥ 5 ∧ token.take 4 = str "ORG:") :=
      fun h => ho ((hasPrefix_org token).mpr h)
    by_cases hp : hasPrefix (str "PERSON:") token = true
    · have hp' := (hasPrefix_person token).mp hp
      simp only [classify, if_neg ho', if_pos hp']
      simp [isTermToken, hp]
    · have hp' : ¬ (token.length ≥ 8 ∧ token.take 7 = str "PERSON:") :=
        fun h => hp ((hasPrefix_person token).mpr h)
      simp only [classify, if_neg ho', if_neg hp']
      by_cases hm : token.head? = some 45 ∧ token.length > 1
      · have hne : ¬ token.isEmpty = true := by
          cases token with
          | nil => simp at hm
          | cons b t => simp
        rw [if_pos ⟨hne, hm⟩]
        simp [isTermToken, ho, hp, hm.1, hm.2]
      · rw [if_neg (fun h => hm h.2)]
        have : (decide (token.head? = some 45) && decide (token.length > 1)) = false := by
          simpa using hm
        simp [isTermToken, ho, hp, this]

theorem classify_exclusions (lib : ThirdParty) (c : Clauses) (token : Str) :
    (classify lib c token).2.2.2 =
      c.2.2.2 ++
        (if isExclusionToken token = true then [normalize lib (token.drop 1)] else []) := by
  obtain ⟨terms, orgs, persons, exclusions⟩ := c
  by_cases ho : hasPrefix (str "ORG:") token = true
  · have ho' := (hasPrefix_org token).mp ho
    simp [classify, isExclusionToken, ho, ho']
  · have ho' : ¬ (token.length ≥ 5 ∧ token.take 4 = str "ORG:") :=
      fun h => ho ((hasPrefix_org token).mpr h)
    by_cases hp : hasPrefix (str "PERSON:") token = true
    · have hp' := (hasPrefix_person token).mp hp
      simp only [classify, if_neg ho', if_pos hp']
      simp [isExclusionToken, hp]
    · have hp' : ¬ (token.length ≥ 8 ∧ token.take 7 = str "PERSON:") :=
        fun h => hp ((hasPrefix_person token).mpr h)
      simp only [classify, if_neg ho', if_neg hp']
      by_cases hm : token.head? = some 45 ∧ token.length > 1
      · have hne : ¬ token.isEmpty = true := by
          cases token with
          | nil => simp at hm
          | cons b t => simp
        rw [if_pos ⟨hne, hm⟩]
        simp [isExclusionToken, ho, hp, hm.1, hm.2]
      · rw [if_neg (fun h => hm h.2)]
        have : (decide (token.head? = some 45) && decide (token.length > 1)) = false := by
          simpa using hm
        simp [isExclusionToken, ho, hp, this]

theorem foldl_classify_terms (lib : ThirdParty) (ts : List Str) (c : Clauses) :
    (ts.foldl (classify lib) c).1 = c.1 ++ (ts.filter isTermToken).map (normalize lib) := by
  induction ts generalizing c with
  | nil => simp
  | cons t ts ih =>
    simp only [List.foldl_cons, ih, classify_terms, List.filter_cons]
    split <;> simp

theorem foldl_classify_exclusions (lib : ThirdParty) (ts : List Str) (c : Clauses) :
    (ts.foldl (classify lib) c).2.2.2 =
      c.2.2.2 ++ (ts.filter isExclusionToken).map (fun t => normalize lib (t.drop 1)) := by
  induction ts generalizing c with
  | nil => simp
  | cons t ts ih =>
    simp only [List.foldl_cons, ih, classify_exclusions, List.filter_cons]
    split <;> simp

/-- The number of clauses after one token is one more than before. -/
theorem classify_count (lib : ThirdParty) (c : Clauses) (token : Str) :
    (classify lib c token).1.length + (classify lib c token).2.1.length +
      (classify lib c token).2.2.1.length + (classify lib c token).2.2.2.length =
    c.1.length + c.2.1.length + c.2.2.1.length + c.2.2.2.length + 1 := by
  obtain ⟨terms, orgs, persons, exclusions⟩ := c
  simp only [classify]
  split
  · simp only [List.length_append, List.length_singleton]; omega
  · split
    · simp only [List.length_append, List.length_singleton]; omega
    · split
      · simp only [List.length_append, List.length_singleton]; omega
      · simp only [List.length_append, List.length_singleton]; omega

theorem foldl_classify_count (lib : ThirdParty) (ts : List Str) (c : Clauses) :
    (ts.foldl (classify lib) c).1.length + (ts.foldl (classify lib) c).2.1.length +
      (ts.foldl (classify lib) c).2.2.1.length + (ts.foldl (classify lib) c).2.2.2.length =
    c.1.length + c.2.1.length + c.2.2.1.length + c.2.2.2.length + ts.length := by
  induction ts generalizing c with
  | nil => simp
  | cons t ts ih =>
    simp only [List.foldl_cons, ih, classify_count, List.length_cons]
    omega

/-- C21: the exclusion clauses of a query are its tokens that have none of the two
prefixed forms, begin with a minus sign and are longer than 1, each as
`stem(lowercase(token without the minus sign))`; the term clauses are the other
unprefixed tokens, among them the token "-", each as `stem(lowercase(token))`; and
the query has as many clauses as tokens. -/
theorem C21_terms_and_exclusions (lib : ThirdParty) (query : Str) :
    (parseQuery lib query).2.2.2 =
      ((tokens query).filter isExclusionToken).map
        (fun t => lib.stem ((t.drop 1).map toLower)) ∧
    (parseQuery lib query).1 =
      ((tokens query).filter isTermToken).map (fun t => lib.stem (t.map toLower)) ∧
    isTermToken (str "-") = true ∧
    parseQuery lib (str "-") = ([lib.stem (str "-")], [], [], []) ∧
    (parseQuery lib query).1.length + (parseQuery lib query).2.1.length +
      (parseQuery lib query).2.2.1.length + (parseQuery lib query).2.2.2.length =
      (tokens query).length := by
  refine ⟨?_, ?_, by decide, ?_, ?_⟩
  · simp [parseQuery, foldl_classify_exclusions, normalize]
  · simp [parseQuery, foldl_classify_terms, normalize]
  · have h1 : tokens (str "-") = [str "-"] := by decide
    have h2 : (str "-").map toLower = str "-" := by decide
    have h3 : str "-" = [45] := by decide
    simp only [parseQuery, h1, List.foldl_cons, List.foldl_nil]
    simp only [h3] at h2 ⊢
    simp [classify, normalize, h2, str_org, str_person]
  · have := foldl_classify_count lib (tokens query) ([], [], [], [])
    simpa [parseQuery] using this

end QueryProcessor

/-! ## Document frequency and metadata -/

namespace IndexHandler

variable {S : Type}

/-- C22: `getDocumentFrequency(term)` is the number of distinct document ids among the
entries of `searchWord(term)`, and these entries list no document twice. -/
theorem C22_document_frequency (ih : IndexHandler S) (hu : ih.PostingsUnique) (term : Str) :
    ih.getDocumentFrequency term = ((ih.searchWord term).map Prod.fst).dedup.length ∧
    ((ih.searchWord term).map Prod.fst).Nodup := by
  have hn : ((ih.searchWord term).map Prod.fst).Nodup := searchWord_nodup ih hu term
  refine ⟨?_, hn⟩
  rw [List.Nodup.dedup hn, List.length_map]
  rfl

/-- C22 on `entityCatalog` and the term "stock": two documents. -/
theorem C22_document_frequency_witness :
    entityCatalog.getDocumentFrequency (str "stock") = 2 ∧
    (entityCatalog.getDocumentFrequency (str "stock") =
      ((entityCatalog.searchWord (str "stock")).map Prod.fst).dedup.length ∧
    ((entityCatalog.searchWord (str "stock")).map Prod.fst).Nodup) :=
  ⟨by decide, C22_document_frequency entityCatalog
    (by unfold IndexHandler.PostingsUnique; decide) (str "stock")⟩

end IndexHandler

namespace QueryProcessor

variable {S : Type}

/-- C23: for a document id without stored metadata, `getDocumentMetadata` returns the
empty JSON object, and the result that `rankResults` builds for it has an empty
title, date and source and keeps the document id and the score of the map. -/
theorem C23_absent_metadata_defaults [LT S] [DecidableRel (fun a b : S => a < b)] (lib : ThirdParty)
    (ih : IndexHandler S) (d : Str)
    (hjson : ∀ f, lib.jsonString (str "\x7b\x7d") f = none)
    (hd : DocScores.find? ih.documentMetadata d = none) :
    ih.getDocumentMetadata d = str "\x7b\x7d" ∧
    (∀ s, makeResult lib ih (d, s) = ⟨d, s, [], [], []⟩) ∧
    (∀ m limit r, r ∈ rankResults lib ih m limit → r.docID = d →
      r.title = [] ∧ r.date = [] ∧ r.source = [] ∧ (d, r.score) ∈ m) := by
  have hg : ih.getDocumentMetadata d = str "\x7b\x7d" := by
    simp [IndexHandler.getDocumentMetadata, hd]
  have hm : ∀ s, makeResult lib ih (d, s) = ⟨d, s, [], [], []⟩ := by
    intro s
    simp [makeResult, hg, hjson]
  refine ⟨hg, hm, ?_⟩
  intro m limit r hr hrd
  rw [rankResults_eq_take] at hr
  have hr' := (stdSort_perm _ _).subset (List.mem_of_mem_take hr)
  obtain ⟨e, he, rfl⟩ := List.mem_map.mp hr'
  obtain ⟨d', s'⟩ := e
  have hd' : d' = d := hrd
  subst hd'
  rw [hm s']
  exact ⟨rfl, rfl, rfl, he⟩

/-- C23 on `entityCatalog`, which stores no metadata, and document d1. -/
theorem C23_absent_metadata_defaults_witness :
    DocScores.find? entityCatalog.documentMetadata (str "d1") = none ∧
    (entityCatalog.getDocumentMetadata (str "d1") = str "\x7b\x7d" ∧
    (∀ s, makeResult exampleLib entityCatalog (str "d1", s) = ⟨str "d1", s, [], [], []⟩) ∧
    (∀ m limit r, r ∈ rankResults exampleLib entityCatalog m limit → r.docID = str "d1" →
      r.title = [] ∧ r.date = [] ∧ r.source = [] ∧ (str "d1", r.score) ∈ m)) :=
  ⟨by decide, C23_absent_metadata_defaults exampleLib entityCatalog (str "d1")
    (fun _ => rfl) (by decide)⟩

end QueryProcessor

/-! ## Heights and the empty index in index files -/

namespace AVLTree

variable {S : Type} [ScoreBytes S]

omit [ScoreBytes S] in
theorem isNull_eraseHeights (t : Node Str Str S) : isNull (eraseHeights t) = isNull t := by
  cases t <;> rfl

/-- The bytes written do not depend on the height fields. -/
theorem serializeHelper_eraseHeights (t : Node Str Str S) :
    serializeHelper (eraseHeights t) = serializeHelper t := by
  induction t with
  | null => rfl
  | mk k p l r h ihl ihr =>
    simp only [eraseHeights, serializeHelper, isNull_eraseHeights, ihl, ihr]

omit [ScoreBytes S] in
theorem child_heightsOk {f : List Byte → Option (Node Str Str S × List Byte)} {b : Bool}
    {bs r : List Byte} {t : Node Str Str S}
    (hf : ∀ t' r', f bs = some (t', r') → HeightsOk t')
    (h : (if b = true then f bs else some (Node.null, bs)) = some (t, r)) :
    HeightsOk t := by
  split at h
  · exact hf t r h
  · simp only [Option.some.injEq, Prod.mk.injEq] at h
    rw [← h.1]
    trivial

/-- Every node that `deserializeHelper` returns is a node (never `nullptr`) whose
height fields are computed from its children. -/
theorem deserializeHelper_heightsOk (fuel : Nat) (bs : List Byte) {t : Node Str Str S}
    {r : List Byte} (h : deserializeHelper fuel bs = some (t, r)) :
    HeightsOk t ∧ isNull t = false := by
  induction fuel generalizing bs t r with
  | zero => simp [deserializeHelper] at h
  | succ fuel ih =>
    simp only [deserializeHelper] at h
    obtain ⟨⟨k, r1⟩, h1, h⟩ := Option.bind_eq_some.mp h
    obtain ⟨⟨c, r2⟩, h2, h⟩ := Option.bind_eq_some.mp h
    obtain ⟨⟨m, r3⟩, h3, h⟩ := Option.bind_eq_some.mp h
    obtain ⟨⟨hl, r4⟩, h4, h⟩ := Option.bind_eq_some.mp h
    obtain ⟨⟨l, r5⟩, h5, h⟩ := Option.bind_eq_some.mp h
    obtain ⟨⟨hr, r6⟩, h6, h⟩ := Option.bind_eq_some.mp h
    obtain ⟨⟨rt, r7⟩, h7, h⟩ := Option.bind_eq_some.mp h
    dsimp only at h2 h3 h4 h5 h6 h7 h
    simp only [Option.some.injEq, Prod.mk.injEq] at h
    have e5 := child_heightsOk (fun t' r' h' => (ih r4 h').1) h5
    have e7 := child_heightsOk (fun t' r' h' => (ih r6 h').1) h7
    rw [← h.1]
    exact ⟨⟨e5, e7, rfl⟩, rfl⟩

/-- C25: the bytes that `serialize` writes do not depend on any height field, and on
every input on which `deserialize` produces a tree, every node of the tree has the
height field `1 + max(height(left), height(right))` of its reconstructed children. -/
theorem C25_heights_recomputed_on_load :
    (∀ t : AVLTree Str Str S, serialize (⟨eraseHeights t.root⟩ : AVLTree Str Str S) =
      serialize t) ∧
    (∀ (bs : List Byte) (t : AVLTree Str Str S), deserialize bs = some t →
      HeightsOk t.root) := by
  refine ⟨fun t => serializeHelper_eraseHeights t.root, ?_⟩
  intro bs t h
  simp only [deserialize, Option.map_eq_some'] at h
  obtain ⟨⟨n, r⟩, h1, h2⟩ := h
  rw [← h2]
  exact (deserializeHelper_heightsOk _ bs h1).1

/-- C28 (as the code behaves): an empty index is written as zero bytes, but
`deserialize` of zero bytes does not yield an empty index: its first read comes up
short, and on no input at all does `deserialize` yield an empty index. -/
theorem C28_empty_file_is_not_read_as_empty_index :
    serialize (AVLTree.empty : AVLTree Str Str S) = [] ∧
    (deserialize [] : Option (AVLTree Str Str S)) = none ∧
    (∀ (bs : List Byte) (t : AVLTree Str Str S), deserialize bs = some t →
      t.isEmpty = false) := by
  refine ⟨rfl, rfl, ?_⟩
  intro bs t h
  simp only [deserialize, Option.map_eq_some'] at h
  obtain ⟨⟨n, r⟩, h1, h2⟩ := h
  rw [← h2]
  exact (deserializeHelper_heightsOk _ bs h1).2

/-- C30: for a non-empty tree with correct cached heights (unique document ids per
node, sizes that are `size_t` values), `deserialize` of the bytes of `serialize`
returns the same tree, with the same keys at the same positions, the same postings
and the same height fields, so with the same search-tree order and balance; and
`deserializeHelper` consumes exactly the bytes written, whatever follows them. -/
theorem C30_serialize_deserialize_identity (t : AVLTree Str Str S)
    (hne : t.isEmpty = false) (hh : HeightsOk t.root) (hp : PostingsOk t.root)
    (hf : SizesFit t.root) :
    deserialize (serialize t) = some t ∧
    (∀ t' : AVLTree Str Str S, deserialize (serialize t) = some t' →
      (IsBST t.root → IsBST t'.root) ∧ (Balanced t.root → Balanced t'.root)) ∧
    (∀ rest : List Byte,
      deserializeHelper ((serialize t ++ rest).length + 1) (serialize t ++ rest) =
        some (t.root, rest)) := by
  have hrt : ∀ rest : List Byte,
      deserializeHelper ((serialize t ++ rest).length + 1) (serialize t ++ rest) =
        some (t.root, rest) := by
    intro rest
    apply deserializeHelper_serializeHelper t.root _ rest hne hh hp hf
    simp only [List.length_append, serialize]
    have := realHeight_le_serialize t.root
    omega
  have hd : deserialize (serialize t) = some t := by
    have := hrt []
    simp only [List.append_nil] at this
    simp [deserialize, this]
  refine ⟨hd, ?_, hrt⟩
  intro t' ht'
  rw [hd] at ht'
  cases ht'
  exact ⟨id, id⟩

/-- C30 on `exampleIndex`. -/
theorem C30_serialize_deserialize_identity_witness :
    exampleIndex.isEmpty = false ∧ IsBST exampleIndex.root ∧
    (deserialize (serialize exampleIndex) = some exampleIndex ∧
    (∀ t' : AVLTree Str Str (Fin (2 ^ 64)), deserialize (serialize exampleIndex) = some t' →
      (IsBST exampleIndex.root → IsBST t'.root) ∧
      (Balanced exampleIndex.root → Balanced t'.root)) ∧
    (∀ rest : List Byte,
      deserializeHelper ((serialize exampleIndex ++ rest).length + 1)
        (serialize exampleIndex ++ rest) = some (exampleIndex.root, rest))) :=
  ⟨by decide, by simp only [exampleIndex, IsBST, keys, traverseInOrder]; decide,
    C30_serialize_deserialize_identity exampleIndex (by decide)
      (by simp only [exampleIndex, HeightsOk]; decide)
      (by unfold PostingsOk DocScores.Nodup DocScores.keys; decide)
      (by unfold SizesFit; decide)⟩

end AVLTree

/-! ## Other keys under insertion -/

namespace AVLTree

variable {K D S : Type} [LinearOrder K] [DecidableEq D]

/-- C29: on an index built by inserts, `insert(k, d, s)` succeeds and leaves
`search(k')` as it was for every key `k'` other than `k`, whether or not the insert
creates a node and rotates. -/
theorem C29_insert_keeps_other_keys (ops : List (K × D × S)) (t : AVLTree K D S)
    (k k' : K) (d : D) (s : S)
    (hb : (AVLTree.empty : AVLTree K D S).insertAll ops = some t) (hne : k' ≠ k) :
    ∃ t', t.insert k d s = some t' ∧ t'.search k' = t.search k' ∧
      ∀ e, e ∈ t'.search k' ↔ e ∈ t.search k' := by
  obtain ⟨t0, e0, hw⟩ := insertAll_wf ops (AVLTree.empty : AVLTree K D S) wf_null
  rw [hb] at e0
  cases e0
  obtain ⟨t', e, hw', ht⟩ := insert_wf t k d s hw
  have h1 := search_eq_postingsOf t'.root k' hw'.2.1
  have h2 := search_eq_postingsOf t.root k' hw.2.1
  rw [ht, postingsOf_insList_other k k' d s _ hne, ← h2] at h1
  have h3 : t'.search k' = t.search k' := h1
  exact ⟨t', e, h3, fun e => by rw [h3]⟩

/-- C29 on `chainIndex`: inserting the new key "c" rotates the root to the left and
leaves the postings of "a" as they were. -/
theorem C29_insert_keeps_other_keys_witness :
    (AVLTree.empty : AVLTree Str Str (Fin (2 ^ 64))).insertAll chainOps = some chainIndex ∧
    (chainIndex.insert (str "c") (str "d3") 3).map (fun t => keyOf t.root) =
      some (some (str "b")) ∧
    ∃ t', chainIndex.insert (str "c") (str "d3") 3 = some t' ∧
      t'.search (str "a") = chainIndex.search (str "a") ∧
      ∀ e, e ∈ t'.search (str "a") ↔ e ∈ chainIndex.search (str "a") :=
  ⟨by decide, by decide,
    C29_insert_keeps_other_keys chainOps chainIndex (str "c") (str "a") (str "d3") 3
      (by decide) (by decide)⟩

end AVLTree

/-! ## Ties in the ranking -/

namespace QueryProcessor

variable {S : Type}

end QueryProcessor

/-! ## A repeated term -/

namespace DocScores

variable {D S : Type} [DecidableEq D]

theorem set_append_of_not_mem (acc : List (D × S)) (d : D) (s : S) (h : d ∉ keys acc) :
    set acc d s = acc ++ [(d, s)] := by
  induction acc with
  | nil => rfl
  | cons x acc ih =>
    obtain ⟨d', s'⟩ := x
    simp only [keys, List.map_cons, List.mem_cons, not_or] at h
    have : ¬ d' = d := fun e => h.1 e.symm
    simp only [set, this, if_false, List.cons_append]
    rw [ih h.2]

theorem find?_of_mem (m : List (D × S)) (e : D × S) (hn : Nodup m) (he : e ∈ m) :
    find? m e.1 = some e.2 := by
  induction m with
  | nil => simp at he
  | cons x m ih =>
    obtain ⟨d', s'⟩ := x
    obtain ⟨hd, hn'⟩ := nodup_cons hn
    rcases List.mem_cons.mp he with rfl | he'
    · simp [find?]
    · have hne : ¬ d' = e.1 := by
        intro h
        exact hd (h ▸ List.mem_map_of_mem Prod.fst he')
      simp [find?, hne, ih hn' he']

theorem find?_mem (m : List (D × S)) (d : D) (s : S) (h : find? m d = some s) :
    (d, s) ∈ m := by
  induction m with
  | nil => simp [find?] at h
  | cons x m ih =>
    obtain ⟨d', s'⟩ := x
    simp only [find?] at h
    split at h
    · rename_i e
      simp only [Option.some.injEq] at h
      simp [e, h]
    · exact List.mem_cons_of_mem _ (ih h)

end DocScores

namespace QueryProcessor

variable {S : Type}

/-- Seeding the score map from results with unique document ids copies them. -/
theorem seedScores_fold (results acc : List (Str × S))
    (h : DocScores.Nodup (acc ++ results)) :
    results.foldl (fun m e => DocScores.set m e.1 e.2) acc = acc ++ results := by
  induction results generalizing acc with
  | nil => simp
  | cons x rest ih' =>
    obtain ⟨d, s⟩ := x
    have hd : d ∉ DocScores.keys acc := by
      intro hm
      simp only [DocScores.Nodup, DocScores.keys, List.map_append, List.map_cons] at h
      exact (List.nodup_append.mp h).2.2 hm (List.mem_cons_self _ _)
    simp only [List.foldl_cons, DocScores.set_append_of_not_mem acc d s hd]
    rw [ih' (acc ++ [(d, s)]) (by simpa using h)]
    simp

theorem seedScores_eq (results : List (Str × S)) (h : DocScores.Nodup results) :
    seedScores results = results := by
  simp only [seedScores]
  rw [seedScores_fold results [] (by simpa using h)]
  simp

/-- Intersecting results that have unique document ids with themselves adds every
score to itself. -/
theorem intersect_self_fold [Add S] (scores pre suf : List (Str × S))
    (hn : DocScores.Nodup scores) (hs : scores = pre ++ suf) :
    suf.foldl (fun temp e =>
        match DocScores.find? scores e.1 with
        | some v => DocScores.set temp e.1 (v + e.2)
        | none => temp) (pre.map (fun e => (e.1, e.2 + e.2))) =
      scores.map (fun e => (e.1, e.2 + e.2)) := by
  induction suf generalizing pre with
  | nil => simp [hs]
  | cons x rest ih' =>
    have hx : x ∈ scores := by simp [hs]
    have hf := DocScores.find?_of_mem scores x hn hx
    have hd : x.1 ∉ DocScores.keys (pre.map (fun e => (e.1, e.2 + e.2))) := by
      intro hm
      have hm' : x.1 ∈ pre.map Prod.fst := by
        simpa [DocScores.keys, List.map_map, Function.comp] using hm
      rw [hs] at hn
      simp only [DocScores.Nodup, DocScores.keys, List.map_append, List.map_cons] at hn
      exact (List.nodup_append.mp hn).2.2 hm' (List.mem_cons_self _ _)
    simp only [List.foldl_cons, hf, DocScores.set_append_of_not_mem _ _ _ hd]
    have := ih' (pre ++ [x]) (by simp [hs])
    simpa using this

theorem intersectScores_self [Add S] (scores : List (Str × S))
    (hn : DocScores.Nodup scores) :
    intersectScores scores scores = scores.map (fun e => (e.1, e.2 + e.2)) := by
  have := intersect_self_fold scores [] scores hn rfl
  simpa [intersectScores] using this

/-- The query made of a token, a space and the same token again has the token twice. -/
theorem tokens_repeated (t : Str) (hne : t ≠ []) (h : ∀ b ∈ t, isSpace b = false) :
    tokens (t ++ str " " ++ t) = [t, t] := by
  have e : str " " = [32] := by decide
  have hs : isSpace 32 = true := by decide
  have ht : t.isEmpty = false := by
    cases t with
    | nil => exact absurd rfl hne
    | cons b t => rfl
  simp only [tokens, e, List.append_assoc, List.cons_append, List.nil_append]
  rw [tokensFrom_append t _ [] h]
  have := tokensFrom_append t [] [] h
  simp only [List.append_nil, List.nil_append] at this
  rw [List.nil_append, tokensFrom.eq_2]
  simp only [hs, if_true, ht, Bool.false_eq_true, if_false]
  rw [this]
  simp [tokensFrom, ht]

theorem tokens_single (t : Str) (hne : t ≠ []) (h : ∀ b ∈ t, isSpace b = false) :
    tokens t = [t] := by
  have ht : t.isEmpty = false := by
    cases t with
    | nil => exact absurd rfl hne
    | cons b t => rfl
  have := tokensFrom_append t [] [] h
  simp only [List.append_nil, List.nil_append] at this
  simp [tokens, this, tokensFrom, ht]

/-- C26 (as the code behaves): on `entityCatalog` the query "stock stock" returns the
documents of the query "stock" with other scores, 1 and 0.6 in place of 0.5 and 0.3:
the repeated token counts twice. -/
theorem C26_repeated_token_counts_twice :
    (processQuery exampleLib entityCatalog (str "stock stock")).map
      (fun r => (r.docID, r.score)) = [(str "d1", 1), (str "d2", 0.6)] ∧
    (processQuery exampleLib entityCatalog (str "stock")).map
      (fun r => (r.docID, r.score)) = [(str "d1", 0.5), (str "d2", 0.3)] ∧
    parseQuery exampleLib (str "stock stock") = ([str "stock", str "stock"], [], [], []) := by
  decide!

/-- The entries of a map whose scores all go through `g`. -/
theorem find?_map_score (g : S → S) (m : List (Str × S)) (d : Str) :
    DocScores.find? (m.map (fun e => (e.1, g e.2))) d = (DocScores.find? m d).map g := by
  induction m with
  | nil => rfl
  | cons x m ih' =>
    obtain ⟨d', s'⟩ := x
    simp only [List.map_cons, DocScores.find?]
    split
    · rfl
    · exact ih'

/-- A score map with at most `limit` entries is returned whole, in some order. -/
theorem rankResults_perm_of_le [LT S] [DecidableRel (fun a b : S => a < b)]
    (lib : ThirdParty) (ih : IndexHandler S) (m : List (Str × S)) (limit : Nat)
    (h : m.length ≤ limit) :
    (rankResults lib ih m limit).Perm (m.map (makeResult lib ih)) := by
  have hp := stdSort_perm (fun a b : QueryResult S => decide (a.score > b.score))
    (m.map (makeResult lib ih))
  rw [rankResults_eq_take, List.take_of_length_le]
  · exact hp
  · rw [hp.length_eq, List.length_map]
    exact h

/-- C26, amended: `parseQuery` keeps a repeated token as two clauses; for a term
token `t`, the score map that the query "t t" hands to ranking has the documents of
the score map of the query "t", each with its score added to itself; and when at most
15 documents match, "t t" returns the documents that "t" returns, each with its score
added to itself. -/
theorem C26_repeated_term_doubles_scores [LT S] [DecidableRel (fun a b : S => a < b)]
    [Add S] [Mul S] [OfScientific S]
    (lib : ThirdParty) (ih : IndexHandler S) (t : Str) (hne : t ≠ [])
    (hsp : ∀ b ∈ t, isSpace b = false)
    (hterm : classify lib ([], [], [], []) t = ([normalize lib t], [], [], []))
    (hu : ih.PostingsUnique) :
    parseQuery lib (t ++ str " " ++ t) = ([normalize lib t, normalize lib t], [], [], []) ∧
    (∀ d, DocScores.find? (queryScores lib ih (t ++ str " " ++ t)) d =
      (DocScores.find? (queryScores lib ih t) d).map (fun s => s + s)) ∧
    ((queryScores lib ih t).length ≤ 15 →
      (processQuery lib ih (t ++ str " " ++ t)).Perm
        ((processQuery lib ih t).map doubled)) := by
  have hc2 : classify lib ([normalize lib t], [], [], []) t =
      ([normalize lib t, normalize lib t], [], [], []) := by
    have h1 := classify_terms lib ([normalize lib t], [], [], []) t
    have h2 := classify_orgs lib ([normalize lib t], [], [], []) t
    have h3 := classify_persons lib ([normalize lib t], [], [], []) t
    have h4 := classify_exclusions lib ([normalize lib t], [], [], []) t
    have g1 := classify_terms lib ([], [], [], []) t
    have g2 := classify_orgs lib ([], [], [], []) t
    have g3 := classify_persons lib ([], [], [], []) t
    have g4 := classify_exclusions lib ([], [], [], []) t
    rw [hterm] at g1 g2 g3 g4
    simp only [List.nil_append] at g1 g2 g3 g4
    rw [← g1] at h1
    rw [← g2] at h2
    rw [← g3] at h3
    rw [← g4] at h4
    apply Prod.ext
    · simpa using h1
    · apply Prod.ext
      · simpa using h2
      · apply Prod.ext
        · simpa using h3
        · simpa using h4
  have hp2 : parseQuery lib (t ++ str " " ++ t) =
      ([normalize lib t, normalize lib t], [], [], []) := by
    simp only [parseQuery, tokens_repeated t hne hsp, List.foldl_cons, List.foldl_nil, hterm,
      hc2]
  have hp1 : parseQuery lib t = ([normalize lib t], [], [], []) := by
    simp only [parseQuery, tokens_single t hne hsp, List.foldl_cons, List.foldl_nil, hterm]
  have hn := IndexHandler.searchWord_nodup ih hu (normalize lib t)
  have hq2 : queryScores lib ih (t ++ str " " ++ t) =
      (ih.searchWord (normalize lib t)).map (fun e => (e.1, e.2 + e.2)) := by
    simp only [queryScores, hp2, clauseScores_terms_only, termScores, List.foldl_cons,
      List.foldl_nil, seedScores_eq _ hn, intersectScores_self _ hn]
  have hq1 : queryScores lib ih t = ih.searchWord (normalize lib t) := by
    simp only [queryScores, hp1, clauseScores_terms_only, termScores, List.foldl_nil,
      seedScores_eq _ hn]
  refine ⟨hp2, fun d => ?_, fun hle => ?_⟩
  · rw [hq1, hq2]
    exact find?_map_score (fun s => s + s) _ d
  · have h1 := rankResults_perm_of_le lib ih (queryScores lib ih t) 15 hle
    have h2 := rankResults_perm_of_le lib ih (queryScores lib ih (t ++ str " " ++ t)) 15
      (by rw [hq2, List.length_map, ← hq1]; exact hle)
    simp only [processQuery]
    refine h2.trans (List.Perm.trans ?_ (h1.map doubled).symm)
    rw [hq2, hq1, List.map_map, List.map_map]
    exact List.Perm.of_eq rfl

/-- C26, amended, on `entityCatalog` and the token "stock". -/
theorem C26_repeated_term_doubles_scores_witness :
    (processQuery exampleLib entityCatalog (str "stock")).map (fun r => r.docID) =
      [str "d1", str "d2"] ∧
    (queryScores exampleLib entityCatalog (str "stock")).length ≤ 15 ∧
    (parseQuery exampleLib (str "stock" ++ str " " ++ str "stock") =
      ([normalize exampleLib (str "stock"), normalize exampleLib (str "stock")], [], [], []) ∧
    (∀ d, DocScores.find? (queryScores exampleLib entityCatalog
        (str "stock" ++ str " " ++ str "stock")) d =
      (DocScores.find? (queryScores exampleLib entityCatalog (str "stock")) d).map
        (fun s => s + s)) ∧
    (processQuery exampleLib entityCatalog (str "stock" ++ str " " ++ str "stock")).Perm
      ((processQuery exampleLib entityCatalog (str "stock")).map doubled)) :=
  have h := C26_repeated_term_doubles_scores exampleLib entityCatalog (str "stock")
    (by decide) (by decide!) (by decide!) (by unfold IndexHandler.PostingsUnique; decide)
  ⟨by decide!, by decide!, h.1, h.2.1, h.2.2 (by decide!)⟩

end QueryProcessor

/-! ## The metadata file -/

namespace IndexHandler

variable {S : Type}

/-- The text that `saveIndices` writes for a document id. -/
theorem metaText_length (md : List (Str × Str)) (d : Str)
    (hf : ∀ e ∈ md, e.2.length < 2 ^ 64) :
    (match DocScores.find? md d with
      | some m => m
      | none => str "\x7b\x7d").length < 2 ^ 64 := by
  cases h : DocScores.find? md d with
  | none => decide
  | some m => exact hf (d, m) (DocScores.find?_mem md d m h)

/-- Reading back the records that `saveIndices` wrote for document ids that are
pairwise distinct. -/
theorem readMetaRecords_write (md : List (Str × Str)) (ids acc : List Str)
    (accm : List (Str × Str)) (rest : List Byte) (hn : (acc ++ ids).Nodup)
    (hk : DocScores.keys accm = acc) (hf1 : ∀ d ∈ ids, d.length < 2 ^ 64)
    (hf2 : ∀ e ∈ md, e.2.length < 2 ^ 64) :
    readMetaRecords ids.length acc accm (writeMetaRecords md ids ++ rest) =
      some ((acc ++ ids, accm ++ ids.map (fun d =>
        (d, match DocScores.find? md d with
          | some m => m
          | none => str "\x7b\x7d"))), rest) := by
  induction ids generalizing acc accm with
  | nil => simp [readMetaRecords, writeMetaRecords]
  | cons d ids ih =>
    have hd : d ∉ acc := fun hm =>
      (List.nodup_append.mp hn).2.2 hm (List.mem_cons_self _ _)
    have hd' : d ∉ DocScores.keys accm := by rw [hk]; exact hd
    simp only [List.length_cons, readMetaRecords, writeMetaRecords, List.append_assoc,
      readString_writeString _ _ (hf1 d (List.mem_cons_self _ _)), Option.some_bind,
      readString_writeString _ _ (metaText_length md d hf2), if_neg hd,
      DocScores.set_append_of_not_mem accm d _ hd']
    rw [ih (acc ++ [d]) _ (by simpa using hn)
      (by rw [← hk]; simp [DocScores.keys])
      (fun x hx => hf1 x (List.mem_cons_of_mem _ hx))]
    simp

theorem find?_map_meta (f : Str → Str) (ids : List Str) (d : Str) (h : d ∈ ids) :
    DocScores.find? (ids.map (fun x => (x, f x))) d = some (f d) := by
  induction ids with
  | nil => simp at h
  | cons x ids ih =>
    by_cases hx : x = d
    · simp [DocScores.find?, hx]
    · have : d ∈ ids := by
        rcases List.mem_cons.mp h with h | h
        · exact absurd h.symm hx
        · exact h
      simp [DocScores.find?, hx, ih this]

/-- C24 (as the code behaves): in `savedCatalog` document d2 has metadata without
being registered; after `saveIndices` and `loadIndices` its metadata is the empty
JSON object, not the stored text.  And a catalog with an empty person index is not
read back at all. -/
theorem C24_unregistered_metadata_not_restored :
    savedCatalog.getDocumentMetadata (str "d2") = str "m2" ∧
    (loadIndices (saveIndices savedCatalog) : Option (IndexHandler (Fin (2 ^ 64)))).map
      (fun ih => ih.getDocumentMetadata (str "d2")) = some (str "\x7b\x7d") ∧
    (loadIndices (saveIndices { savedCatalog with personIndex := AVLTree.empty }) :
      Option (IndexHandler (Fin (2 ^ 64)))).isNone = true := by
  decide

/-- C24, amended: for a catalog whose three indices can be stored (non-empty, correct
heights, unique document ids, `size_t` sizes), `loadIndices` after `saveIndices`
succeeds and restores the three indices, the number and the set of known document
ids, and `getDocumentMetadata(d)` for every registered document id `d`. -/
theorem C24_registered_documents_restored [ScoreBytes S] (ih : IndexHandler S)
    (hw : ih.wordIndex.Storable) (ho : ih.organizationIndex.Storable)
    (hp : ih.personIndex.Storable) (hn : ih.documentIDs.Nodup) (hs : ih.MetaSizesFit) :
    ∃ ih' : IndexHandler S, loadIndices (saveIndices ih) = some ih' ∧
      ih'.getTotalDocuments = ih.getTotalDocuments ∧
      ih'.documentIDs = ih.documentIDs ∧
      (∀ d ∈ ih.documentIDs, ih'.getDocumentMetadata d = ih.getDocumentMetadata d) ∧
      ih'.wordIndex = ih.wordIndex ∧ ih'.organizationIndex = ih.organizationIndex ∧
      ih'.personIndex = ih.personIndex := by
  have hd : ∀ t : AVLTree Str Str S, t.Storable →
      AVLTree.deserialize (AVLTree.serialize t) = some t := by
    intro t ht
    have := AVLTree.deserializeHelper_serializeHelper t.root
      ((AVLTree.serialize t).length + 1) [] ht.1 ht.2.1 ht.2.2.1 ht.2.2.2
      (Nat.le_succ_of_le (AVLTree.realHeight_le_serialize t.root))
    simp only [List.append_nil] at this
    simp only [AVLTree.serialize] at this ⊢
    simp [AVLTree.deserialize, this]
  have hm := readMetaRecords_write ih.documentMetadata ih.documentIDs [] [] []
    (by simpa using hn) rfl hs.2.1 hs.2.2
  simp only [List.append_nil, List.nil_append] at hm
  refine ⟨{ wordIndex := ih.wordIndex
            organizationIndex := ih.organizationIndex
            personIndex := ih.personIndex
            documentIDs := ih.documentIDs
            documentMetadata := ih.documentIDs.map (fun d =>
              (d, match DocScores.find? ih.documentMetadata d with
                | some m => m
                | none => str "\x7b\x7d")) }, ?_, ?_, ?_, ?_, ?_, ?_, ?_⟩
  · simp only [loadIndices, saveIndices, hd _ hw, hd _ ho, hd _ hp, Option.some_bind,
      readSize_writeSize _ _ hs.1, hm, Option.map_some']
  · rfl
  · rfl
  · intro d hd'
    simp only [getDocumentMetadata]
    rw [find?_map_meta _ _ d hd']
  · rfl
  · rfl
  · rfl

/-- C24, amended, on `savedCatalog` and its registered document d1. -/
theorem C24_registered_documents_restored_witness :
    str "d1" ∈ savedCatalog.documentIDs ∧
    savedCatalog.getDocumentMetadata (str "d1") = str "m1" ∧
    ∃ ih' : IndexHandler (Fin (2 ^ 64)), loadIndices (saveIndices savedCatalog) = some ih' ∧
      ih'.getTotalDocuments = savedCatalog.getTotalDocuments ∧
      ih'.documentIDs = savedCatalog.documentIDs ∧
      (∀ d ∈ savedCatalog.documentIDs,
        ih'.getDocumentMetadata d = savedCatalog.getDocumentMetadata d) ∧
      ih'.wordIndex = savedCatalog.wordIndex ∧
      ih'.organizationIndex = savedCatalog.organizationIndex ∧
      ih'.personIndex = savedCatalog.personIndex :=
  ⟨by decide, by decide,
    C24_registered_documents_restored savedCatalog
      ⟨by decide, by simp only [savedCatalog, exampleIndex, AVLTree.HeightsOk]; decide,
        by unfold AVLTree.PostingsOk DocScores.Nodup DocScores.keys; decide,
        by unfold AVLTree.SizesFit; decide⟩
      ⟨by decide, by simp only [savedCatalog, chainIndex, AVLTree.HeightsOk]; decide,
        by unfold AVLTree.PostingsOk DocScores.Nodup DocScores.keys; decide,
        by unfold AVLTree.SizesFit; decide⟩
      ⟨by decide, by simp only [savedCatalog, chainIndex, AVLTree.HeightsOk]; decide,
        by unfold AVLTree.PostingsOk DocScores.Nodup DocScores.keys; decide,
        by unfold AVLTree.SizesFit; decide⟩
      (by decide) (by unfold IndexHandler.MetaSizesFit; decide)⟩

end IndexHandler

/-! ## Single rotations -/

namespace AVLTree

variable {K D S : Type}

/-- C34: for a node `y` with a non-empty left child `x`, where the three subtrees
that the rotation re-hangs carry correct cached heights, `rotateRight(y)` returns
`x` on top of `y`, with the same in-order sequence of (key, postings) as before and
with both rotated height fields equal to `1 + max` of the heights of their new
children, so that every cached height of the result is correct; the same holds for
`rotateLeft` on a node `x` with a non-empty right child `y`. -/
theorem C34_rotations_keep_sequence_and_heights (xk yk : K) (xd yd : List (D × S))
    (a b c : Node K D S) (xh yh : Int)
    (ha : HeightsOk a) (hb : HeightsOk b) (hc : HeightsOk c) :
    (∃ hx hy : Int,
      rotateRight (.mk yk yd (.mk xk xd a b xh) c yh)
        = some (.mk xk xd a (.mk yk yd b c hy) hx) ∧
      hy = 1 + max (height b) (height c) ∧
      hx = 1 + max (height a) (height (Node.mk yk yd b c hy)) ∧
      traverseInOrder (Node.mk xk xd a (.mk yk yd b c hy) hx)
        = traverseInOrder (Node.mk yk yd (.mk xk xd a b xh) c yh) ∧
      HeightsOk (Node.mk xk xd a (.mk yk yd b c hy) hx)) ∧
    (∃ hx hy : Int,
      rotateLeft (.mk xk xd a (.mk yk yd b c yh) xh)
        = some (.mk yk yd (.mk xk xd a b hx) c hy) ∧
      hx = 1 + max (height a) (height b) ∧
      hy = 1 + max (height (Node.mk xk xd a b hx)) (height c) ∧
      traverseInOrder (Node.mk yk yd (.mk xk xd a b hx) c hy)
        = traverseInOrder (Node.mk xk xd a (.mk yk yd b c yh) xh) ∧
      HeightsOk (Node.mk yk yd (.mk xk xd a b hx) c hy)) := by
  constructor
  · refine ⟨max (height a) (max (height b) (height c) + 1) + 1,
      max (height b) (height c) + 1, ?_, ?_, ?_, ?_, ?_⟩
    · simp only [rotateRight, height_mk]
    · omega
    · simp only [height_mk]; omega
    · exact rotateRight_traverse (t := .mk yk yd (.mk xk xd a b xh) c yh)
        (by simp only [rotateRight, height_mk])
    · refine ⟨ha, ⟨hb, hc, ?_⟩, ?_⟩
      · omega
      · simp only [height_mk]; omega
  · refine ⟨max (height a) (height b) + 1,
      max (max (height a) (height b) + 1) (height c) + 1, ?_, ?_, ?_, ?_, ?_⟩
    · simp only [rotateLeft, height_mk]
    · omega
    · simp only [height_mk]; omega
    · exact rotateLeft_traverse (t := .mk xk xd a (.mk yk yd b c yh) xh)
        (by simp only [rotateLeft, height_mk])
    · refine ⟨⟨ha, hb, ?_⟩, hc, ?_⟩
      · omega
      · simp only [height_mk]; omega

/-- C34 on the root of `exampleIndex`, which has both children: it can be rotated to
the right and to the left. -/
theorem C34_rotations_keep_sequence_and_heights_witness :
    (∃ t, rotateRight exampleIndex.root = some t ∧
      traverseInOrder t = traverseInOrder exampleIndex.root ∧ HeightsOk t) ∧
    (∃ t, rotateLeft exampleIndex.root = some t ∧
      traverseInOrder t = traverseInOrder exampleIndex.root ∧ HeightsOk t) := by
  constructor
  · obtain ⟨hx, hy, e, _, _, ht, ho⟩ :=
      (C34_rotations_keep_sequence_and_heights (str "a") (str "b")
        [(str "d2", (3 : Fin (2 ^ 64))), (str "d1", 6)] [(str "d1", 5)]
        .null .null (.mk (str "c") [] .null .null 1) 1 2
        trivial trivial ⟨trivial, trivial, by decide⟩).1
    exact ⟨_, e, ht, ho⟩
  · obtain ⟨hx, hy, e, _, _, ht, ho⟩ :=
      (C34_rotations_keep_sequence_and_heights (str "b") (str "c")
        [(str "d1", (5 : Fin (2 ^ 64)))] []
        (.mk (str "a") [(str "d2", 3), (str "d1", 6)] .null .null 1) .null .null 2 1
        ⟨trivial, trivial, by decide⟩ trivial trivial).2
    exact ⟨_, e, ht, ho⟩

/-! ## The size of a balanced tree -/

/-- A balanced tree of true height `h` has at least `Fib(h + 2) - 1` nodes. -/
theorem fib_le_size {t : Node K D S} (h : Balanced t) :
    Nat.fib (realHeight t + 2) ≤ size t + 1 := by
  induction t with
  | null => simp [realHeight, size]
  | mk k p l r hh ihl ihr =>
    obtain ⟨hl, hr, hb⟩ := h
    have h1 := ihl hl
    have h2 := ihr hr
    simp only [realHeight, size]
    rw [abs_le] at hb
    rcases le_total (realHeight l) (realHeight r) with hle | hle
    · rw [max_eq_right hle]
      have e : 1 + realHeight r + 2 = (realHeight r + 1) + 2 := by omega
      have hm : Nat.fib (realHeight r + 1) ≤ Nat.fib (realHeight l + 2) :=
        Nat.fib_mono (by omega)
      have e2 : Nat.fib (realHeight r + 1 + 1) = Nat.fib (realHeight r + 2) := rfl
      rw [e, Nat.fib_add_two]
      omega
    · rw [max_eq_left hle]
      have e : 1 + realHeight l + 2 = (realHeight l + 1) + 2 := by omega
      have hm : Nat.fib (realHeight l + 1) ≤ Nat.fib (realHeight r + 2) :=
        Nat.fib_mono (by omega)
      have e2 : Nat.fib (realHeight l + 1 + 1) = Nat.fib (realHeight l + 2) := rfl
      rw [e, Nat.fib_add_two]
      omega

/-- The Fibonacci numbers at least double every two steps. -/
theorem two_pow_le_fib (n : Nat) : 2 ^ (n / 2) ≤ Nat.fib (n + 2) := by
  induction n using Nat.strong_induction_on with
  | _ n ih =>
    match n, ih with
    | 0, _ => decide
    | 1, _ => decide
    | m + 2, ih =>
      have h := ih m (by omega)
      have e : (m + 2) / 2 = m / 2 + 1 := by omega
      have hm : Nat.fib (m + 2) ≤ Nat.fib (m + 2 + 1) := Nat.fib_le_fib_succ
      rw [e, pow_succ, Nat.fib_add_two]
      omega

/-- C32: every index built by a sequence of inserts from the empty index has, for
its height `h` (cached at the root, and equal to the true height) and its number of
nodes `n`, `n ≥ Fib(h + 2) - 1` with `Fib(1) = Fib(2) = 1`; hence `2 ^ (h / 2) ≤ n + 1`,
a logarithmic bound on the depth that the recursive insert and search reach. -/
theorem C32_fibonacci_size_bound [LinearOrder K] [DecidableEq D]
    (ops : List (K × D × S)) :
    Nat.fib 1 = 1 ∧ Nat.fib 2 = 1 ∧
    ∃ t, (AVLTree.empty : AVLTree K D S).insertAll ops = some t ∧
      height t.root = (realHeight t.root : Int) ∧
      Nat.fib (realHeight t.root + 2) - 1 ≤ size t.root ∧
      2 ^ (realHeight t.root / 2) ≤ size t.root + 1 := by
  obtain ⟨t, e, hw⟩ := insertAll_wf ops (AVLTree.empty : AVLTree K D S) wf_null
  have hf := fib_le_size hw.1.balanced
  have hp := two_pow_le_fib (realHeight t.root)
  exact ⟨by decide, by decide, t, e, height_eq_realHeight hw.1, by omega, by omega⟩

end AVLTree

/-! ## Unique document ids in the score map and in the results -/

namespace DocScores

variable {D S : Type} [DecidableEq D]

theorem keys_erase_sublist (m : List (D × S)) (d : D) :
    (keys (erase m d)).Sublist (keys m) := by
  induction m with
  | nil => simp [erase, keys]
  | cons x m ih =>
    obtain ⟨d', s'⟩ := x
    simp only [erase]
    by_cases h : d' = d
    · rw [if_pos h]
      exact ih.trans (List.sublist_cons_self _ _)
    · rw [if_neg h]
      exact ih.cons₂ _

theorem erase_nodup (m : List (D × S)) (d : D) (h : Nodup m) : Nodup (erase m d) :=
  List.Nodup.sublist (keys_erase_sublist m d) h

omit [DecidableEq D] in
/-- A loop whose body keeps the keys unique keeps them unique. -/
theorem foldl_nodup {E : Type} (step : List (D × S) → E → List (D × S))
    (hs : ∀ m e, Nodup m → Nodup (step m e)) (l : List E) (acc : List (D × S))
    (h : Nodup acc) : Nodup (l.foldl step acc) := by
  induction l generalizing acc with
  | nil => exact h
  | cons e l ih => exact ih _ (hs acc e h)

omit [DecidableEq D] in
theorem nodup_nil : Nodup ([] : List (D × S)) := List.nodup_nil

end DocScores

namespace QueryProcessor

variable {S : Type}

theorem seedScores_nodup (results : List (Str × S)) : DocScores.Nodup (seedScores results) :=
  DocScores.foldl_nodup _ (fun m e h => DocScores.set_nodup m e.1 e.2 h) _ _
    DocScores.nodup_nil

theorem intersectScores_nodup [Add S] (scores results : List (Str × S)) :
    DocScores.Nodup (intersectScores scores results) := by
  refine DocScores.foldl_nodup _ (fun m e h => ?_) _ _ DocScores.nodup_nil
  cases DocScores.find? scores e.1 with
  | none => exact h
  | some v => exact DocScores.set_nodup m e.1 _ h

theorem termScores_nodup [Add S] (ih : IndexHandler S) (terms : List Str) :
    DocScores.Nodup (termScores ih terms) := by
  cases terms with
  | nil => exact DocScores.nodup_nil
  | cons t rest =>
    simp only [termScores]
    exact DocScores.foldl_nodup _ (fun m e _ => intersectScores_nodup m _) _ _
      (seedScores_nodup _)

theorem addBoosted_nodup [Add S] [Mul S] [OfScientific S] (scores results : List (Str × S))
    (h : DocScores.Nodup scores) : DocScores.Nodup (addBoosted scores results) := by
  refine DocScores.foldl_nodup _ (fun m e hm => ?_) _ _ h
  cases DocScores.find? m e.1 with
  | none => exact DocScores.set_nodup m e.1 _ hm
  | some v => exact DocScores.set_nodup m e.1 _ hm

theorem applyExclusions_nodup (ih : IndexHandler S) (res : List (Str × S))
    (exclusions : List Str) (h : DocScores.Nodup res) :
    DocScores.Nodup (applyExclusions ih res exclusions) :=
  DocScores.foldl_nodup _
    (fun _ _ hm => DocScores.foldl_nodup _ (fun m' e hm' => DocScores.erase_nodup m' e.1 hm')
      _ _ hm) _ _ h

/-- The score map handed to `rankResults` has unique document ids, for every
catalog and every list of clauses. -/
theorem clauseScores_nodup [Add S] [Mul S] [OfScientific S] (ih : IndexHandler S)
    (c : Clauses) : DocScores.Nodup (clauseScores ih c) := by
  obtain ⟨terms, orgs, persons, exclusions⟩ := c
  simp only [clauseScores]
  refine applyExclusions_nodup ih _ _ ?_
  refine DocScores.foldl_nodup _ (fun m p hm => addBoosted_nodup m _ hm) _ _ ?_
  refine DocScores.foldl_nodup _ (fun m p hm => addBoosted_nodup m _ hm) _ _ ?_
  exact termScores_nodup ih terms

/-- The results of `rankResults` on a map with unique document ids have pairwise
distinct document ids. -/
theorem rankResults_docIDs_nodup [LT S] [DecidableRel (fun a b : S => a < b)] (lib : ThirdParty) (ih : IndexHandler S)
    (m : List (Str × S)) (limit : Nat) (h : DocScores.Nodup m) :
    ((rankResults lib ih m limit).map QueryResult.docID).Nodup := by
  rw [rankResults_eq_take, List.map_take]
  refine List.Nodup.sublist (List.take_sublist _ _) ?_
  refine (List.Perm.nodup_iff ((stdSort_perm _ _).map QueryResult.docID)).mpr ?_
  rw [List.map_map]
  exact h

/-- C33: for every catalog and every query, the document ids in the list returned
by `processQuery` are pairwise distinct, and the score of each result is the entry
of its document in the final score map. -/
theorem C33_results_distinct_with_map_scores [LT S] [DecidableRel (fun a b : S => a < b)] [Add S] [Mul S]
    [OfScientific S] (lib : ThirdParty) (ih : IndexHandler S) (query : Str) :
    ((processQuery lib ih query).map QueryResult.docID).Pairwise (fun a b => a ≠ b) ∧
    ∀ r ∈ processQuery lib ih query,
      DocScores.find? (queryScores lib ih query) r.docID = some r.score := by
  have hn : DocScores.Nodup (queryScores lib ih query) := clauseScores_nodup ih _
  refine ⟨rankResults_docIDs_nodup lib ih _ 15 hn, fun r hr => ?_⟩
  exact DocScores.find?_of_mem _ (r.docID, r.score) hn (rankResults_mem lib ih _ 15 r hr)

end QueryProcessor

/-! ## The order of the tokens of a query -/

namespace QueryProcessor

variable {S : Type}

/-- The entries of the score map built from the clauses, document by document. -/
theorem find?_clauseScores [Add S] [Mul S] [OfScientific S] (ih : IndexHandler S)
    (c : Clauses) (d : Str) (hu : ih.PostingsUnique) :
    DocScores.find? (clauseScores ih c) d = finalScore ih d c := by
  obtain ⟨terms, orgs, persons, exclusions⟩ := c
  simp only [clauseScores, finalScore]
  by_cases hex : ∃ x ∈ exclusions, d ∈ DocScores.keys (ih.searchWord x)
  · rw [find?_applyExclusions_none ih _ exclusions d (Or.inr hex)]
    obtain ⟨x, hx, hd⟩ := hex
    rw [if_pos (List.any_eq_true.mpr ⟨x, hx, decide_eq_true hd⟩)]
  · have hno : ¬ (exclusions.any
        (fun x => decide (d ∈ DocScores.keys (ih.searchWord x))) = true) := by
      intro h
      obtain ⟨x, hx, hd⟩ := List.any_eq_true.mp h
      exact hex ⟨x, hx, of_decide_eq_true hd⟩
    rw [if_neg hno,
      find?_applyExclusions_keep ih _ exclusions d (fun x hx hd => hex ⟨x, hx, hd⟩),
      find?_addBoosted_fold ih.searchPerson (IndexHandler.searchPerson_nodup ih hu),
      find?_addBoosted_fold ih.searchOrganization (IndexHandler.searchOrganization_nodup ih hu),
      find?_termScores ih terms d (IndexHandler.searchWord_nodup ih hu)]

/-- Permuting the tokens of a query permutes each of its four clause lists. -/
theorem parseQuery_perm (lib : ThirdParty) (q1 q2 : Str)
    (hp : (tokens q1).Perm (tokens q2)) :
    (parseQuery lib q1).1.Perm (parseQuery lib q2).1 ∧
    (parseQuery lib q1).2.1.Perm (parseQuery lib q2).2.1 ∧
    (parseQuery lib q1).2.2.1.Perm (parseQuery lib q2).2.2.1 ∧
    (parseQuery lib q1).2.2.2.Perm (parseQuery lib q2).2.2.2 := by
  simp only [parseQuery, foldl_classify_terms, foldl_classify_orgs, foldl_classify_persons,
    foldl_classify_exclusions, List.nil_append]
  exact ⟨(hp.filter _).map _, (hp.filter _).map _, (hp.filter _).map _, (hp.filter _).map _⟩

/-- With commutative and associative addition, the AND score of a document does not
depend on the order of the terms. -/
theorem andScore_perm [Add S] (ih : IndexHandler S) (d : Str)
    (hc : ∀ a b : S, a + b = b + a) (ha : ∀ a b c : S, a + b + c = a + (b + c))
    {l1 l2 : List Str} (p : l1.Perm l2) : andScore ih d l1 = andScore ih d l2 := by
  induction p with
  | nil => rfl
  | cons x p _ =>
    simp only [andScore]
    refine List.Perm.foldl_eq' p (fun u _ v _ z => ?_) _
    dsimp only
    cases z with
    | none =>
      cases DocScores.find? (ih.searchWord u) d <;>
        cases DocScores.find? (ih.searchWord v) d <;> rfl
    | some a =>
      cases DocScores.find? (ih.searchWord u) d with
      | none => cases DocScores.find? (ih.searchWord v) d <;> rfl
      | some s1 =>
        cases DocScores.find? (ih.searchWord v) d with
        | none => rfl
        | some s2 =>
          show some (a + s1 + s2) = some (a + s2 + s1)
          rw [ha, ha, hc s1 s2]
  | swap x y l =>
    simp only [andScore, List.foldl_cons]
    congr 1
    cases DocScores.find? (ih.searchWord x) d with
    | none => cases DocScores.find? (ih.searchWord y) d <;> rfl
    | some s1 =>
      cases DocScores.find? (ih.searchWord y) d with
      | none => rfl
      | some s2 =>
        show some (s2 + s1) = some (s1 + s2)
        rw [hc]
  | trans _ _ ih1 ih2 => exact ih1.trans ih2

/-- With commutative and associative addition, the boosts of a list of organization
or person clauses can be applied in any order. -/
theorem boostFold_perm [Add S] [Mul S] [OfScientific S] (search : Str → List (Str × S))
    (d : Str) (hc : ∀ a b : S, a + b = b + a) (ha : ∀ a b c : S, a + b + c = a + (b + c))
    {l1 l2 : List Str} (p : l1.Perm l2) (acc : Option S) :
    l1.foldl (fun acc c => boostStep d acc (search c)) acc =
      l2.foldl (fun acc c => boostStep d acc (search c)) acc := by
  refine List.Perm.foldl_eq' p (fun u _ v _ z => ?_) acc
  simp only [boostStep]
  cases DocScores.find? (search u) d with
  | none => cases DocScores.find? (search v) d <;> rfl
  | some s1 =>
    cases DocScores.find? (search v) d with
    | none => rfl
    | some s2 =>
      cases z with
      | none =>
        show some (s1 * 1.5 + s2 * 1.5) = some (s2 * 1.5 + s1 * 1.5)
        rw [hc]
      | some a =>
        show some (a + s1 * 1.5 + s2 * 1.5) = some (a + s2 * 1.5 + s1 * 1.5)
        rw [ha, ha, hc (s1 * 1.5)]

theorem any_perm {A : Type} (f : A → Bool) {l1 l2 : List A} (p : l1.Perm l2) :
    l1.any f = l2.any f := by
  rw [Bool.eq_iff_iff, List.any_eq_true, List.any_eq_true]
  exact ⟨fun ⟨x, hx, h⟩ => ⟨x, p.mem_iff.mp hx, h⟩, fun ⟨x, hx, h⟩ => ⟨x, p.mem_iff.mpr hx, h⟩⟩

/-- With commutative and associative addition, the entry of a document in the
final score map is the same for clause lists that are permutations of each other. -/
theorem finalScore_perm [Add S] [Mul S] [OfScientific S] (ih : IndexHandler S) (d : Str)
    (hc : ∀ a b : S, a + b = b + a) (ha : ∀ a b c : S, a + b + c = a + (b + c))
    (c1 c2 : Clauses) (pt : c1.1.Perm c2.1) (po : c1.2.1.Perm c2.2.1)
    (pp : c1.2.2.1.Perm c2.2.2.1) (pe : c1.2.2.2.Perm c2.2.2.2) :
    finalScore ih d c1 = finalScore ih d c2 := by
  obtain ⟨t1, o1, p1, e1⟩ := c1
  obtain ⟨t2, o2, p2, e2⟩ := c2
  simp only [finalScore]
  rw [any_perm _ pe, andScore_perm ih d hc ha pt,
    boostFold_perm ih.searchOrganization d hc ha po,
    boostFold_perm ih.searchPerson d hc ha pp]

theorem boostStep_isSome_iff [Add S] [Mul S] [OfScientific S] (d : Str) (acc : Option S)
    (results : List (Str × S)) :
    (boostStep d acc results).isSome ↔ acc.isSome ∨ d ∈ DocScores.keys results := by
  rw [← DocScores.find?_isSome_iff]
  simp only [boostStep]
  cases DocScores.find? results d <;> cases acc <;> simp

theorem boostStep_fold_isSome_iff [Add S] [Mul S] [OfScientific S]
    (search : Str → List (Str × S)) (d : Str) (clauses : List Str) (acc : Option S) :
    (clauses.foldl (fun acc c => boostStep d acc (search c)) acc).isSome ↔
      acc.isSome ∨ ∃ c ∈ clauses, d ∈ DocScores.keys (search c) := by
  induction clauses generalizing acc with
  | nil => simp
  | cons c rest ih' =>
    simp only [List.foldl_cons, ih', boostStep_isSome_iff, List.mem_cons, exists_eq_or_imp,
      or_assoc]

theorem andScore_isSome_iff [Add S] (ih : IndexHandler S) (d : Str) (terms : List Str) :
    (andScore ih d terms).isSome ↔
      terms ≠ [] ∧ ∀ t ∈ terms, d ∈ DocScores.keys (ih.searchWord t) := by
  cases terms with
  | nil => simp [andScore]
  | cons t rest =>
    rw [andScore_isSome ih d _ (List.cons_ne_nil _ _)]
    simp

/-- The documents of the final score map, whatever the arithmetic on scores: those
that no exclusion clause lists and that every term (of at least one) lists, or some
organization clause, or some person clause. -/
theorem finalScore_isSome_iff [Add S] [Mul S] [OfScientific S] (ih : IndexHandler S)
    (d : Str) (terms orgs persons exclusions : List Str) :
    (finalScore ih d (terms, orgs, persons, exclusions)).isSome ↔
      (∀ x ∈ exclusions, d ∉ DocScores.keys (ih.searchWord x)) ∧
      ((terms ≠ [] ∧ ∀ t ∈ terms, d ∈ DocScores.keys (ih.searchWord t)) ∨
        (∃ o ∈ orgs, d ∈ DocScores.keys (ih.searchOrganization o)) ∨
        (∃ p ∈ persons, d ∈ DocScores.keys (ih.searchPerson p))) := by
  simp only [finalScore]
  by_cases hex : exclusions.any
      (fun x => decide (d ∈ DocScores.keys (ih.searchWord x))) = true
  · rw [if_pos hex]
    obtain ⟨x, hx, hd⟩ := List.any_eq_true.mp hex
    simp only [Option.isSome_none, Bool.false_eq_true, false_iff, not_and]
    intro h
    exact absurd (of_decide_eq_true hd) (h x hx)
  · rw [if_neg hex, boostStep_fold_isSome_iff, boostStep_fold_isSome_iff,
      andScore_isSome_iff, or_assoc]
    have hall : ∀ x ∈ exclusions, d ∉ DocScores.keys (ih.searchWord x) := by
      intro x hx hd
      exact hex (List.any_eq_true.mpr ⟨x, hx, decide_eq_true hd⟩)
    exact ⟨fun h => ⟨hall, h⟩, fun h => h.2⟩

/-- Whether a document is in the final score map is the same for clause lists that
are permutations of each other, whatever the arithmetic on scores. -/
theorem finalScore_isSome_perm [Add S] [Mul S] [OfScientific S] (ih : IndexHandler S)
    (d : Str) (c1 c2 : Clauses) (pt : c1.1.Perm c2.1) (po : c1.2.1.Perm c2.2.1)
    (pp : c1.2.2.1.Perm c2.2.2.1) (pe : c1.2.2.2.Perm c2.2.2.2) :
    (finalScore ih d c1).isSome ↔ (finalScore ih d c2).isSome := by
  obtain ⟨t1, o1, p1, e1⟩ := c1
  obtain ⟨t2, o2, p2, e2⟩ := c2
  have hne : t1 ≠ [] ↔ t2 ≠ [] :=
    ⟨fun h e => h (e ▸ pt).eq_nil, fun h e => h (e ▸ pt.symm).eq_nil⟩
  rw [finalScore_isSome_iff, finalScore_isSome_iff, hne]
  simp only [fun a => List.Perm.mem_iff (a := a) pt, fun a => List.Perm.mem_iff (a := a) po,
    fun a => List.Perm.mem_iff (a := a) pp, fun a => List.Perm.mem_iff (a := a) pe]

/-- C31: when the tokens of a query are permuted, the set of documents in the score
map that `processQuery` computes is unchanged, for every catalog (whose postings
have unique document ids, as every `std::unordered_map` has) and whatever the
arithmetic on scores; and with exact arithmetic, that is with a commutative and
associative addition, the score of each document is unchanged too. -/
theorem C31_token_order_irrelevant [Add S] [Mul S] [OfScientific S] (lib : ThirdParty)
    (ih : IndexHandler S) (q1 q2 : Str) (hp : (tokens q1).Perm (tokens q2))
    (hu : ih.PostingsUnique) :
    (∀ d, d ∈ DocScores.keys (queryScores lib ih q1) ↔
      d ∈ DocScores.keys (queryScores lib ih q2)) ∧
    ((∀ a b : S, a + b = b + a) → (∀ a b c : S, a + b + c = a + (b + c)) →
      ∀ d, DocScores.find? (queryScores lib ih q1) d =
        DocScores.find? (queryScores lib ih q2) d) := by
  obtain ⟨pt, po, pp, pe⟩ := parseQuery_perm lib q1 q2 hp
  constructor
  · intro d
    rw [← DocScores.find?_isSome_iff, ← DocScores.find?_isSome_iff, queryScores, queryScores,
      find?_clauseScores ih _ d hu, find?_clauseScores ih _ d hu]
    exact finalScore_isSome_perm ih d _ _ pt po pp pe
  · intro hc ha d
    rw [queryScores, queryScores, find?_clauseScores ih _ d hu, find?_clauseScores ih _ d hu]
    exact finalScore_perm ih d hc ha _ _ pt po pp pe

/-- C31 on `entityCatalog`: a query with a clause of each kind, and the same tokens
in reverse order. -/
theorem C31_token_order_irrelevant_witness :
    (tokens (str "stock ORG:Google PERSON:Tim -bad")).Perm
      (tokens (str "-bad PERSON:Tim ORG:Google stock")) ∧
    entityCatalog.PostingsUnique ∧
    (∀ d, d ∈ DocScores.keys (queryScores exampleLib entityCatalog
        (str "stock ORG:Google PERSON:Tim -bad")) ↔
      d ∈ DocScores.keys (queryScores exampleLib entityCatalog
        (str "-bad PERSON:Tim ORG:Google stock"))) ∧
    (∀ d, DocScores.find? (queryScores exampleLib entityCatalog
        (str "stock ORG:Google PERSON:Tim -bad")) d =
      DocScores.find? (queryScores exampleLib entityCatalog
        (str "-bad PERSON:Tim ORG:Google stock")) d) :=
  ⟨by decide, by unfold IndexHandler.PostingsUnique; decide,
    (C31_token_order_irrelevant exampleLib entityCatalog
      (str "stock ORG:Google PERSON:Tim -bad") (str "-bad PERSON:Tim ORG:Google stock")
      (by decide) (by unfold IndexHandler.PostingsUnique; decide)).1,
    (C31_token_order_irrelevant exampleLib entityCatalog
      (str "stock ORG:Google PERSON:Tim -bad") (str "-bad PERSON:Tim ORG:Google stock")
      (by decide) (by unfold IndexHandler.PostingsUnique; decide)).2 add_comm add_assoc⟩

end QueryProcessor
